import Mathlib

/-!
Verification development for the two text-dialect converters of a
configuration-space library (`pcs_new` — the explicit dialect, and
`irace` — the compact dialect).

The Python sources are shallowly embedded here:

* each pyparsing expression becomes an executable parser over `List Char`
  (parsers match a *prefix* of the input and skip whitespace before each
  terminal, exactly as `ParserElement.parseString` does with the default
  `parseAll=False`);
* `read` and `write` become functions in the `Except PErr` monad, following
  the Python control flow statement by statement;
* Python's untyped runtime failures (`IndexError` on out-of-range indexing,
  `NameError` on reading a never-assigned local) are modelled by the
  dedicated error values `PErr.indexError` and `PErr.nameError`;
* numeric fields of hyperparameters are carried as their surface strings:
  Python-`float` conversion/formatting is outside the scope of the
  properties proved here (no proved statement depends on float semantics).

The domain model (hyperparameters, conditions, forbidden clauses, the
configuration-space container) lives outside the two source files; it is
modelled from the specification's data-model section (see the doc comments
marked `Modelled from the spec:`).
-/

/-- Characters pyparsing treats as skippable whitespace (default white chars). -/
def isWsChar (c : Char) : Bool := c = ' ' || c = '\t' || c = '\n'

/-- Characters Python `str.strip()` removes at both ends (the ones that can occur here). -/
def isPyStripChar (c : Char) : Bool := c = ' ' || c = '\t' || c = '\n' || c = '\r'

/-- The permitted identifier character set of both dialects:
`pyparsing.Word(alphanums + "_-@.:;\\/?!$%&*+<>")`. -/
def nameChar (c : Char) : Bool :=
  c.isAlphanum || c = '_' || c = '-' || c = '@' || c = '.' || c = ':' || c = ';' ||
  c = '\\' || c = '/' || c = '?' || c = '!' || c = '$' || c = '%' || c = '&' ||
  c = '*' || c = '+' || c = '<' || c = '>'

/-- Character set of `pp_param_operation = Word("in" + "!=" + "==" + ">" + "<")`:
the union of the characters of those strings. -/
def opChar (c : Char) : Bool :=
  c = 'i' || c = 'n' || c = '!' || c = '=' || c = '>' || c = '<'

/-- Character set of `pp_param_type = Word("integer" + "real" + "categorical")`. -/
def typeChar (c : Char) : Bool :=
  c = 'i' || c = 'n' || c = 't' || c = 'e' || c = 'g' || c = 'r' ||
  c = 'a' || c = 'l' || c = 'c' || c = 'o'

/-- Character set of `pp_param_val = Word(alphanums + digits)` (digits ⊆ alphanums). -/
def valChar (c : Char) : Bool := c.isAlphanum

/-- Character set of `pp_log = Word("log")`. -/
def logChar (c : Char) : Bool := c = 'l' || c = 'o' || c = 'g'

/-- Character set of `pp_il = Word("il")` (the irace integer/log marker). -/
def ilChar (c : Char) : Bool := c = 'i' || c = 'l'

/-- Character set of `pp_connective = Word("||" + "&&")`. -/
def connChar (c : Char) : Bool := c = '|' || c = '&'

/-- Result of a pyparsing-style parser: the tokens matched so far and the
remaining (unconsumed) input.  `none` models a `ParseException`. -/
abbrev PRes := Option (List String × List Char)

/-- A pyparsing-style parser over character lists. -/
abbrev P := List Char → PRes

/-- Leading-whitespace skipping performed before each pyparsing terminal. -/
def skipWs (cs : List Char) : List Char := cs.dropWhile isWsChar

/-- `pyparsing.Word(chars)`: skip whitespace, then match one or more characters
from the class (maximal munch). -/
def pWord (p : Char → Bool) : P := fun cs =>
  let cs1 := skipWs cs
  let tok := cs1.takeWhile p
  if tok.isEmpty then none else some ([String.mk tok], cs1.drop tok.length)

/-- `pyparsing.Literal(s)`: skip whitespace, then match the exact string. -/
def pLit (s : String) : P := fun cs =>
  let cs1 := skipWs cs
  if s.toList.isPrefixOf cs1 then some ([s], cs1.drop s.toList.length) else none

/-- Sequencing (`pyparsing.And`): both parts must match, token lists concatenate. -/
def pSeq (a b : P) : P := fun cs =>
  match a cs with
  | none => none
  | some (t1, cs1) =>
    match b cs1 with
    | none => none
    | some (t2, cs2) => some (t1 ++ t2, cs2)

/-- `pyparsing.Optional`: match if possible, otherwise consume nothing. -/
def pOpt (a : P) : P := fun cs =>
  match a cs with
  | none => some ([], cs)
  | some r => some r

/-- `pyparsing.MatchFirst` (`|`): first alternative that matches wins. -/
def pAlt (a b : P) : P := fun cs =>
  match a cs with
  | some r => some r
  | none => b cs

/-- Repetition engine for `pyparsing.OneOrMore` wrapped in `Optional`
(i.e. zero-or-more): repeat while the body matches, with explicit fuel.
Every body used in the grammars consumes at least one character per
iteration, so fuel `input length + 1` reproduces pyparsing exactly. -/
def pManyAux (a : P) : Nat → P
  | 0 => fun cs => some ([], cs)
  | n + 1 => fun cs =>
    match a cs with
    | none => some ([], cs)
    | some (t, cs1) =>
      match pManyAux a n cs1 with
      | none => some (t, cs1)
      | some (t2, cs2) => some (t ++ t2, cs2)

/-- `Optional(OneOrMore(a))`, as used for choice lists and forbidden-clause tails. -/
def pMany (a : P) : P := fun cs => pManyAux a (cs.length + 1) cs

/-- One or more digits, adjacent (no whitespace skipping): used inside `Combine`. -/
def takeDigits (cs : List Char) : Option (List Char × List Char) :=
  let ds := cs.takeWhile Char.isDigit
  if ds.isEmpty then none else some (ds, cs.drop ds.length)

/-- `Optional('+' | '-')`, adjacent. -/
def takeSign (cs : List Char) : List Char × List Char :=
  match cs with
  | c :: t => if c = '+' || c = '-' then ([c], t) else ([], cs)
  | [] => ([], [])

/-- `pp_int = Combine(Optional(plusorminus) + Word(digits))`, adjacent body. -/
def matchIntAdj (cs : List Char) : Option (List Char × List Char) :=
  let (sg, cs1) := takeSign cs
  match takeDigits cs1 with
  | none => none
  | some (ds, cs2) => some (sg ++ ds, cs2)

/-- `pp_float = Combine(Optional(plusorminus) + Optional(pp_int) + "." + pp_int)`. -/
def matchFloatAdj (cs : List Char) : Option (List Char × List Char) :=
  let (sg, cs1) := takeSign cs
  let (ip, cs2) :=
    match matchIntAdj cs1 with
    | some (t, r) => (t, r)
    | none => ([], cs1)
  match cs2 with
  | '.' :: cs3 =>
    match matchIntAdj cs3 with
    | some (fp, cs4) => some (sg ++ ip ++ '.' :: fp, cs4)
    | none => none
  | _ => none

/-- `pp_floatorint = pp_float | pp_int`, adjacent. -/
def matchFloatOrIntAdj (cs : List Char) : Option (List Char × List Char) :=
  match matchFloatAdj cs with
  | some r => some r
  | none => matchIntAdj cs

/-- `pp_e_notation = Combine(pp_floatorint + (e|E) + pp_int)`. -/
def matchENotAdj (cs : List Char) : Option (List Char × List Char) :=
  match matchFloatOrIntAdj cs with
  | none => none
  | some (m, cs1) =>
    match cs1 with
    | c :: cs2 =>
      if c = 'e' || c = 'E' then
        match matchIntAdj cs2 with
        | some (ex, cs3) => some (m ++ c :: ex, cs3)
        | none => none
      else none
    | [] => none

/-- `pp_number = pp_e_notation | pp_float | pp_int` (each a `Combine`,
which skips leading whitespace as a unit). -/
def pNumber : P := fun cs =>
  let cs1 := skipWs cs
  match matchENotAdj cs1 with
  | some (t, r) => some ([String.mk t], r)
  | none =>
    match matchFloatAdj cs1 with
    | some (t, r) => some ([String.mk t], r)
    | none =>
      match matchIntAdj cs1 with
      | some (t, r) => some ([String.mk t], r)
      | none => none

/-- `pp_param_name`. -/
def pName : P := pWord nameChar

/-- `pp_numberorname = pp_number | pp_param_name`. -/
def pNumberOrName : P := pAlt pNumber pName

/-- `pp_choices = pp_param_name + Optional(OneOrMore("," + pp_param_name))`. -/
def pChoices : P := pSeq pName (pMany (pSeq (pLit ",") pName))

/-- Explicit-dialect continuous-parameter grammar `pp_cont_param` of `pcs_new`. -/
def pcsContParam : P :=
  pSeq pName (pSeq (pWord typeChar)
    (pSeq (pLit "[") (pSeq pNumber (pSeq (pLit ",") (pSeq pNumber
      (pSeq (pLit "]") (pSeq (pLit "[") (pSeq pNumber
        (pSeq (pLit "]") (pOpt (pWord logChar)))))))))))

/-- Explicit-dialect categorical-parameter grammar `pp_cat_param` of `pcs_new`. -/
def pcsCatParam : P :=
  pSeq pName (pSeq (pWord typeChar)
    (pSeq (pLit "\x7b") (pSeq pChoices (pSeq (pLit "\x7d")
      (pSeq (pLit "[") (pSeq pName (pLit "]")))))))

/-- Explicit-dialect condition grammar `pp_condition` of `pcs_new`. -/
def pcsCondition : P :=
  pSeq pName (pSeq (pLit "|") (pSeq pName (pSeq (pWord opChar)
    (pSeq (pOpt (pLit "\x7b")) (pSeq (pWord valChar) (pSeq (pOpt (pLit "\x7d"))
      (pOpt (pSeq (pWord connChar) (pSeq pName (pSeq (pWord opChar) (pWord valChar)))))))))))

/-- Forbidden-clause grammar `pp_forbidden_clause` (identical in both dialects). -/
def pForbiddenClause : P :=
  pSeq (pLit "\x7b") (pSeq pName (pSeq (pLit "=") (pSeq pNumberOrName
    (pSeq (pMany (pSeq (pLit ",") (pSeq pName (pSeq (pLit "=") pNumberOrName))))
      (pLit "\x7d")))))

/-- Compact-dialect continuous-parameter grammar `pp_cont_param` of `irace`. -/
def iraceContParam : P :=
  pSeq pName
    (pSeq (pLit "[") (pSeq pNumber (pSeq (pLit ",") (pSeq pNumber
      (pSeq (pLit "]") (pSeq (pLit "[") (pSeq pNumber
        (pSeq (pLit "]") (pOpt (pWord ilChar))))))))))

/-- Compact-dialect categorical-parameter grammar `pp_cat_param` of `irace`. -/
def iraceCatParam : P :=
  pSeq pName
    (pSeq (pLit "\x7b") (pSeq pChoices (pSeq (pLit "\x7d")
      (pSeq (pLit "[") (pSeq pName (pLit "]"))))))

/-- Compact-dialect condition grammar `pp_condition` of `irace`. -/
def iraceCondition : P :=
  pSeq pName (pSeq (pLit "|") (pSeq pName (pSeq (pLit "in")
    (pSeq (pLit "\x7b") (pSeq pChoices (pLit "\x7d"))))))

/-- `expr.parseString(s)` with the default `parseAll=False`: parse a prefix. -/
def runParse (g : P) (s : String) : PRes := g s.toList

/-- A parse that consumes the whole line up to trailing whitespace — what
`parseAll=True` (and the specification's words "matches the full line")
would require.  Used only to state claims, never by the embedded code. -/
def fullMatches (g : P) (s : String) : Bool :=
  match g s.toList with
  | some (_, rest) => (skipWs rest).isEmpty
  | none => false

/-- `Modelled from the spec:` hyperparameter variants (§3 Data Model).  The
classes themselves live in `ConfigSpace.hyperparameters`, outside the two
source files.  `uniform` covers `UniformIntegerHyperparameter`
(`isInt = true`) and `UniformFloatHyperparameter` (`isInt = false`);
numeric fields are carried as their surface strings (float semantics are
out of scope here). -/
inductive Hyperparameter where
  | uniform (name : String) (isInt : Bool) (lower upper default : String)
      (log : Bool) (q : Option Int)
  | categorical (name : String) (choices : List String) (default : String)
  | constant (name : String) (value : String)
deriving DecidableEq, Repr

/-- Name of a hyperparameter. -/
def hpName : Hyperparameter → String
  | .uniform n _ _ _ _ _ _ => n
  | .categorical n _ _ => n
  | .constant n _ => n

/-- `Modelled from the spec:` condition variants (§3).  Conditions refer to
hyperparameters by name (non-owning references resolved through the space). -/
inductive Condition where
  | equals (child parent value : String)
  | notEquals (child parent value : String)
  | inCond (child parent : String) (values : List String)
  | andConj (cs : List Condition)
  | orConj (cs : List Condition)

/-- `Modelled from the spec:` forbidden-clause variants (§3). -/
inductive Forbidden where
  | equalsF (hp value : String)
  | inF (hp : String) (values : List String)
  | andF (cs : List Forbidden)

mutual

/-- `get_descendant_literal_clauses`: the leaves of a forbidden-clause tree,
in order. -/
def Forbidden.dlcs : Forbidden → List Forbidden
  | .equalsF h v => [.equalsF h v]
  | .inF h vs => [.inF h vs]
  | .andF cs => Forbidden.dlcsList cs

/-- Leaves of a list of forbidden-clause trees, in order. -/
def Forbidden.dlcsList : List Forbidden → List Forbidden
  | [] => []
  | c :: cs => Forbidden.dlcs c ++ Forbidden.dlcsList cs

end

/-- `Modelled from the spec:` the configuration-space container (§3):
insertion-ordered hyperparameters, top-level conditions, top-level
forbidden clauses. -/
structure ConfigurationSpace where
  hyperparameters : List Hyperparameter
  conditions : List Condition
  forbiddenClauses : List Forbidden

/-- The empty configuration space. -/
def emptySpace : ConfigurationSpace := ⟨[], [], []⟩

/-- Error taxonomy of the converters.  The first block are the typed errors
of the specification (§7); `parseException` stands for an uncaught
`pyparsing.ParseException`, and `indexError` / `nameError` / `typeError` /
`attributeError` model Python's untyped runtime exceptions at the exact
program points where the source can raise them. -/
inductive PErr where
  | unparsableCondition (line : String)
  | unparsableParameter (line : String)
  | unsupportedForbiddenOp
  | duplicateName (n : String)
  | unknownName (n : String)
  | illegalName (n : String)
  | unsupportedConstruct (msg : String)
  | validation (msg : String)
  | parseException (s : String)
  | indexError
  | nameError
  | typeError (msg : String)
  | attributeError (msg : String)
deriving DecidableEq, Repr

/-- Python list indexing `l[i]`: out of range raises `IndexError`. -/
def idx (l : List String) (i : Nat) : Except PErr String :=
  match l.get? i with
  | some v => Except.ok v
  | none => Except.error PErr.indexError

/-- `Modelled from the spec:` `get_hyperparameter(name)` of the space
container — fails with `UnknownNameError` when absent (§4.1). -/
def getHp (sp : ConfigurationSpace) (n : String) : Except PErr Hyperparameter :=
  match sp.hyperparameters.find? (fun hp => hpName hp = n) with
  | some hp => Except.ok hp
  | none => Except.error (PErr.unknownName n)

/-- `Modelled from the spec:` `add_hyperparameter` — fails with
`DuplicateNameError` when the name exists; it performs no character-set
check on the name (§4.1, and the write-time `IllegalNameError` property
presupposes such names are accepted). -/
def addHyperparameter (sp : ConfigurationSpace) (hp : Hyperparameter) :
    Except PErr ConfigurationSpace :=
  if sp.hyperparameters.any (fun h => hpName h = hpName hp) then
    Except.error (PErr.duplicateName (hpName hp))
  else
    Except.ok { sp with hyperparameters := sp.hyperparameters ++ [hp] }

/-- `Modelled from the spec:` the `CategoricalHyperparameter` constructor
validates its local invariants — non-empty distinct choices, default among
the choices — failing with a `ValidationError` otherwise (§4.1, §3). -/
def mkCategorical (n : String) (choices : List String) (default : String) :
    Except PErr Hyperparameter :=
  if choices.isEmpty then Except.error (PErr.validation n)
  else if !(choices.Nodup : Bool) then Except.error (PErr.validation n)
  else if !(choices.contains default) then Except.error (PErr.validation n)
  else Except.ok (Hyperparameter.categorical n choices default)

/-- `Modelled from the spec:` the uniform (continuous) constructors.  Their
numeric range validation concerns float values, which are out of scope;
the constructor is total on the surface strings carried here. -/
def mkUniform (n : String) (isInt : Bool) (lower upper default : String) (log : Bool) :
    Except PErr Hyperparameter :=
  Except.ok (Hyperparameter.uniform n isInt lower upper default log none)

/-- Python `line[:line.find('#')] if '#' in line else line`. -/
def stripComment (s : String) : String := String.mk (s.toList.takeWhile (fun c => c ≠ '#'))

/-- Python `line.replace('"', "").replace("'", "")`. -/
def stripQuotes (s : String) : String :=
  String.mk (s.toList.filter (fun c => c ≠ '"' && c ≠ '\''))

/-- Python `line.strip()`. -/
def pyStrip (s : String) : String :=
  String.mk (((s.toList.dropWhile isPyStripChar).reverse.dropWhile isPyStripChar).reverse)

/-- The per-line preprocessing of both readers: strip inline comment, strip
quote characters, trim whitespace. -/
def cleanLine (s : String) : String := pyStrip (stripQuotes (stripComment s))

/-- `c ∈ s` for a character. -/
def hasChar (s : String) (c : Char) : Bool := s.toList.contains c

/-- Python `s.split(sep)` for a one-character separator (`"".split` gives `[""]`). -/
def splitCharAux (sep : Char) : List Char → List Char → List String
  | [], acc => [String.mk acc.reverse]
  | c :: t, acc =>
    if c = sep then String.mk acc.reverse :: splitCharAux sep t []
    else splitCharAux sep t (c :: acc)

/-- Python `s.split(sep)` for a one-character separator. -/
def splitChar (sep : Char) (s : String) : List String := splitCharAux sep s.toList []

/-- Iterating a `StringIO`: yields each line including its trailing newline;
a final fragment without a newline is yielded iff non-empty. -/
def linesKeepAux : List Char → List Char → List String
  | [], acc => if acc.isEmpty then [] else [String.mk acc.reverse]
  | c :: t, acc =>
    if c = '\n' then String.mk (c :: acc).reverse :: linesKeepAux t []
    else linesKeepAux t (c :: acc)

/-- Iterating a `StringIO` over its lines. -/
def linesKeep (s : String) : List String := linesKeepAux s.toList []

/-- The `StringIO` accumulation pattern `if buf.tell() > 0: buf.write("\n")`:
join fragments with newlines. -/
def joinNL : List String → String
  | [] => ""
  | a :: t => t.foldl (fun acc l => acc ++ "\n" ++ l) a

/-- Substring test (Python `needle in haystack` on strings). -/
def subList (n : List Char) : List Char → Bool
  | [] => n.isEmpty
  | c :: t => n.isPrefixOf (c :: t) || subList n t

/-- Substring test on strings. -/
def containsStr (hay needle : String) : Bool := subList needle.toList hay.toList

/-- Keep every other element starting with the first (step 2). -/
def everyOther : List α → List α
  | [] => []
  | [a] => [a]
  | a :: _ :: t => a :: everyOther t

/-- Python slice `l[start : -negOff : 2]` (negative stop, step two), as used
for `[3:-4:2]`, `[5:-1:2]`, `[9:-1:2]`, `[11:-1:2]`. -/
def pySlice2 (l : List String) (start negOff : Nat) : List String :=
  everyOther ((l.take (l.length - negOff)).drop start)

/-- First occurrence order of keys, as produced by accumulating into an
`OrderedDict`. -/
def firstOccurAux (seen : List String) : List String → List String
  | [] => []
  | a :: t =>
    if seen.contains a then firstOccurAux seen t
    else a :: firstOccurAux (a :: seen) t

/-- Distinct keys in first-occurrence order. -/
def firstOccur (l : List String) : List String := firstOccurAux [] l

/-- `itertools.product` over a list of lists (product of none is `[[]]`). -/
def pyProduct : List (List α) → List (List α)
  | [] => [[]]
  | l :: ls => (l.map (fun a => (pyProduct ls).map (fun c => a :: c))).flatten

/-- Python `sep.join(list)`. -/
def joinSep (sep : String) : List String → String
  | [] => ""
  | [a] => a
  | a :: rest => a ++ sep ++ joinSep sep rest

/-- The serializer's name check `pp_param_name.parseString(name)` (default
`parseAll=False`): succeeds iff, after skipping leading whitespace, the
name starts with at least one permitted character. -/
def checkNameB (n : String) : Bool :=
  match skipWs n.toList with
  | [] => false
  | c :: _ => nameChar c

/-- `build_continuous` of `pcs_new` (numeric fields carried verbatim;
the normal-distribution variants are outside this model). -/
def pcsBuildContinuous (n : String) (isInt : Bool) (lower upper default : String)
    (log : Bool) (q : Option Int) : String :=
  let qp := match q with
    | some qv => "Q" ++ toString qv ++ "_"
    | none => ""
  let core :=
    if isInt then qp ++ n ++ " integer [" ++ lower ++ ", " ++ upper ++ "] [" ++ default ++ "]"
    else qp ++ n ++ " real [" ++ lower ++ ", " ++ upper ++ "] [" ++ default ++ "]"
  if log then core ++ "log" else core

/-- `build_categorical` of `pcs_new`. -/
def pcsBuildCategorical (n : String) (choices : List String) (default : String) : String :=
  n ++ " categorical \x7b" ++ joinSep ", " choices ++ "\x7d [" ++ default ++ "]"

/-- `build_constant` of `pcs_new`. -/
def pcsBuildConstant (n v : String) : String :=
  n ++ " \x7b" ++ v ++ "\x7d [" ++ v ++ "]"

/-- The per-hyperparameter dispatch of `pcs_new.write`. -/
def pcsBuildParam : Hyperparameter → String
  | .uniform n isInt lo hi d log q => pcsBuildContinuous n isInt lo hi d log q
  | .categorical n cs d => pcsBuildCategorical n cs d
  | .constant n v => pcsBuildConstant n v

/-- The parameter loop of `pcs_new.write`: check each name against
`pp_param_name` (raising `IllegalNameError` at the first failure), then
render the parameter line. -/
def pcsParamLines : List Hyperparameter → Except PErr (List String)
  | [] => Except.ok []
  | hp :: t =>
    if checkNameB (hpName hp) then do
      let rest ← pcsParamLines t
      pure (pcsBuildParam hp :: rest)
    else Except.error (PErr.illegalName (hpName hp))

/-- `build_condition` of `pcs_new`: renders the three leaf variants with the
template `"%s | %s {%s}"`; conjunctions fall through every `isinstance`
branch and the Python function returns `None`. -/
def pcsBuildCondition : Condition → Option String
  | .notEquals c p v => some (c ++ " | " ++ p ++ " \x7b" ++ v ++ "\x7d")
  | .inCond c p vs => some (c ++ " | " ++ p ++ " \x7b" ++ joinSep ", " vs ++ "\x7d")
  | .equals c p v => some (c ++ " | " ++ p ++ " \x7b" ++ v ++ "\x7d")
  | _ => none

/-- The condition loop of `pcs_new.write`: `condition_lines.write(None)`
raises a `TypeError` when `build_condition` returned `None`. -/
def pcsCondLines : List Condition → Except PErr (List String)
  | [] => Except.ok []
  | c :: t =>
    match pcsBuildCondition c with
    | none => Except.error (PErr.typeError "string argument expected, got NoneType")
    | some s => do
      let rest ← pcsCondLines t
      pure (s :: rest)

/-- Rendering one descendant literal clause as `name=value`
(`"%s=%s" % (dlc.hyperparameter.name, dlc.value)`).  A multi-value leaf has
no single `value`; reaching it would be an attribute error (`Modelled from
the spec:` the forbidden-clause variants' fields, §3) — unreachable in both
writers because membership leaves are expanded away first. -/
def renderDlc : Forbidden → Except PErr String
  | .equalsF h v => Except.ok (h ++ "=" ++ v)
  | .inF h _ => Except.error (PErr.attributeError h)
  | .andF _ => Except.error (PErr.attributeError "conjunction")

/-- `build_forbidden` of `pcs_new`: braces around the comma-joined
`name=value` renderings of all descendant literal clauses. -/
def pcsBuildForbidden (clause : Forbidden) : Except PErr String := do
  let parts ← (Forbidden.dlcs clause).mapM renderDlc
  pure ("\x7b" ++ joinSep ", " parts ++ "\x7d")

/-- The split of a clause's descendant literals into membership statements
(each becoming the list of its single-value equalities) and the remaining
plain statements, in visit order — the `in_statements` / `other_statements`
loop of both writers. -/
def splitInOther : List Forbidden → List (List Forbidden) × List Forbidden
  | [] => ([], [])
  | .inF h vs :: rest =>
    let r := splitInOther rest
    ((vs.map (fun v => Forbidden.equalsF h v)) :: r.1, r.2)
  | other :: rest =>
    let r := splitInOther rest
    (r.1, other :: r.2)

/-- The per-clause expansion of `pcs_new.write`: clauses with membership
leaves become one rendered conjunction per element of the Cartesian product
of the membership value sets; clauses without are rendered directly. -/
def pcsExpandClause (clause : Forbidden) : Except PErr (List String) :=
  if ((splitInOther (Forbidden.dlcs clause)).1).isEmpty then do
    let s ← pcsBuildForbidden clause
    pure [s]
  else
    (pyProduct ((splitInOther (Forbidden.dlcs clause)).1)).mapM
      (fun p => pcsBuildForbidden (Forbidden.andF (p ++ (splitInOther (Forbidden.dlcs clause)).2)))

/-- All expanded forbidden-clause lines of `pcs_new.write`, in clause order. -/
def pcsForbiddenLines (fs : List Forbidden) : Except PErr (List String) := do
  let ls ← fs.mapM pcsExpandClause
  pure ls.flatten

/-- Lexicographic (code-point) comparison on character lists, as Python's
string `<=` used by `list.sort()`. -/
def lexLeb : List Char → List Char → Bool
  | [], _ => true
  | _ :: _, [] => false
  | a :: s, b :: t => if a = b then lexLeb s t else decide (a.toNat < b.toNat)

/-- Python string `<=`. -/
def strLeb (a b : String) : Bool := lexLeb a.toList b.toList

/-- `forbidden_lines.sort()`. -/
def sortLines (ls : List String) : List String :=
  List.insertionSort (fun a b => strLeb a b = true) ls

/-- `write` of `pcs_new`: parameter lines, then (if any) a blank line and the
condition lines, then (if any) a blank line and the lexicographically
sorted forbidden lines, each followed by a newline. -/
def pcsWrite (sp : ConfigurationSpace) : Except PErr String := do
  let params ← pcsParamLines sp.hyperparameters
  let conds ← pcsCondLines sp.conditions
  let forb ← pcsForbiddenLines sp.forbiddenClauses
  let t0 := joinNL params
  let t1 := if conds.isEmpty then t0 else t0 ++ "\n\n" ++ joinNL conds
  let t2 :=
    if forb.isEmpty then t1
    else t1 ++ "\n\n" ++ String.join ((sortLines forb).map (fun l => l ++ "\n"))
  pure t2

/-- `build_categorical` of `irace`. -/
def iraceBuildCategorical (n : String) (choices : List String) : String :=
  n ++ " '--" ++ n ++ " ' c (" ++ joinSep "," choices ++ ")"

/-- `build_constant` of `irace`. -/
def iraceBuildConstant (n v : String) : String :=
  n ++ " '--" ++ n ++ " ' c (" ++ v ++ ")"

/-- `build_continuous` of `irace` (the float template carries a trailing
space; neither template renders the default or the log flag). -/
def iraceBuildContinuous (n : String) (isInt : Bool) (lower upper : String) : String :=
  if isInt then n ++ " '--" ++ n ++ " ' i (" ++ lower ++ ", " ++ upper ++ ")"
  else n ++ " '--" ++ n ++ " ' r (" ++ lower ++ ", " ++ upper ++ ") "

/-- The per-hyperparameter dispatch of `irace.write`. -/
def iraceBuildParam : Hyperparameter → String
  | .uniform n isInt lo hi _d _log _q => iraceBuildContinuous n isInt lo hi
  | .categorical n cs _d => iraceBuildCategorical n cs
  | .constant n v => iraceBuildConstant n v

/-- The parameter loop of `irace.write` (same name check as `pcs_new`). -/
def iraceParamLines : List Hyperparameter → Except PErr (List String)
  | [] => Except.ok []
  | hp :: t =>
    if checkNameB (hpName hp) then do
      let rest ← iraceParamLines t
      pure (iraceBuildParam hp :: rest)
    else Except.error (PErr.illegalName (hpName hp))

/-- The parent-type marker of `irace.build_condition`: `'c'` for a
categorical parent, `'r'` for a uniform float parent, `'i'` otherwise.
(The Python code reads the class of the parent object held by the
condition; here the parent is resolved by name, which cannot fail on a
space satisfying the spec's invariant that conditions reference existing
parents — the `'i'` default also covers an absent name.) -/
def iraceCondParentType (sp : ConfigurationSpace) (parentName : String) : String :=
  match sp.hyperparameters.find? (fun hp => hpName hp = parentName) with
  | some (.categorical _ _ _) => "c"
  | some (.uniform _ false _ _ _ _ _) => "r"
  | _ => "i"

/-- `build_condition` of `irace`: OR-conjunctions and not-equals conditions
are rejected up front; conjunction rendering is unimplemented in the
source (`raise NotImplementedError("This is not yet implemented!")`) — all
three are the specification's `UnsupportedConstructError` (§7).  Leaves
render with the template `"%s | %s %%in%% %s(%s) "`. -/
def iraceBuildCondition (sp : ConfigurationSpace) : Condition → Except PErr String
  | .orConj _ => Except.error (PErr.unsupportedConstruct "IRACE cannot handle OR conditions")
  | .notEquals _ _ _ => Except.error (PErr.unsupportedConstruct "IRACE cannot handle != conditions")
  | .andConj _ => Except.error (PErr.unsupportedConstruct "This is not yet implemented!")
  | .inCond c p vs =>
    Except.ok (c ++ " | " ++ p ++ " %in% " ++ iraceCondParentType sp p ++ "(" ++
      joinSep ", " vs ++ ") ")
  | .equals c p v =>
    Except.ok (c ++ " | " ++ p ++ " %in% " ++ iraceCondParentType sp p ++ "(" ++ v ++ ") ")

/-- The condition loop of `irace.write`. -/
def iraceCondLines (sp : ConfigurationSpace) : List Condition → Except PErr (List String)
  | [] => Except.ok []
  | c :: t => do
    let s ← iraceBuildCondition sp c
    let rest ← iraceCondLines sp t
    pure (s :: rest)

/-- `build_forbidden` of `irace`: like the `pcs_new` version but rejecting a
clause that is neither a single equality nor a conjunction. -/
def iraceBuildForbidden (clause : Forbidden) : Except PErr String :=
  match clause with
  | .inF h _ => Except.error (PErr.unsupportedConstruct ("SMAC cannot handle " ++ h))
  | c => do
    let parts ← (Forbidden.dlcs c).mapM renderDlc
    pure ("\x7b" ++ joinSep ", " parts ++ "\x7d")

/-- The per-clause expansion of `irace.write` (same Cartesian-product
expansion as `pcs_new`). -/
def iraceExpandClause (clause : Forbidden) : Except PErr (List String) :=
  if ((splitInOther (Forbidden.dlcs clause)).1).isEmpty then do
    let s ← iraceBuildForbidden clause
    pure [s]
  else
    (pyProduct ((splitInOther (Forbidden.dlcs clause)).1)).mapM
      (fun p => iraceBuildForbidden (Forbidden.andF (p ++ (splitInOther (Forbidden.dlcs clause)).2)))

/-- All expanded forbidden-clause lines computed by `irace.write` — computed
into `forbidden_lines`, which the function never appends to its output. -/
def iraceForbiddenLines (fs : List Forbidden) : Except PErr (List String) := do
  let ls ← fs.mapM iraceExpandClause
  pure ls.flatten

/-- Replace the first element satisfying `p` by `f` of it. -/
def replaceFirst (l : List String) (p : String → Bool) (f : String → String) : List String :=
  match l with
  | [] => []
  | x :: t => if p x then f x :: t else x :: replaceFirst t p f

/-- One iteration of the condition-splicing loop of `irace.write`: find the
first parameter line containing the condition's first token as a substring
(Python-2 `filter(...)[0]`, an `IndexError` when nothing matches) and
append the double-space-joined remaining tokens to that line. -/
def iraceSpliceCondLine (splitted : List String) (line : String) : Except PErr (List String) :=
  let tokens := splitChar ' ' line
  let childTok := tokens.headD ""
  if (splitted.find? (fun x => containsStr x childTok)).isSome then
    Except.ok (replaceFirst splitted (fun x => containsStr x childTok)
      (fun x => x ++ joinSep "  " tokens.tail))
  else Except.error PErr.indexError

/-- The newline-normalization loop of `irace.write`: `j[-1]` on an empty
line is an `IndexError`; otherwise a line not ending in a newline gets one
appended. -/
def iraceNormalizeLines : List String → Except PErr (List String)
  | [] => Except.ok []
  | x :: t =>
    match x.toList.getLast? with
    | none => Except.error PErr.indexError
    | some c => do
      let rest ← iraceNormalizeLines t
      pure ((if c = '\n' then x else x ++ "\n") :: rest)

/-- `write` of `irace`: parameter lines are rendered and split back on
newlines; each condition line is spliced into the first parameter line
containing its child token; the expanded forbidden lines are computed but
never emitted; the output is the newline-normalized parameter lines. -/
def iraceWrite (sp : ConfigurationSpace) : Except PErr String := do
  let params ← iraceParamLines sp.hyperparameters
  let conds ← iraceCondLines sp sp.conditions
  let _forb ← iraceForbiddenLines sp.forbiddenClauses
  let splitted0 := splitChar '\n' (joinNL params)
  let splitted1 ←
    if conds.isEmpty then pure splitted0
    else (linesKeep (joinNL conds)).foldlM iraceSpliceCondLine splitted0
  let final ← iraceNormalizeLines splitted1
  pure (String.join final)

/-- The state accumulated by the line loop of either `read`: the space under
construction, the parsed condition token lists, and the deferred forbidden
literals. -/
structure ReadState where
  space : ConfigurationSpace
  conds : List (List String)
  forb : List String

/-- The initial read state. -/
def initState : ReadState := ⟨emptySpace, [], []⟩

/-- The continuous-parameter attempt of `pcs_new.read`: on a parse, take the
optional log token from index 10, truncate to ten tokens, decide
integerness by exact membership of `"integer"` among them, read the
numeric fields, and decide the log flag by a substring test on the token. -/
def pcsTryCont (line : String) : Except PErr (Option Hyperparameter) :=
  match runParse pcsContParam line with
  | none => Except.ok none
  | some (toks, _) => do
    let logTok := toks.get? 10
    let tl := toks.take 10
    let name ← idx tl 0
    let isInt := tl.contains "integer"
    let lower ← idx tl 3
    let upper ← idx tl 5
    let logOn :=
      match logTok with
      | some t => subList "log".toList t.toList
      | none => false
    let default ← idx tl 8
    let hp ← mkUniform name isInt lower upper default logOn
    pure (some hp)

/-- The categorical-parameter attempt of `pcs_new.read`: choices are the
token slice `[3:-4:2]`, the default is the second-to-last token. -/
def pcsTryCat (line : String) : Except PErr (Option Hyperparameter) :=
  match runParse pcsCatParam line with
  | none => Except.ok none
  | some (toks, _) => do
    let name ← idx toks 0
    let choices := pySlice2 toks 3 4
    let default ← idx toks (toks.length - 2)
    let hp ← mkCategorical name choices default
    pure (some hp)

/-- One iteration of the line loop of `pcs_new.read`: strip comment, quotes
and whitespace; a line with `'|'` is a condition (parsed now, kept as raw
tokens); a line with neither `'}'` nor `']'` is skipped; a line wrapped in
braces is a deferred forbidden literal; otherwise try the continuous and
then the categorical grammar (a later success overwrites `param`), failing
with `UnparsableParameterError` when neither matched a prefix. -/
def pcsProcessLine (st : ReadState) (line0 : String) : Except PErr ReadState :=
  let line := cleanLine line0
  if hasChar line '|' then
    match runParse pcsCondition line with
    | some (toks, _) => Except.ok { st with conds := st.conds ++ [toks] }
    | none => Except.error (PErr.unparsableCondition line)
  else if !hasChar line '\x7d' && !hasChar line ']' then Except.ok st
  else if line.toList.head? = some '\x7b' && line.toList.getLast? = some '\x7d' then
    Except.ok { st with forb := st.forb ++ [line] }
  else if (pyStrip line).toList.isEmpty then Except.ok st
  else do
    let p0 ← pcsTryCont line
    let p1 ← pcsTryCat line
    match (match p1 with | some hp => some hp | none => p0) with
    | none => Except.error (PErr.unparsableParameter line)
    | some hp => do
      let sp ← addHyperparameter st.space hp
      pure { st with space := sp }

/-- The triple-grouping loop over the forbidden-clause tokens after the
opening brace: accumulate three tokens, then on the next token emit a
`ForbiddenEqualsClause` for the `(name, "=", value)` triple (any other
operator raises `NotImplementedError`) and reset. -/
def forbTriples (sp : ConfigurationSpace) :
    List String → List String → List Forbidden → Except PErr (List Forbidden)
  | [], _tmp, acc => Except.ok acc
  | v :: rest, tmp, acc =>
    if tmp.length < 3 then forbTriples sp rest (tmp ++ [v]) acc
    else if tmp.get? 1 = some "=" then do
      let hp ← getHp sp (tmp.headD "")
      forbTriples sp rest [] (acc ++ [Forbidden.equalsF (hpName hp) ((tmp.get? 2).getD "")])
    else Except.error PErr.unsupportedForbiddenOp

/-- The deferred-forbidden resolution loop of either `read`: parse each
stored literal with `pp_forbidden_clause` (an uncaught `ParseException`
otherwise), group the tokens into equality clauses, attach the resulting
conjunction. -/
def resolveForbidden (sp0 : ConfigurationSpace) (clauses : List String) :
    Except PErr ConfigurationSpace :=
  clauses.foldlM
    (fun sp clause =>
      match runParse pForbiddenClause clause with
      | none => Except.error (PErr.parseException clause)
      | some (toks, _) => do
        let cl ← forbTriples sp (toks.drop 1) [] []
        pure { sp with forbiddenClauses := sp.forbiddenClauses ++ [Forbidden.andF cl] })
    sp0

/-- The "second clause" section of the condition assembly of `pcs_new.read`,
parameterized by the index of the connective token (7 inside the `in`
branch, 5 in the common section): reads the connective, resolves the
second parent, and builds the second condition object; an operation that
is neither `in`, `==` nor `!=` leaves `condition2` at its previous value
(`prev`), and reading it never-assigned is a `NameError`. -/
def pcsCondSecond (sp : ConfigurationSpace) (childName : String) (toks : List String)
    (connIdx : Nat) (prev : Option Condition) : Except PErr (Condition × String) := do
  let connective ← idx toks connIdx
  let parentName2 ← idx toks (connIdx + 1)
  let _ ← getHp sp parentName2
  let operation2 ← idx toks (connIdx + 2)
  let condition2? ←
    if operation2 = "in" then
      pure (some (Condition.inCond childName parentName2 (pySlice2 toks (connIdx + 4) 1)))
    else do
      let r2 ← idx toks (connIdx + 3)
      pure
        (if operation2 = "==" then some (Condition.equals childName parentName2 r2)
         else if operation2 = "!=" then some (Condition.notEquals childName parentName2 r2)
         else prev)
  match condition2? with
  | some c => pure (c, connective)
  | none => Except.error PErr.nameError

/-- Processing one parsed condition line of `pcs_new.read` for a child:
returns the condition objects appended by that line, and the connective
token if the line's processing assigned one.  Mirrors the source exactly:
an `in` line with a second clause re-appends its first condition during
the fall-through into the common section; an equality line without a
second clause indexes past the end of its five tokens (`IndexError`);
an operation matching none of `in`/`==`/`!=` leaves `condition1`
unassigned (`NameError`). -/
def pcsCondLine (sp : ConfigurationSpace) (childName : String) (toks : List String) :
    Except PErr (List Condition × Option String) := do
  let _child ← getHp sp childName
  let parentName ← idx toks 2
  let _parent ← getHp sp parentName
  let operation ← idx toks 3
  if operation = "in" then do
    let condition1 := Condition.inCond childName parentName (pySlice2 toks 5 1)
    if toks.length > 7 then do
      let (condition2, _conn1) ← pcsCondSecond sp childName toks 7 none
      let (condition2b, conn2) ← pcsCondSecond sp childName toks 5 (some condition2)
      pure ([condition1, condition2, condition1, condition2b], some conn2)
    else pure ([condition1], none)
  else do
    let restrictions ← idx toks 4
    let condition1 ←
      if operation = "==" then pure (Condition.equals childName parentName restrictions)
      else if operation = "!=" then pure (Condition.notEquals childName parentName restrictions)
      else Except.error PErr.nameError
    if toks.length > 4 then do
      let (condition2, conn) ← pcsCondSecond sp childName toks 5 none
      pure ([condition1, condition2], some conn)
    else pure ([condition1], none)

/-- Folding `pcsCondLine` over the lines of one child's group, accumulating
condition objects and threading the most recent connective assignment. -/
def pcsChildFold (sp : ConfigurationSpace) (childName : String) :
    List (List String) → List Condition → Option String →
    Except PErr (List Condition × Option String)
  | [], objs, conn => Except.ok (objs, conn)
  | toks :: rest, objs, conn => do
    let (newObjs, connUpd) ← pcsCondLine sp childName toks
    pcsChildFold sp childName rest (objs ++ newObjs)
      (match connUpd with | some c => some c | none => conn)

/-- The final combination step of `pcs_new.read` for one child: one object is
attached as-is; two or more are combined by the current value of
`connective` (`'&&'` → AND, any other value → OR, never assigned →
`NameError`); an empty group would index an empty list. -/
def pcsCombine (objs : List Condition) (conn : Option String) : Except PErr Condition :=
  match objs with
  | [] => Except.error PErr.indexError
  | [o] => Except.ok o
  | _ =>
    match conn with
    | none => Except.error PErr.nameError
    | some c =>
      Except.ok (if c = "&&" then Condition.andConj objs else Condition.orConj objs)

/-- The per-child loop of the condition assembly of `pcs_new.read`, with the
`connective` variable threaded across children exactly as the Python local
persists across loop iterations.  `add_condition` is `Modelled from the
spec:` attaching the composed condition to the space (§4.4). -/
def pcsAssembleAux (conds : List (List String)) :
    ConfigurationSpace → List String → Option String → Except PErr ConfigurationSpace
  | sp, [], _ => Except.ok sp
  | sp, child :: rest, conn => do
    let group := conds.filter (fun t => t.headD "" = child)
    let (objs, conn1) ← pcsChildFold sp child group [] conn
    let combined ← pcsCombine objs conn1
    pcsAssembleAux conds { sp with conditions := sp.conditions ++ [combined] } rest conn1

/-- The condition assembly of `pcs_new.read`: group parsed condition lines by
child name in first-occurrence order and combine each group. -/
def pcsAssembleAll (sp : ConfigurationSpace) (conds : List (List String)) :
    Except PErr ConfigurationSpace :=
  pcsAssembleAux conds sp (firstOccur (conds.map (fun t => t.headD ""))) none

/-- `read` of `pcs_new`: the line loop, then forbidden resolution, then
condition assembly. -/
def pcsRead (lines : List String) : Except PErr ConfigurationSpace := do
  let st ← lines.foldlM pcsProcessLine initState
  let sp ← resolveForbidden st.space st.forb
  pcsAssembleAll sp st.conds

/-- `read` of `pcs_new` applied to a text split on newlines (as the module's
driver does with `write(sp).split("\n")`). -/
def pcsReadText (t : String) : Except PErr ConfigurationSpace := pcsRead (splitChar '\n' t)

/-- The continuous-parameter attempt of `irace.read`: the optional `i`/`l`
marker token sits at index 9; integerness and the log flag are substring
tests on it. -/
def iraceTryCont (line : String) : Except PErr (Option Hyperparameter) :=
  match runParse iraceContParam line with
  | none => Except.ok none
  | some (toks, _) => do
    let ilTok := toks.get? 9
    let tl := toks.take 9
    let name ← idx tl 0
    let lower ← idx tl 2
    let upper ← idx tl 4
    let isInt :=
      match ilTok with
      | some t => t.toList.contains 'i'
      | none => false
    let logOn :=
      match ilTok with
      | some t => t.toList.contains 'l'
      | none => false
    let default ← idx tl 7
    let hp ← mkUniform name isInt lower upper default logOn
    pure (some hp)

/-- The categorical-parameter attempt of `irace.read`: choices are the token
slice `[2:-4:2]`, the default is the second-to-last token. -/
def iraceTryCat (line : String) : Except PErr (Option Hyperparameter) :=
  match runParse iraceCatParam line with
  | none => Except.ok none
  | some (toks, _) => do
    let name ← idx toks 0
    let choices := pySlice2 toks 2 4
    let default ← idx toks (toks.length - 2)
    let hp ← mkCategorical name choices default
    pure (some hp)

/-- One iteration of the line loop of `irace.read` (same classification order
as `pcs_new.read`, with the irace grammars). -/
def iraceProcessLine (st : ReadState) (line0 : String) : Except PErr ReadState :=
  let line := cleanLine line0
  if hasChar line '|' then
    match runParse iraceCondition line with
    | some (toks, _) => Except.ok { st with conds := st.conds ++ [toks] }
    | none => Except.error (PErr.unparsableCondition line)
  else if !hasChar line '\x7d' && !hasChar line ']' then Except.ok st
  else if line.toList.head? = some '\x7b' && line.toList.getLast? = some '\x7d' then
    Except.ok { st with forb := st.forb ++ [line] }
  else if (pyStrip line).toList.isEmpty then Except.ok st
  else do
    let p0 ← iraceTryCont line
    let p1 ← iraceTryCat line
    match (match p1 with | some hp => some hp | none => p0) with
    | none => Except.error (PErr.unparsableParameter line)
    | some hp => do
      let sp ← addHyperparameter st.space hp
      pure { st with space := sp }

/-- Processing one parsed condition line of `irace.read`: the restriction
tokens are the slice `[5:-1:2]`; a single restriction becomes an equality
fact, several become a membership fact. -/
def iraceCondLine (sp : ConfigurationSpace) (childName : String) (toks : List String) :
    Except PErr Condition := do
  let _child ← getHp sp childName
  let parentName ← idx toks 2
  let _parent ← getHp sp parentName
  let restrictions := pySlice2 toks 5 1
  if restrictions.length = 1 then
    pure (Condition.equals childName parentName (restrictions.headD ""))
  else pure (Condition.inCond childName parentName restrictions)

/-- Folding `iraceCondLine` over one child's group. -/
def iraceChildFold (sp : ConfigurationSpace) (childName : String) :
    List (List String) → List Condition → Except PErr (List Condition)
  | [], objs => Except.ok objs
  | toks :: rest, objs => do
    let c ← iraceCondLine sp childName toks
    iraceChildFold sp childName rest (objs ++ [c])

/-- The final combination step of `irace.read` for one child: one fact is
attached as-is, two or more are combined into an AND-conjunction. -/
def iraceCombine (objs : List Condition) : Except PErr Condition :=
  match objs with
  | [] => Except.error PErr.indexError
  | [o] => Except.ok o
  | _ => Except.ok (Condition.andConj objs)

/-- The per-child loop of the condition assembly of `irace.read`. -/
def iraceAssembleAux (conds : List (List String)) :
    ConfigurationSpace → List String → Except PErr ConfigurationSpace
  | sp, [] => Except.ok sp
  | sp, child :: rest => do
    let group := conds.filter (fun t => t.headD "" = child)
    let objs ← iraceChildFold sp child group []
    let combined ← iraceCombine objs
    iraceAssembleAux conds { sp with conditions := sp.conditions ++ [combined] } rest

/-- The condition assembly of `irace.read`. -/
def iraceAssembleAll (sp : ConfigurationSpace) (conds : List (List String)) :
    Except PErr ConfigurationSpace :=
  iraceAssembleAux conds sp (firstOccur (conds.map (fun t => t.headD "")))

/-- `read` of `irace`. -/
def iraceRead (lines : List String) : Except PErr ConfigurationSpace := do
  let st ← lines.foldlM iraceProcessLine initState
  let sp ← resolveForbidden st.space st.forb
  iraceAssembleAll sp st.conds

/-- `read` of `irace` applied to a text split on newlines. -/
def iraceReadText (t : String) : Except PErr ConfigurationSpace := iraceRead (splitChar '\n' t)

/-- A surface token entirely made of permitted identifier characters,
non-empty: the strings the writers can emit and the readers re-tokenize. -/
def goodTokB (s : String) : Bool := !s.toList.isEmpty && s.toList.all nameChar

/-- No duplicates in a list of strings. -/
def listNodupB : List String → Bool
  | [] => true
  | a :: t => !t.contains a && listNodupB t

/-- A categorical hyperparameter whose name, choices and default are
grammar-valid surface tokens satisfying the constructor invariants. -/
def catHpOkB : Hyperparameter → Bool
  | .categorical n cs d =>
    goodTokB n && !cs.isEmpty && cs.all goodTokB && listNodupB cs && cs.contains d
  | _ => false

/-- Whether a name resolves in the space. -/
def hasHpB (sp : ConfigurationSpace) (n : String) : Bool :=
  (sp.hyperparameters.find? (fun hp => hpName hp = n)).isSome

/-- The character encoding of a comma-space separated choice list, as the
explicit-dialect writer emits it. -/
def encChoicesTail : List String → List Char
  | [] => []
  | v :: rest => ',' :: ' ' :: v.toList ++ encChoicesTail rest

/-- The token list the choice-list grammar produces for a written choice
list (choices interleaved with `","` tokens). -/
def tokChoicesTail : List String → List String
  | [] => []
  | v :: rest => "," :: v :: tokChoicesTail rest

/-- The full token list `pp_cat_param` produces on a written categorical
line of the explicit dialect. -/
def catToks (n : String) (cs : List String) (d : String) : List String :=
  match cs with
  | [] => [n, "categorical", "\x7b", "\x7d", "[", d, "]"]
  | v :: rest => [n, "categorical", "\x7b", v] ++ tokChoicesTail rest ++ ["\x7d", "[", d, "]"]

/-- Rendering a conjunction of equality atoms, as the claim's words describe
the clause text `{name=value, name=value, …}`. -/
def specForbiddenRender (atoms : List (String × String)) : String :=
  "\x7b" ++ joinSep ", " (atoms.map (fun a => a.1 ++ "=" ++ a.2)) ++ "\x7d"

/-- The membership atomics of a leaf list, in order, as (name, values). -/
def specMemberships (leaves : List Forbidden) : List (String × List String) :=
  leaves.filterMap (fun g =>
    match g with
    | .inF h vs => some (h, vs)
    | _ => none)

/-- The plain equality atomics of a leaf list, in order, as (name, value). -/
def specPlains (leaves : List Forbidden) : List (String × String) :=
  leaves.filterMap (fun g =>
    match g with
    | .equalsF h v => some (h, v)
    | _ => none)

/-- The claim's description of forbidden-clause expansion: one textual
clause per element of the Cartesian product of the membership value sets,
each an AND of one equality per membership atomic plus all plain atomics. -/
def specExpandForbidden (leaves : List Forbidden) : List String :=
  (pyProduct ((specMemberships leaves).map (fun m => m.2.map (fun v => (m.1, v))))).map
    (fun combo => specForbiddenRender (combo ++ specPlains leaves))

/-- Whether a forbidden clause is atomic. -/
def Forbidden.isLeaf : Forbidden → Bool
  | .andF _ => false
  | _ => true

/-- Whether a forbidden clause is a membership atomic. -/
def Forbidden.isIn : Forbidden → Bool
  | .inF _ _ => true
  | _ => false

/-- The token list `pp_condition` of the compact dialect produces for the
line `child | parent in {v1, v2, …}`. -/
def iraceCondToks (c p : String) (vs : List String) : List String :=
  match vs with
  | [] => [c, "|", p, "in", "\x7b", "\x7d"]
  | v :: rest => [c, "|", p, "in", "\x7b", v] ++ tokChoicesTail rest ++ ["\x7d"]

/-- The parsed fact of one compact-dialect condition line, as the claim
describes it: an equality for a single value, a membership otherwise. -/
def iraceSpecFactOf (c p : String) (vs : List String) : Condition :=
  match vs with
  | [v] => Condition.equals c p v
  | _ => Condition.inCond c p vs

/-- The claim's per-child combination for the compact dialect: a single fact
is attached as-is, two or more facts become one AND-conjunction in line
order. -/
def iraceSpecCombine (facts : List Condition) : Condition :=
  match facts with
  | [f] => f
  | _ => Condition.andConj facts

/-- The shape of one explicit-dialect condition line that the assembly
stage of `pcs_new.read` can process without a runtime error: either a
single membership fact `c | p in {v}`, or two equality/inequality facts
joined by a connective. -/
inductive PcsLineSpec where
  | singleIn (p v : String)
  | pair (p : String) (neq1 : Bool) (v conn p2 : String) (neq2 : Bool) (v2 : String)
deriving DecidableEq, Repr

/-- The token list `pp_condition` of the explicit dialect produces for a
line of the given shape about child `c`. -/
def PcsLineSpec.toToks (c : String) : PcsLineSpec → List String
  | .singleIn p v => [c, "|", p, "in", "\x7b", v, "\x7d"]
  | .pair p n1 v conn p2 n2 v2 =>
    [c, "|", p, (if n1 then "!=" else "=="), v, conn, p2, (if n2 then "!=" else "=="), v2]

/-- The condition leaves the line contributes, in source order. -/
def PcsLineSpec.leaves (c : String) : PcsLineSpec → List Condition
  | .singleIn p v => [Condition.inCond c p [v]]
  | .pair p n1 v _ p2 n2 v2 =>
    [if n1 then Condition.notEquals c p v else Condition.equals c p v,
     if n2 then Condition.notEquals c p2 v2 else Condition.equals c p2 v2]

/-- The connective token the line assigns, if any. -/
def PcsLineSpec.conn? : PcsLineSpec → Option String
  | .singleIn _ _ => none
  | .pair _ _ _ conn _ _ _ => some conn

/-- Whether the line's parent lookups succeed in the space. -/
def PcsLineSpec.lookupsOkB (sp : ConfigurationSpace) : PcsLineSpec → Bool
  | .singleIn p _ => hasHpB sp p
  | .pair p _ _ _ p2 _ _ => hasHpB sp p && hasHpB sp p2

theorem takeWhile_append_all {p : Char → Bool} {l r : List Char} (h : ∀ c ∈ l, p c = true) :
    (l ++ r).takeWhile p = l ++ r.takeWhile p := by
  induction l with
  | nil => simp
  | cons a t ih =>
    simp only [List.cons_append, List.takeWhile_cons, h a (List.mem_cons_self a t)]
    simp only [if_true, List.cons.injEq, true_and]
    rw [ih (fun c hc => h c (List.mem_cons_of_mem a hc))]

theorem dropWhile_append_all {p : Char → Bool} {l r : List Char} (h : ∀ c ∈ l, p c = true) :
    (l ++ r).dropWhile p = r.dropWhile p := by
  induction l with
  | nil => simp
  | cons a t ih =>
    simp only [List.cons_append, List.dropWhile_cons, h a (List.mem_cons_self a t)]
    simp only [if_true]
    exact ih (fun c hc => h c (List.mem_cons_of_mem a hc))

theorem takeWhile_nil_of_head {p : Char → Bool} {r : List Char}
    (h : ∀ c, r.head? = some c → p c = false) : r.takeWhile p = [] := by
  cases r with
  | nil => rfl
  | cons a t => simp [List.takeWhile_cons, h a rfl]

theorem dropWhile_id_of_head {p : Char → Bool} {r : List Char}
    (h : ∀ c, r.head? = some c → p c = false) : r.dropWhile p = r := by
  cases r with
  | nil => rfl
  | cons a t => simp [List.dropWhile_cons, h a rfl]

theorem isPrefixOf_append_self (l r : List Char) : l.isPrefixOf (l ++ r) = true := by
  rw [List.isPrefixOf_iff_prefix]; exact List.prefix_append l r

/-- Case analysis for pyparsing whitespace characters. -/
theorem isWsChar_cases {c : Char} (h : isWsChar c = true) : c = ' ' ∨ c = '\t' ∨ c = '\n' := by
  simp only [isWsChar, Bool.or_eq_true, decide_eq_true_eq] at h
  exact or_assoc.mp h

/-- A permitted identifier character is not whitespace. -/
theorem nameChar_not_ws {c : Char} (h : nameChar c = true) : isWsChar c = false := by
  cases hw : isWsChar c with
  | false => rfl
  | true =>
    rcases isWsChar_cases hw with rfl | rfl | rfl <;> exact absurd h (by decide)


/-- A permitted identifier character is not a Python-strip character. -/
theorem nameChar_not_strip {c : Char} (h : nameChar c = true) : isPyStripChar c = false := by
  cases hw : isPyStripChar c with
  | false => rfl
  | true =>
    simp only [isPyStripChar, Bool.or_eq_true, decide_eq_true_eq] at hw
    rcases hw with ((rfl | rfl) | rfl) | rfl <;> exact absurd h (by decide)

/-- A permitted identifier character differs from any character outside the
class. -/
theorem nameChar_ne {c d : Char} (h : nameChar c = true) (hd : nameChar d = false) : c ≠ d := by
  intro hcd
  rw [hcd, hd] at h
  cases h

theorem skipWs_cons_of_not_ws {c : Char} {l : List Char} (h : isWsChar c = false) :
    skipWs (c :: l) = c :: l := by
  simp [skipWs, List.dropWhile_cons, h]

/-- `pyparsing.Word` on whitespace, then a full token, then input whose head
is outside the class. -/
theorem pWord_exact {p : Char → Bool} {sp tok rest : List Char}
    (hsp : ∀ c ∈ sp, isWsChar c = true)
    (hw : ∀ c, p c = true → isWsChar c = false)
    (htok : tok ≠ []) (hall : ∀ c ∈ tok, p c = true)
    (hrest : ∀ c, rest.head? = some c → p c = false) :
    pWord p (sp ++ (tok ++ rest)) = some ([String.mk tok], rest) := by
  have hskip : skipWs (sp ++ (tok ++ rest)) = tok ++ rest := by
    unfold skipWs
    rw [dropWhile_append_all hsp]
    apply dropWhile_id_of_head
    intro c hc
    cases tok with
    | nil => exact absurd rfl htok
    | cons a t =>
      simp only [List.cons_append, List.head?_cons, Option.some.injEq] at hc
      subst hc
      exact hw a (hall a (List.mem_cons_self a t))
  have htake : (tok ++ rest).takeWhile p = tok := by
    rw [takeWhile_append_all hall, takeWhile_nil_of_head hrest, List.append_nil]
  unfold pWord
  rw [hskip]
  simp only [htake]
  rw [if_neg (by simpa [List.isEmpty_iff] using htok)]
  rw [List.drop_left]

/-- `pyparsing.Literal` on whitespace, then the exact literal text. -/
theorem pLit_exact {s : String} {w rest : List Char}
    (hsp : ∀ c ∈ w, isWsChar c = true)
    (hhead : ∀ c, s.toList.head? = some c → isWsChar c = false)
    (hs : s.toList ≠ []) :
    pLit s (w ++ (s.toList ++ rest)) = some ([s], rest) := by
  have hskip : skipWs (w ++ (s.toList ++ rest)) = s.toList ++ rest := by
    unfold skipWs
    rw [dropWhile_append_all hsp]
    apply dropWhile_id_of_head
    intro c hc
    cases hl : s.toList with
    | nil => exact absurd hl hs
    | cons a t =>
      rw [hl] at hc
      simp only [List.cons_append, List.head?_cons, Option.some.injEq] at hc
      subst hc
      exact hhead a (by rw [hl]; rfl)
  simp only [pLit]
  rw [hskip, isPrefixOf_append_self]
  simp only [if_true]
  rw [List.drop_left]

/-- `pyparsing.Literal` failing: after whitespace skipping the input starts
with a character different from the literal's first character. -/
theorem pLit_fail {s : String} {b a : Char} {u t l : List Char}
    (hsk : skipWs l = a :: t) (hsl : s.toList = b :: u) (hne : b ≠ a) :
    pLit s l = none := by
  simp only [pLit]
  rw [hsk, if_neg]
  intro hpre
  rw [List.isPrefixOf_iff_prefix, hsl] at hpre
  rcases hpre with ⟨w, hw⟩
  simp only [List.cons_append] at hw
  exact hne ((List.cons.injEq _ _ _ _).mp hw).1

/-- `pyparsing.Word` failing: after whitespace skipping the input is empty or
starts with a character outside the class. -/
theorem pWord_fail {p : Char → Bool} {l : List Char}
    (h : ∀ c, (skipWs l).head? = some c → p c = false) :
    pWord p l = none := by
  simp only [pWord]
  rw [takeWhile_nil_of_head h]
  rfl

theorem pSeq_some {a b : P} {cs cs1 cs2 : List Char} {t1 t2 : List String}
    (ha : a cs = some (t1, cs1)) (hb : b cs1 = some (t2, cs2)) :
    pSeq a b cs = some (t1 ++ t2, cs2) := by
  simp [pSeq, ha, hb]

theorem pSeq_fail1 {a b : P} {cs : List Char} (ha : a cs = none) : pSeq a b cs = none := by
  simp [pSeq, ha]

theorem pSeq_fail2 {a b : P} {cs cs1 : List Char} {t1 : List String}
    (ha : a cs = some (t1, cs1)) (hb : b cs1 = none) : pSeq a b cs = none := by
  simp [pSeq, ha, hb]

theorem mk_toList (s : String) : String.mk s.toList = s := by cases s; rfl

theorem toList_append (a b : String) : (a ++ b).toList = a.toList ++ b.toList :=
  String.data_append a b

theorem goodTokB_ne_nil {s : String} (h : goodTokB s = true) : s.toList ≠ [] := by
  intro hn
  simp only [goodTokB, hn] at h
  simp at h

theorem goodTokB_all {s : String} (h : goodTokB s = true) : ∀ c ∈ s.toList, nameChar c = true := by
  simp only [goodTokB, Bool.and_eq_true, List.all_eq_true] at h
  exact h.2

theorem typeChar_not_ws {c : Char} (h : typeChar c = true) : isWsChar c = false := by
  cases hw : isWsChar c with
  | false => rfl
  | true =>
    rcases isWsChar_cases hw with rfl | rfl | rfl <;> exact absurd h (by decide)

/-- A literal `","` fails on input whose first significant character is not a
comma (or on exhausted input). -/
theorem pLit_comma_fail {rest : List Char}
    (h : ∀ c, rest.head? = some c → isWsChar c = false ∧ c ≠ ',') :
    pLit "," rest = none := by
  cases rest with
  | nil => rfl
  | cons a t =>
    have ha := h a rfl
    exact pLit_fail (skipWs_cons_of_not_ws ha.1) (by rfl) (fun hc => ha.2 hc.symm)

theorem encChoicesTail_length (vt : List String) : vt.length ≤ (encChoicesTail vt).length := by
  induction vt with
  | nil => simp [encChoicesTail]
  | cons v t ih =>
    simp only [encChoicesTail, List.length_cons, List.length_append]
    omega

/-- The repetition `Optional(OneOrMore("," + name))` consumes exactly an
encoded comma-separated tail when the following input opens with a
character that is neither whitespace, nor a comma, nor a name character. -/
theorem pManyAux_choices {vt : List String} {rest : List Char} {fuel : Nat}
    (hf : vt.length + 1 ≤ fuel)
    (hvt : ∀ v ∈ vt, goodTokB v = true)
    (hrest : ∀ c, rest.head? = some c → isWsChar c = false ∧ nameChar c = false ∧ c ≠ ',') :
    pManyAux (pSeq (pLit ",") pName) fuel (encChoicesTail vt ++ rest)
      = some (tokChoicesTail vt, rest) := by
  induction vt generalizing fuel with
  | nil =>
    obtain ⟨f, rfl⟩ : ∃ f, fuel = f + 1 := ⟨fuel - 1, by omega⟩
    have hbody : pSeq (pLit ",") pName rest = none :=
      pSeq_fail1 (pLit_comma_fail (fun c hc => ⟨(hrest c hc).1, (hrest c hc).2.2⟩))
    simp [encChoicesTail, tokChoicesTail, pManyAux, hbody]
  | cons v t ih =>
    obtain ⟨f, rfl⟩ : ∃ f, fuel = f + 1 := ⟨fuel - 1, by omega⟩
    have hv := hvt v (List.mem_cons_self v t)
    have henc : encChoicesTail (v :: t) ++ rest
        = [] ++ (",".toList ++ (' ' :: (v.toList ++ (encChoicesTail t ++ rest)))) := by
      simp [encChoicesTail]
    have hlit : pLit "," (encChoicesTail (v :: t) ++ rest)
        = some ([","], ' ' :: (v.toList ++ (encChoicesTail t ++ rest))) := by
      rw [henc]
      exact pLit_exact (by intro c hc; cases hc) (by intro c hc; cases hc; rfl) (by decide)
    have hname : pName (' ' :: (v.toList ++ (encChoicesTail t ++ rest)))
        = some ([v], encChoicesTail t ++ rest) := by
      have : (' ' :: (v.toList ++ (encChoicesTail t ++ rest)))
          = [' '] ++ (v.toList ++ (encChoicesTail t ++ rest)) := rfl
      rw [this]
      have := @pWord_exact nameChar [' '] v.toList
        (encChoicesTail t ++ rest)
        (by intro c hc; simp at hc; subst hc; rfl)
        (fun c hc => nameChar_not_ws hc)
        (goodTokB_ne_nil hv) (goodTokB_all hv)
        (by
          intro c hc
          cases t with
          | nil =>
            simp only [encChoicesTail, List.nil_append] at hc
            exact (hrest c hc).2.1
          | cons w u =>
            simp only [encChoicesTail, List.cons_append, List.head?_cons,
              Option.some.injEq] at hc
            subst hc
            decide)
      rw [mk_toList] at this
      exact this
    have hbody : pSeq (pLit ",") pName (encChoicesTail (v :: t) ++ rest)
        = some ([",", v], encChoicesTail t ++ rest) := pSeq_some hlit hname
    have hrec := @ih f (by simp only [List.length_cons] at hf; omega)
      (fun w hw => hvt w (List.mem_cons_of_mem v hw))
    simp only [pManyAux, hbody, hrec]
    simp [tokChoicesTail]

/-- `pp_choices` consumes an encoded non-empty choice list exactly. -/
theorem pChoices_exact {v : String} {vt : List String} {rest : List Char}
    (hv : goodTokB v = true) (hvt : ∀ w ∈ vt, goodTokB w = true)
    (hrest : ∀ c, rest.head? = some c → isWsChar c = false ∧ nameChar c = false ∧ c ≠ ',') :
    pChoices (v.toList ++ (encChoicesTail vt ++ rest))
      = some (v :: tokChoicesTail vt, rest) := by
  have hname : pName (v.toList ++ (encChoicesTail vt ++ rest))
      = some ([v], encChoicesTail vt ++ rest) := by
    have hshape : v.toList ++ (encChoicesTail vt ++ rest)
        = [] ++ (v.toList ++ (encChoicesTail vt ++ rest)) := rfl
    rw [hshape]
    have := @pWord_exact nameChar [] v.toList
      (encChoicesTail vt ++ rest)
      (by intro c hc; cases hc)
      (fun c hc => nameChar_not_ws hc)
      (goodTokB_ne_nil hv) (goodTokB_all hv)
      (by
        intro c hc
        cases vt with
        | nil =>
          simp only [encChoicesTail, List.nil_append] at hc
          exact (hrest c hc).2.1
        | cons w u =>
          simp only [encChoicesTail, List.cons_append, List.head?_cons,
            Option.some.injEq] at hc
          subst hc
          decide)
    rw [mk_toList] at this
    exact this
  have hmany : pMany (pSeq (pLit ",") pName) (encChoicesTail vt ++ rest)
      = some (tokChoicesTail vt, rest) := by
    unfold pMany
    apply pManyAux_choices _ hvt hrest
    have h1 := encChoicesTail_length vt
    simp only [List.length_append]
    omega
  exact pSeq_some hname hmany

theorem joinSep_toList (v : String) (vt : List String) :
    (joinSep ", " (v :: vt)).toList = v.toList ++ encChoicesTail vt := by
  induction vt generalizing v with
  | nil => simp [joinSep, encChoicesTail]
  | cons w u ih =>
    show (v ++ ", " ++ joinSep ", " (w :: u)).toList = _
    rw [toList_append, toList_append, ih w]
    simp [encChoicesTail]

theorem pcsBuildCategorical_toList (n d v : String) (vt : List String) :
    (pcsBuildCategorical n (v :: vt) d).toList
      = n.toList ++ (' ' :: ("categorical".toList ++ (' ' :: '\x7b' ::
          (v.toList ++ (encChoicesTail vt ++
            ('\x7d' :: ' ' :: '[' :: (d.toList ++ [']']))))))) := by
  show (n ++ " categorical \x7b" ++ joinSep ", " (v :: vt) ++ "\x7d [" ++ d ++ "]").toList = _
  rw [toList_append, toList_append, toList_append, toList_append, toList_append,
    joinSep_toList]
  simp

/-- The categorical grammar of the explicit dialect consumes a written
categorical line completely, producing exactly the expected token list. -/
theorem pcsCatParam_exact {n d v : String} {vt : List String}
    (hn : goodTokB n = true) (hd : goodTokB d = true) (hv : goodTokB v = true)
    (hvt : ∀ w ∈ vt, goodTokB w = true) :
    pcsCatParam (n.toList ++ (' ' :: ("categorical".toList ++ (' ' :: '\x7b' ::
        (v.toList ++ (encChoicesTail vt ++
          ('\x7d' :: ' ' :: '[' :: (d.toList ++ [']']))))))))
      = some (catToks n (v :: vt) d, []) := by
  have s1 : pName (n.toList ++ (' ' :: ("categorical".toList ++ (' ' :: '\x7b' ::
        (v.toList ++ (encChoicesTail vt ++
          ('\x7d' :: ' ' :: '[' :: (d.toList ++ [']']))))))))
      = some ([n], ' ' :: ("categorical".toList ++ (' ' :: '\x7b' ::
        (v.toList ++ (encChoicesTail vt ++
          ('\x7d' :: ' ' :: '[' :: (d.toList ++ [']']))))))) := by
    have := @pWord_exact nameChar [] n.toList
      (' ' :: ("categorical".toList ++ (' ' :: '\x7b' ::
        (v.toList ++ (encChoicesTail vt ++
          ('\x7d' :: ' ' :: '[' :: (d.toList ++ [']'])))))))
      (by intro c hc; cases hc)
      (fun c hc => nameChar_not_ws hc)
      (goodTokB_ne_nil hn) (goodTokB_all hn)
      (by intro c hc; cases hc; decide)
    rw [mk_toList] at this
    exact this
  have s2 : pWord typeChar (' ' :: ("categorical".toList ++ (' ' :: '\x7b' ::
        (v.toList ++ (encChoicesTail vt ++
          ('\x7d' :: ' ' :: '[' :: (d.toList ++ [']'])))))))
      = some (["categorical"], ' ' :: '\x7b' ::
        (v.toList ++ (encChoicesTail vt ++
          ('\x7d' :: ' ' :: '[' :: (d.toList ++ [']']))))) := by
    have := @pWord_exact typeChar [' '] "categorical".toList
      (' ' :: '\x7b' :: (v.toList ++ (encChoicesTail vt ++
          ('\x7d' :: ' ' :: '[' :: (d.toList ++ [']'])))))
      (by intro c hc; simp only [List.mem_singleton] at hc; subst hc; rfl)
      (fun c hc => typeChar_not_ws hc)
      (by decide) (by decide)
      (by intro c hc; cases hc; decide)
    exact this
  have s3 : pLit "\x7b" (' ' :: '\x7b' ::
        (v.toList ++ (encChoicesTail vt ++
          ('\x7d' :: ' ' :: '[' :: (d.toList ++ [']'])))))
      = some (["\x7b"], v.toList ++ (encChoicesTail vt ++
          ('\x7d' :: ' ' :: '[' :: (d.toList ++ [']'])))) := by
    exact pLit_exact (w := [' '])
      (by intro c hc; simp only [List.mem_singleton] at hc; subst hc; rfl)
      (by intro c hc; cases hc; rfl) (by decide)
  have s4 : pChoices (v.toList ++ (encChoicesTail vt ++
          ('\x7d' :: ' ' :: '[' :: (d.toList ++ [']']))))
      = some (v :: tokChoicesTail vt,
          '\x7d' :: ' ' :: '[' :: (d.toList ++ [']'])) := by
    apply pChoices_exact hv hvt
    intro c hc
    cases hc
    exact ⟨rfl, rfl, by decide⟩
  have s5 : pLit "\x7d" ('\x7d' :: ' ' :: '[' :: (d.toList ++ [']']))
      = some (["\x7d"], ' ' :: '[' :: (d.toList ++ [']'])) := by
    exact pLit_exact (w := [])
      (by intro c hc; cases hc)
      (by intro c hc; cases hc; rfl) (by decide)
  have s6 : pLit "[" (' ' :: '[' :: (d.toList ++ [']']))
      = some (["["], d.toList ++ [']']) := by
    exact pLit_exact (w := [' '])
      (by intro c hc; simp only [List.mem_singleton] at hc; subst hc; rfl)
      (by intro c hc; cases hc; rfl) (by decide)
  have s7 : pName (d.toList ++ [']']) = some ([d], [']']) := by
    have := @pWord_exact nameChar [] d.toList [']']
      (by intro c hc; cases hc)
      (fun c hc => nameChar_not_ws hc)
      (goodTokB_ne_nil hd) (goodTokB_all hd)
      (by intro c hc; cases hc; decide)
    rw [mk_toList] at this
    exact this
  have s8 : pLit "]" ([']'] : List Char) = some (["]"], []) := by
    have := @pLit_exact "]" [] []
      (by intro c hc; cases hc)
      (by intro c hc; cases hc; rfl) (by decide)
    simpa using this
  have hchain := pSeq_some s1 (pSeq_some s2 (pSeq_some s3 (pSeq_some s4
    (pSeq_some s5 (pSeq_some s6 (pSeq_some s7 s8))))))
  unfold pcsCatParam
  rw [hchain]
  simp [catToks, tokChoicesTail]

theorem takeWhile_all {p : Char → Bool} {l : List Char} (h : ∀ c ∈ l, p c = true) :
    l.takeWhile p = l := by
  have := takeWhile_append_all (r := []) h
  simpa using this

/-- `cleanLine` is the identity on a line without comment marks, quotes, or
surrounding whitespace. -/
theorem cleanLine_id {s : String}
    (hchars : ∀ c ∈ s.toList, (c = '#') = False ∧ (c = '"') = False ∧ (c = '\'') = False)
    (hhead : ∀ c, s.toList.head? = some c → isPyStripChar c = false)
    (hlast : ∀ c, s.toList.getLast? = some c → isPyStripChar c = false) :
    cleanLine s = s := by
  have h1 : stripComment s = s := by
    unfold stripComment
    rw [takeWhile_all, mk_toList]
    intro c hc
    have := (hchars c hc).1
    simp [this]
  have h2 : stripQuotes s = s := by
    unfold stripQuotes
    rw [List.filter_eq_self.mpr, mk_toList]
    intro c hc
    have := (hchars c hc).2
    simp [this.1, this.2]
  have h3 : pyStrip s = s := by
    unfold pyStrip
    rw [dropWhile_id_of_head hhead]
    rw [dropWhile_id_of_head (by
      intro c hc
      rw [List.head?_reverse] at hc
      exact hlast c hc)]
    rw [List.reverse_reverse, mk_toList]
  unfold cleanLine
  rw [h1, h2, h3]

theorem pyStrip_id {s : String}
    (hhead : ∀ c, s.toList.head? = some c → isPyStripChar c = false)
    (hlast : ∀ c, s.toList.getLast? = some c → isPyStripChar c = false) :
    pyStrip s = s := by
  unfold pyStrip
  rw [dropWhile_id_of_head hhead]
  rw [dropWhile_id_of_head (by
    intro c hc
    rw [List.head?_reverse] at hc
    exact hlast c hc)]
  rw [List.reverse_reverse, mk_toList]

theorem mem_encChoicesTail {c : Char} {vt : List String} (h : c ∈ encChoicesTail vt) :
    c = ',' ∨ c = ' ' ∨ ∃ w ∈ vt, c ∈ w.toList := by
  induction vt with
  | nil => cases h
  | cons w u ih =>
    rw [show encChoicesTail (w :: u) = ',' :: ' ' :: (w.toList ++ encChoicesTail u) from rfl] at h
    rcases List.mem_cons.mp h with rfl | h
    · exact Or.inl rfl
    rcases List.mem_cons.mp h with rfl | h
    · exact Or.inr (Or.inl rfl)
    rcases List.mem_append.mp h with h | h
    · exact Or.inr (Or.inr ⟨w, List.mem_cons_self w u, h⟩)
    rcases ih h with h1 | h1 | ⟨x, hx, hcx⟩
    · exact Or.inl h1
    · exact Or.inr (Or.inl h1)
    · exact Or.inr (Or.inr ⟨x, List.mem_cons_of_mem w hx, hcx⟩)

/-- Every character of a written categorical line is a name character or one
of the template's punctuation characters. -/
theorem catLine_chars {n d v : String} {vt : List String}
    (hn : goodTokB n = true) (hd : goodTokB d = true) (hv : goodTokB v = true)
    (hvt : ∀ w ∈ vt, goodTokB w = true) :
    ∀ c ∈ (pcsBuildCategorical n (v :: vt) d).toList,
      nameChar c = true ∨ c = ' ' ∨ c = '\x7b' ∨ c = '\x7d' ∨ c = '[' ∨ c = ']' ∨ c = ',' := by
  have hcatl : ∀ x ∈ "categorical".toList, nameChar x = true := by decide
  intro c hc
  rw [pcsBuildCategorical_toList] at hc
  rcases List.mem_append.mp hc with h | hc
  · exact Or.inl (goodTokB_all hn c h)
  rcases List.mem_cons.mp hc with rfl | hc
  · exact Or.inr (Or.inl rfl)
  rcases List.mem_append.mp hc with h | hc
  · exact Or.inl (hcatl c h)
  rcases List.mem_cons.mp hc with rfl | hc
  · exact Or.inr (Or.inl rfl)
  rcases List.mem_cons.mp hc with rfl | hc
  · exact Or.inr (Or.inr (Or.inl rfl))
  rcases List.mem_append.mp hc with h | hc
  · exact Or.inl (goodTokB_all hv c h)
  rcases List.mem_append.mp hc with h | hc
  · rcases mem_encChoicesTail h with rfl | rfl | ⟨w, hw, hcw⟩
    · exact Or.inr (Or.inr (Or.inr (Or.inr (Or.inr (Or.inr rfl)))))
    · exact Or.inr (Or.inl rfl)
    · exact Or.inl (goodTokB_all (hvt w hw) c hcw)
  rcases List.mem_cons.mp hc with rfl | hc
  · exact Or.inr (Or.inr (Or.inr (Or.inl rfl)))
  rcases List.mem_cons.mp hc with rfl | hc
  · exact Or.inr (Or.inl rfl)
  rcases List.mem_cons.mp hc with rfl | hc
  · exact Or.inr (Or.inr (Or.inr (Or.inr (Or.inl rfl))))
  rcases List.mem_append.mp hc with h | hc
  · exact Or.inl (goodTokB_all hd c h)
  rcases List.mem_cons.mp hc with rfl | hc
  · exact Or.inr (Or.inr (Or.inr (Or.inr (Or.inr (Or.inl rfl)))))
  · cases hc

/-- The continuous grammar of the explicit dialect fails on a written
categorical line: after the name and the type word, it requires `'['` but
finds `'\x7b'`. -/
theorem pcsContParam_fail_cat {n d v : String} {vt : List String}
    (hn : goodTokB n = true) :
    pcsContParam (n.toList ++ (' ' :: ("categorical".toList ++ (' ' :: '\x7b' ::
        (v.toList ++ (encChoicesTail vt ++
          ('\x7d' :: ' ' :: '[' :: (d.toList ++ [']']))))))))
      = none := by
  have s1 : pName (n.toList ++ (' ' :: ("categorical".toList ++ (' ' :: '\x7b' ::
        (v.toList ++ (encChoicesTail vt ++
          ('\x7d' :: ' ' :: '[' :: (d.toList ++ [']']))))))))
      = some ([n], ' ' :: ("categorical".toList ++ (' ' :: '\x7b' ::
        (v.toList ++ (encChoicesTail vt ++
          ('\x7d' :: ' ' :: '[' :: (d.toList ++ [']']))))))) := by
    have := @pWord_exact nameChar [] n.toList
      (' ' :: ("categorical".toList ++ (' ' :: '\x7b' ::
        (v.toList ++ (encChoicesTail vt ++
          ('\x7d' :: ' ' :: '[' :: (d.toList ++ [']'])))))))
      (by intro c hc; cases hc)
      (fun c hc => nameChar_not_ws hc)
      (goodTokB_ne_nil hn) (goodTokB_all hn)
      (by intro c hc; cases hc; decide)
    rw [mk_toList] at this
    exact this
  have s2 : pWord typeChar (' ' :: ("categorical".toList ++ (' ' :: '\x7b' ::
        (v.toList ++ (encChoicesTail vt ++
          ('\x7d' :: ' ' :: '[' :: (d.toList ++ [']'])))))))
      = some (["categorical"], ' ' :: '\x7b' ::
        (v.toList ++ (encChoicesTail vt ++
          ('\x7d' :: ' ' :: '[' :: (d.toList ++ [']']))))) := by
    have := @pWord_exact typeChar [' '] "categorical".toList
      (' ' :: '\x7b' :: (v.toList ++ (encChoicesTail vt ++
          ('\x7d' :: ' ' :: '[' :: (d.toList ++ [']'])))))
      (by intro c hc; simp only [List.mem_singleton] at hc; subst hc; rfl)
      (fun c hc => typeChar_not_ws hc)
      (by decide) (by decide)
      (by intro c hc; cases hc; decide)
    exact this
  have s3 : pLit "[" (' ' :: '\x7b' ::
        (v.toList ++ (encChoicesTail vt ++
          ('\x7d' :: ' ' :: '[' :: (d.toList ++ [']'])))))
      = none := by
    apply pLit_fail (b := '[') (a := '\x7b')
      (u := []) (t := v.toList ++ (encChoicesTail vt ++
        ('\x7d' :: ' ' :: '[' :: (d.toList ++ [']']))))
    · show skipWs (' ' :: '\x7b' :: _) = _
      rw [show (' ' :: '\x7b' ::
          (v.toList ++ (encChoicesTail vt ++
            ('\x7d' :: ' ' :: '[' :: (d.toList ++ [']'])))))
          = [' '] ++ ('\x7b' :: (v.toList ++ (encChoicesTail vt ++
            ('\x7d' :: ' ' :: '[' :: (d.toList ++ [']']))))) from rfl]
      unfold skipWs
      rw [dropWhile_append_all (by intro c hc; simp only [List.mem_singleton] at hc; subst hc; rfl)]
      exact dropWhile_id_of_head (by intro c hc; cases hc; rfl)
    · rfl
    · decide
  unfold pcsContParam
  exact pSeq_fail2 s1 (pSeq_fail2 s2 (pSeq_fail1 s3))

theorem tokChoicesTail_length (vt : List String) :
    (tokChoicesTail vt).length = 2 * vt.length := by
  induction vt with
  | nil => rfl
  | cons w u ih => simp [tokChoicesTail, ih]; omega

theorem everyOther_tokChoices (v : String) (vt : List String) :
    everyOther (v :: tokChoicesTail vt) = v :: vt := by
  induction vt generalizing v with
  | nil => rfl
  | cons w u ih =>
    show everyOther (v :: "," :: w :: tokChoicesTail u) = _
    rw [show everyOther (v :: "," :: w :: tokChoicesTail u)
        = v :: everyOther (w :: tokChoicesTail u) from rfl]
    rw [ih w]

theorem listNodupB_nodup {l : List String} (h : listNodupB l = true) : l.Nodup := by
  induction l with
  | nil => exact List.nodup_nil
  | cons a t ih =>
    simp only [listNodupB, Bool.and_eq_true, Bool.not_eq_true'] at h
    refine List.nodup_cons.mpr ⟨?_, ih h.2⟩
    intro hm
    rw [(by simp [hm] : t.contains a = true)] at h
    exact absurd h.1 (by simp)

theorem catToks_shape (n d v : String) (vt : List String) :
    catToks n (v :: vt) d
      = n :: "categorical" :: "\x7b" :: v :: (tokChoicesTail vt ++ ["\x7d", "[", d, "]"]) := by
  simp [catToks]

theorem catToks_slice (n d v : String) (vt : List String) :
    pySlice2 (catToks n (v :: vt) d) 3 4 = v :: vt := by
  rw [catToks_shape]
  unfold pySlice2
  have hlen : (n :: "categorical" :: "\x7b" :: v ::
      (tokChoicesTail vt ++ ["\x7d", "[", d, "]"])).length
      = 8 + 2 * vt.length := by
    simp [tokChoicesTail_length]
    omega
  rw [hlen]
  have h48 : 8 + 2 * vt.length - 4 = 4 + (tokChoicesTail vt).length := by
    rw [tokChoicesTail_length]; omega
  rw [h48]
  have htake : (n :: "categorical" :: "\x7b" :: v ::
      (tokChoicesTail vt ++ ["\x7d", "[", d, "]"])).take (4 + (tokChoicesTail vt).length)
      = n :: "categorical" :: "\x7b" :: v :: tokChoicesTail vt := by
    rw [show 4 + (tokChoicesTail vt).length = (tokChoicesTail vt).length + 4 from by omega]
    simp only [List.take_succ_cons]
    rw [List.take_left]
  rw [htake]
  simp only [List.drop]
  exact everyOther_tokChoices v vt

theorem catToks_default (n d v : String) (vt : List String) :
    (catToks n (v :: vt) d).get? ((catToks n (v :: vt) d).length - 2) = some d := by
  rw [catToks_shape]
  have hre : n :: "categorical" :: "\x7b" :: v :: (tokChoicesTail vt ++ ["\x7d", "[", d, "]"])
      = (n :: "categorical" :: "\x7b" :: v :: tokChoicesTail vt) ++ ["\x7d", "[", d, "]"] := by
    simp
  rw [hre]
  have hlen1 : (n :: "categorical" :: "\x7b" :: v :: tokChoicesTail vt).length
      = 4 + (tokChoicesTail vt).length := by simp; omega
  have hlen : ((n :: "categorical" :: "\x7b" :: v :: tokChoicesTail vt) ++
      ["\x7d", "[", d, "]"]).length = 4 + (tokChoicesTail vt).length + 4 := by
    simp [List.length_append, hlen1]; omega
  rw [hlen]
  rw [List.get?_append_right (by omega)]
  rw [hlen1]
  rw [show 4 + (tokChoicesTail vt).length + 4 - 2 - (4 + (tokChoicesTail vt).length) = 2 from by
    omega]
  rfl

theorem exbind_ok {ε α β : Type} (a : α) (f : α → Except ε β) :
    (Except.ok a : Except ε α) >>= f = f a := rfl

theorem pcsTryCont_catLine {n d v : String} {vt : List String} (hn : goodTokB n = true) :
    pcsTryCont (pcsBuildCategorical n (v :: vt) d) = Except.ok none := by
  unfold pcsTryCont runParse
  rw [pcsBuildCategorical_toList, pcsContParam_fail_cat hn]

theorem pcsTryCat_catLine {n d v : String} {vt : List String}
    (hn : goodTokB n = true) (hd : goodTokB d = true) (hv : goodTokB v = true)
    (hvt : ∀ w ∈ vt, goodTokB w = true)
    (hnodup : listNodupB (v :: vt) = true)
    (hmem : (v :: vt).contains d = true) :
    pcsTryCat (pcsBuildCategorical n (v :: vt) d)
      = Except.ok (some (Hyperparameter.categorical n (v :: vt) d)) := by
  have hparse : runParse pcsCatParam (pcsBuildCategorical n (v :: vt) d)
      = some (catToks n (v :: vt) d, []) := by
    unfold runParse
    rw [pcsBuildCategorical_toList]
    exact pcsCatParam_exact hn hd hv hvt
  have hidx0 : idx (catToks n (v :: vt) d) 0 = Except.ok n := by
    rw [catToks_shape]; rfl
  have hidxd : idx (catToks n (v :: vt) d) ((catToks n (v :: vt) d).length - 2)
      = Except.ok d := by
    unfold idx
    rw [catToks_default]
  have hnd : (v :: vt).Nodup := listNodupB_nodup hnodup
  have hmk : mkCategorical n (v :: vt) d
      = Except.ok (Hyperparameter.categorical n (v :: vt) d) := by
    unfold mkCategorical
    rw [if_neg (by simp)]
    rw [if_neg (by simp only [decide_eq_true hnd, Bool.not_true]; exact Bool.false_ne_true)]
    rw [if_neg (by simp only [hmem, Bool.not_true]; exact Bool.false_ne_true)]
  unfold pcsTryCat
  rw [hparse]
  simp only [hidx0, hidxd, catToks_slice, exbind_ok]
  rw [hmk]
  rfl

theorem pcsProcessLine_catLine {st : ReadState} {n d v : String} {vt : List String}
    (hn : goodTokB n = true) (hd : goodTokB d = true) (hv : goodTokB v = true)
    (hvt : ∀ w ∈ vt, goodTokB w = true)
    (hnodup : listNodupB (v :: vt) = true)
    (hmem : (v :: vt).contains d = true)
    (hfresh : st.space.hyperparameters.any
      (fun h => hpName h = hpName (Hyperparameter.categorical n (v :: vt) d)) = false) :
    pcsProcessLine st (pcsBuildCategorical n (v :: vt) d)
      = Except.ok { st with space := { st.space with
          hyperparameters := st.space.hyperparameters
            ++ [Hyperparameter.categorical n (v :: vt) d] } } := by
  obtain ⟨c0, t0, hn0⟩ := List.exists_cons_of_ne_nil (goodTokB_ne_nil hn)
  have hc0 : nameChar c0 = true := goodTokB_all hn c0 (by rw [hn0]; exact List.mem_cons_self _ _)
  have hchars := catLine_chars hn hd hv hvt
  have hheadL : (pcsBuildCategorical n (v :: vt) d).toList.head? = some c0 := by
    rw [pcsBuildCategorical_toList, hn0]
    rfl
  have hlastL : (pcsBuildCategorical n (v :: vt) d).toList.getLast? = some ']' := by
    have hsh : (pcsBuildCategorical n (v :: vt) d).toList
        = (n.toList ++ [' '] ++ "categorical".toList ++ [' ', '\x7b'] ++ v.toList ++
            encChoicesTail vt ++ ['\x7d', ' ', '['] ++ d.toList) ++ [']'] := by
      rw [pcsBuildCategorical_toList]
      simp
    rw [hsh]
    exact List.getLast?_concat _
  have hclean : cleanLine (pcsBuildCategorical n (v :: vt) d)
      = pcsBuildCategorical n (v :: vt) d := by
    apply cleanLine_id
    · intro c hc
      rcases hchars c hc with h | rfl | rfl | rfl | rfl | rfl | rfl
      · exact ⟨eq_false (nameChar_ne h (by decide)), eq_false (nameChar_ne h (by decide)),
          eq_false (nameChar_ne h (by decide))⟩
      all_goals exact ⟨eq_false (by decide), eq_false (by decide), eq_false (by decide)⟩
    · intro c hc
      rw [hheadL] at hc
      cases hc
      exact nameChar_not_strip hc0
    · intro c hc
      rw [hlastL] at hc
      cases hc
      decide
  have hpipe : hasChar (pcsBuildCategorical n (v :: vt) d) '|' = false := by
    have hnm : ('|' : Char) ∉ (pcsBuildCategorical n (v :: vt) d).toList := by
      intro hm
      rcases hchars '|' hm with h | h | h | h | h | h | h
      · exact absurd h (by decide)
      all_goals exact absurd h (by decide)
    simp only [hasChar]
    simpa using hnm
  have hbrace : hasChar (pcsBuildCategorical n (v :: vt) d) '\x7d' = true := by
    have hm : ('\x7d' : Char) ∈ (pcsBuildCategorical n (v :: vt) d).toList := by
      rw [pcsBuildCategorical_toList]
      simp
    simp only [hasChar]
    simpa using hm
  have hps : pyStrip (pcsBuildCategorical n (v :: vt) d)
      = pcsBuildCategorical n (v :: vt) d := by
    apply pyStrip_id
    · intro c hc
      rw [hheadL] at hc
      cases hc
      exact nameChar_not_strip hc0
    · intro c hc
      rw [hlastL] at hc
      cases hc
      decide
  have hw1 : ¬ ((pcsBuildCategorical n (v :: vt) d).toList.head? = some '\x7b') := by
    rw [hheadL]
    intro h
    injection h with h2
    exact absurd hc0 (by rw [h2]; decide)
  unfold pcsProcessLine
  rw [hclean]
  rw [if_neg (by simp [hpipe])]
  rw [if_neg (by simp [hbrace])]
  rw [if_neg (by
    intro hco
    simp only [Bool.and_eq_true, decide_eq_true_eq] at hco
    exact hw1 hco.1)]
  rw [if_neg (by
    rw [hps, pcsBuildCategorical_toList, hn0]
    simp)]
  rw [show pcsTryCont (pcsBuildCategorical n (v :: vt) d) = Except.ok none from
    pcsTryCont_catLine hn]
  rw [show pcsTryCat (pcsBuildCategorical n (v :: vt) d)
      = Except.ok (some (Hyperparameter.categorical n (v :: vt) d)) from
    pcsTryCat_catLine hn hd hv hvt hnodup hmem]
  show (do
    let sp ← addHyperparameter st.space (Hyperparameter.categorical n (v :: vt) d)
    pure { st with space := sp } : Except PErr ReadState) = _
  unfold addHyperparameter
  rw [if_neg (by simp only [hfresh]; exact Bool.false_ne_true)]
  rfl

theorem foldl_joinNL_pull (t : List String) (x y : String) :
    t.foldl (fun acc l => acc ++ "\n" ++ l) (x ++ y)
      = x ++ t.foldl (fun acc l => acc ++ "\n" ++ l) y := by
  induction t generalizing y with
  | nil => rfl
  | cons c u ih =>
    show u.foldl _ ((x ++ y) ++ "\n" ++ c) = x ++ u.foldl _ (y ++ "\n" ++ c)
    rw [String.append_assoc, String.append_assoc, ih (y ++ ("\n" ++ c))]
    rw [String.append_assoc]

theorem joinNL_cons (a b : String) (t : List String) :
    joinNL (a :: b :: t) = a ++ "\n" ++ joinNL (b :: t) := by
  show (b :: t).foldl _ a = _
  show t.foldl _ (a ++ "\n" ++ b) = _
  rw [String.append_assoc, foldl_joinNL_pull t a ("\n" ++ b)]
  show _ = a ++ "\n" ++ t.foldl _ b
  rw [String.append_assoc]
  congr 1
  exact foldl_joinNL_pull t "\n" b

theorem splitCharAux_no_sep {sep : Char} {l acc : List Char} (h : ∀ c ∈ l, c ≠ sep) :
    splitCharAux sep l acc = [String.mk (acc.reverse ++ l)] := by
  induction l generalizing acc with
  | nil => simp [splitCharAux]
  | cons c t ih =>
    rw [show splitCharAux sep (c :: t) acc
        = if c = sep then String.mk acc.reverse :: splitCharAux sep t []
          else splitCharAux sep t (c :: acc) from rfl]
    rw [if_neg (h c (List.mem_cons_self c t))]
    rw [ih (fun x hx => h x (List.mem_cons_of_mem c hx))]
    simp

theorem splitCharAux_sep {sep : Char} {l rest acc : List Char} (h : ∀ c ∈ l, c ≠ sep) :
    splitCharAux sep (l ++ sep :: rest) acc
      = String.mk (acc.reverse ++ l) :: splitCharAux sep rest [] := by
  induction l generalizing acc with
  | nil =>
    rw [show ([] : List Char) ++ sep :: rest = sep :: rest from rfl]
    rw [show splitCharAux sep (sep :: rest) acc
        = if sep = sep then String.mk acc.reverse :: splitCharAux sep rest []
          else splitCharAux sep rest (sep :: acc) from rfl]
    rw [if_pos rfl]
    simp
  | cons c t ih =>
    rw [show (c :: t) ++ sep :: rest = c :: (t ++ sep :: rest) from rfl]
    rw [show splitCharAux sep (c :: (t ++ sep :: rest)) acc
        = if c = sep then String.mk acc.reverse :: splitCharAux sep (t ++ sep :: rest) []
          else splitCharAux sep (t ++ sep :: rest) (c :: acc) from rfl]
    rw [if_neg (h c (List.mem_cons_self c t))]
    rw [ih (fun x hx => h x (List.mem_cons_of_mem c hx))]
    simp

/-- Splitting on newlines inverts newline-joining for nonempty line lists
with newline-free lines. -/
theorem splitChar_joinNL {ls : List String} (hne : ls ≠ [])
    (hnl : ∀ l ∈ ls, ∀ c ∈ l.toList, c ≠ '\n') :
    splitChar '\n' (joinNL ls) = ls := by
  induction ls with
  | nil => exact absurd rfl hne
  | cons a t ih =>
    cases t with
    | nil =>
      unfold splitChar
      show splitCharAux '\n' (joinNL [a]).toList [] = [a]
      rw [show joinNL [a] = a from rfl]
      rw [splitCharAux_no_sep (hnl a (List.mem_cons_self a []))]
      simp [mk_toList]
    | cons b u =>
      unfold splitChar
      rw [joinNL_cons a b u]
      rw [toList_append, toList_append]
      rw [show ("\n" : String).toList = ['\n'] from rfl]
      rw [show a.toList ++ ['\n'] ++ (joinNL (b :: u)).toList
          = a.toList ++ '\n' :: (joinNL (b :: u)).toList from by simp]
      rw [splitCharAux_sep (hnl a (List.mem_cons_self a (b :: u)))]
      rw [show ([] : List Char).reverse ++ a.toList = a.toList from by simp]
      rw [mk_toList]
      have := ih (by simp) (fun l hl => hnl l (List.mem_cons_of_mem a hl))
      unfold splitChar at this
      rw [this]

theorem listNodupB_cons_head {a : String} {t : List String}
    (h : listNodupB (a :: t) = true) : t.contains a = false ∧ listNodupB t = true := by
  simp only [listNodupB, Bool.and_eq_true, Bool.not_eq_true'] at h
  exact h

theorem checkNameB_of_good {n : String} (h : goodTokB n = true) : checkNameB n = true := by
  obtain ⟨c0, t0, hn0⟩ := List.exists_cons_of_ne_nil (goodTokB_ne_nil h)
  have hc0 : nameChar c0 = true := goodTokB_all h c0 (by rw [hn0]; exact List.mem_cons_self _ _)
  unfold checkNameB
  rw [hn0, skipWs_cons_of_not_ws (nameChar_not_ws hc0)]
  exact hc0

theorem catHpOkB_elim {hp : Hyperparameter} (h : catHpOkB hp = true) :
    ∃ n v vt d, hp = Hyperparameter.categorical n (v :: vt) d ∧
      goodTokB n = true ∧ goodTokB v = true ∧ (∀ w ∈ vt, goodTokB w = true) ∧
      listNodupB (v :: vt) = true ∧ (v :: vt).contains d = true := by
  cases hp with
  | uniform n isInt lo hi d log q => exact absurd h (by simp [catHpOkB])
  | constant n v => exact absurd h (by simp [catHpOkB])
  | categorical n cs d =>
    cases cs with
    | nil => exact absurd h (by simp [catHpOkB])
    | cons v vt =>
      simp only [catHpOkB, Bool.and_eq_true, List.all_eq_true] at h
      exact ⟨n, v, vt, d, rfl, h.1.1.1.1, h.1.1.2 v (List.mem_cons_self v vt),
        fun w hw => h.1.1.2 w (List.mem_cons_of_mem v hw), h.1.2, h.2⟩

theorem catLine_no_newline {hp : Hyperparameter} (h : catHpOkB hp = true) :
    ∀ c ∈ (pcsBuildParam hp).toList, c ≠ '\n' := by
  obtain ⟨n, v, vt, d, rfl, hn, hv, hvt, _, hd0⟩ := catHpOkB_elim h
  have hd : goodTokB d = true := by
    have : d ∈ v :: vt := by simpa using hd0
    rcases List.mem_cons.mp this with rfl | hm
    · exact hv
    · exact hvt d hm
  intro c hc
  rcases catLine_chars hn hd hv hvt c hc with hh | rfl | rfl | rfl | rfl | rfl | rfl
  · exact nameChar_ne hh (by decide)
  all_goals decide

theorem pcsFold_catLines {hps : List Hyperparameter} {st : ReadState}
    (hok : ∀ hp ∈ hps, catHpOkB hp = true)
    (hdisj : ∀ hp ∈ hps,
      st.space.hyperparameters.any (fun h => hpName h = hpName hp) = false)
    (hnodup : listNodupB (hps.map hpName) = true) :
    List.foldlM pcsProcessLine st (hps.map pcsBuildParam)
      = Except.ok { st with space := { st.space with
          hyperparameters := st.space.hyperparameters ++ hps } } := by
  induction hps generalizing st with
  | nil =>
    show Except.ok st = _
    congr 1
    cases st with
    | mk sp cs fs =>
      cases sp
      simp
  | cons hp t ih =>
    obtain ⟨n, v, vt, d, rfl, hn, hv, hvt, hnd, hdm⟩ :=
      catHpOkB_elim (hok hp (List.mem_cons_self hp t))
    have hd : goodTokB d = true := by
      have : d ∈ v :: vt := by simpa using hdm
      rcases List.mem_cons.mp this with rfl | hm
      · exact hv
      · exact hvt d hm
    rw [show (Hyperparameter.categorical n (v :: vt) d :: t).map pcsBuildParam
        = pcsBuildCategorical n (v :: vt) d :: t.map pcsBuildParam from rfl]
    rw [List.foldlM_cons]
    rw [pcsProcessLine_catLine hn hd hv hvt hnd hdm
      (hdisj _ (List.mem_cons_self _ t))]
    rw [show ∀ (x : ReadState) (f : ReadState → Except PErr ReadState),
        (Except.ok x >>= f) = f x from fun x f => rfl]
    have hhead := listNodupB_cons_head
      (by simpa using hnodup : listNodupB (hpName (Hyperparameter.categorical n (v :: vt) d)
        :: t.map hpName) = true)
    rw [ih (fun x hx => hok x (List.mem_cons_of_mem _ hx))
      (by
        intro x hx
        simp only [List.any_append]
        have h1 : st.space.hyperparameters.any (fun h => hpName h = hpName x) = false :=
          hdisj x (List.mem_cons_of_mem _ hx)
        have h2 : ([Hyperparameter.categorical n (v :: vt) d].any
            (fun h => hpName h = hpName x)) = false := by
          simp only [List.any_cons, List.any_nil, Bool.or_false]
          have hne : hpName x ≠ hpName (Hyperparameter.categorical n (v :: vt) d) := by
            intro he
            have hmem : hpName (Hyperparameter.categorical n (v :: vt) d) ∈ t.map hpName := by
              have := List.mem_map_of_mem hpName hx
              rwa [he] at this
            rw [(by simpa using hmem : (t.map hpName).contains
              (hpName (Hyperparameter.categorical n (v :: vt) d)) = true)] at hhead
            exact absurd hhead.1 (by simp)
          simp [decide_eq_false
            (fun (he : hpName (Hyperparameter.categorical n (v :: vt) d) = hpName x) =>
              hne he.symm)]
        rw [h1, h2]
        rfl)
      hhead.2]
    congr 2
    simp

theorem pcsParamLines_cat {hps : List Hyperparameter}
    (hok : ∀ hp ∈ hps, catHpOkB hp = true) :
    pcsParamLines hps = Except.ok (hps.map pcsBuildParam) := by
  induction hps with
  | nil => rfl
  | cons hp t ih =>
    obtain ⟨n, v, vt, d, rfl, hn, _, _, _, _⟩ := catHpOkB_elim (hok hp (List.mem_cons_self hp t))
    show pcsParamLines (Hyperparameter.categorical n (v :: vt) d :: t) = _
    unfold pcsParamLines
    rw [show hpName (Hyperparameter.categorical n (v :: vt) d) = n from rfl]
    rw [if_pos (checkNameB_of_good hn)]
    rw [ih (fun x hx => hok x (List.mem_cons_of_mem _ hx))]
    rfl

theorem pcsWrite_catOnly {sp : ConfigurationSpace}
    (hok : ∀ hp ∈ sp.hyperparameters, catHpOkB hp = true)
    (hconds : sp.conditions = []) (hforb : sp.forbiddenClauses = []) :
    pcsWrite sp = Except.ok (joinNL (sp.hyperparameters.map pcsBuildParam)) := by
  unfold pcsWrite
  rw [pcsParamLines_cat hok, hconds, hforb]
  rfl

/-- C1 (amended, positive part): in the explicit dialect, a space of
categorical hyperparameters with grammar-valid names, choices and defaults,
distinct names, and no conditions or forbidden clauses, satisfies
`read(write(space)) = space`. -/
theorem c1_round_trip_categorical (sp : ConfigurationSpace)
    (hall : sp.hyperparameters.all catHpOkB = true)
    (hnodup : listNodupB (sp.hyperparameters.map hpName) = true)
    (hconds : sp.conditions = []) (hforb : sp.forbiddenClauses = []) :
    ∃ t, pcsWrite sp = Except.ok t ∧ pcsReadText t = Except.ok sp := by
  have hok : ∀ hp ∈ sp.hyperparameters, catHpOkB hp = true := List.all_eq_true.mp hall
  refine ⟨joinNL (sp.hyperparameters.map pcsBuildParam),
    pcsWrite_catOnly hok hconds hforb, ?_⟩
  unfold pcsReadText
  by_cases hnil : sp.hyperparameters = []
  · rw [hnil]
    show (Except.ok emptySpace : Except PErr ConfigurationSpace) = Except.ok sp
    congr 1
    cases sp with
    | mk a b c =>
      simp only at hnil hconds hforb
      rw [hnil, hconds, hforb]
      rfl
  · rw [splitChar_joinNL (by
      intro hm
      exact hnil (List.map_eq_nil.mp hm)) (by
      intro l hl c hc
      rcases List.mem_map.mp hl with ⟨x, hx, rfl⟩
      exact catLine_no_newline (hok x hx) c hc)]
    unfold pcsRead
    rw [pcsFold_catLines hok (by intro x _; rfl) hnodup]
    rw [exbind_ok]
    show (do
      let spx ← resolveForbidden { initState.space with
        hyperparameters := initState.space.hyperparameters ++ sp.hyperparameters } []
      pcsAssembleAll spx [] : Except PErr ConfigurationSpace) = _
    rw [show resolveForbidden { initState.space with
        hyperparameters := initState.space.hyperparameters ++ sp.hyperparameters } []
      = Except.ok { initState.space with
        hyperparameters := initState.space.hyperparameters ++ sp.hyperparameters } from rfl]
    rw [exbind_ok]
    show Except.ok _ = _
    congr 1
    cases sp with
    | mk a b c =>
      simp only at hconds hforb
      rw [hconds, hforb]
      show ConfigurationSpace.mk ([] ++ a) [] [] = _
      rw [List.nil_append]

/-- C1 counterexample: the round trip fails as soon as the space has a
condition.  The explicit writer renders an equality condition as
`x | y {a}` — without the comparison operator — and the explicit reader's
condition grammar requires an operator, so `read(write(space))` raises
`UnparsableConditionError` instead of returning a space. -/
theorem c1_round_trip_counterexample :
    pcsWrite ⟨[Hyperparameter.categorical "y" ["a", "b"] "a",
               Hyperparameter.categorical "x" ["c", "d"] "c"],
              [Condition.equals "x" "y" "a"], []⟩
      = Except.ok
          "y categorical \x7ba, b\x7d [a]\nx categorical \x7bc, d\x7d [c]\n\nx | y \x7ba\x7d"
    ∧ pcsReadText
        "y categorical \x7ba, b\x7d [a]\nx categorical \x7bc, d\x7d [c]\n\nx | y \x7ba\x7d"
      = Except.error (PErr.unparsableCondition "x | y \x7ba\x7d") :=
  ⟨rfl, rfl⟩

/-- Witness for the amended C1 theorem at a concrete space. -/
theorem c1_round_trip_witness :
    (([Hyperparameter.categorical "p" ["a", "b"] "a"] : List Hyperparameter).all catHpOkB
        = true)
    ∧ ∃ t, pcsWrite ⟨[Hyperparameter.categorical "p" ["a", "b"] "a"], [], []⟩ = Except.ok t
        ∧ pcsReadText t
          = Except.ok ⟨[Hyperparameter.categorical "p" ["a", "b"] "a"], [], []⟩ :=
  ⟨by decide, c1_round_trip_categorical
    ⟨[Hyperparameter.categorical "p" ["a", "b"] "a"], [], []⟩
    (by decide) (by decide) rfl rfl⟩

theorem exbind_err {ε α β : Type} (e : ε) (f : α → Except ε β) :
    (Except.error e : Except ε α) >>= f = Except.error e := rfl

mutual

theorem dlcs_isLeaf (f : Forbidden) : ∀ g ∈ Forbidden.dlcs f, Forbidden.isLeaf g = true :=
  match f with
  | .equalsF h v => by
    intro g hg
    rcases List.mem_singleton.mp hg with rfl
    rfl
  | .inF h vs => by
    intro g hg
    rcases List.mem_singleton.mp hg with rfl
    rfl
  | .andF cs => by
    intro g hg
    exact dlcsList_isLeaf cs g hg

theorem dlcsList_isLeaf (l : List Forbidden) :
    ∀ g ∈ Forbidden.dlcsList l, Forbidden.isLeaf g = true :=
  match l with
  | [] => by intro g hg; cases hg
  | c :: cs => by
    intro g hg
    rcases List.mem_append.mp hg with h | h
    · exact dlcs_isLeaf c g h
    · exact dlcsList_isLeaf cs g h

end

theorem isLeaf_cases {g : Forbidden} (h : Forbidden.isLeaf g = true) :
    (∃ a b, g = Forbidden.equalsF a b) ∨ (∃ a bs, g = Forbidden.inF a bs) := by
  cases g with
  | equalsF a b => exact Or.inl ⟨a, b, rfl⟩
  | inF a bs => exact Or.inr ⟨a, bs, rfl⟩
  | andF cs => cases h

theorem dlcsList_of_leaves {l : List Forbidden}
    (h : ∀ g ∈ l, Forbidden.isLeaf g = true) : Forbidden.dlcsList l = l := by
  induction l with
  | nil => rfl
  | cons c cs ih =>
    show Forbidden.dlcs c ++ Forbidden.dlcsList cs = c :: cs
    rw [ih (fun g hg => h g (List.mem_cons_of_mem c hg))]
    rcases isLeaf_cases (h c (List.mem_cons_self c cs)) with ⟨a, b, rfl⟩ | ⟨a, bs, rfl⟩ <;> rfl

theorem splitInOther_ins {dl : List Forbidden}
    (hleaf : ∀ g ∈ dl, Forbidden.isLeaf g = true) :
    ∀ il ∈ (splitInOther dl).1, ∀ g ∈ il, ∃ a b, g = Forbidden.equalsF a b := by
  induction dl with
  | nil => intro il hil; cases hil
  | cons c cs ih =>
    intro il hil g hg
    rcases isLeaf_cases (hleaf c (List.mem_cons_self c cs)) with ⟨a, b, rfl⟩ | ⟨a, bs, rfl⟩
    · exact ih (fun x hx => hleaf x (List.mem_cons_of_mem _ hx)) il hil g hg
    · rw [show splitInOther (Forbidden.inF a bs :: cs)
        = ((bs.map (fun v => Forbidden.equalsF a v)) :: (splitInOther cs).1,
           (splitInOther cs).2) from rfl] at hil
      rcases List.mem_cons.mp hil with rfl | hil2
      · rcases List.mem_map.mp hg with ⟨v, _, rfl⟩
        exact ⟨a, v, rfl⟩
      · exact ih (fun x hx => hleaf x (List.mem_cons_of_mem _ hx)) il hil2 g hg

theorem splitInOther_others {dl : List Forbidden}
    (hleaf : ∀ g ∈ dl, Forbidden.isLeaf g = true) :
    ∀ g ∈ (splitInOther dl).2, ∃ a b, g = Forbidden.equalsF a b := by
  induction dl with
  | nil => intro g hg; cases hg
  | cons c cs ih =>
    intro g hg
    rcases isLeaf_cases (hleaf c (List.mem_cons_self c cs)) with ⟨a, b, rfl⟩ | ⟨a, bs, rfl⟩
    · rw [show splitInOther (Forbidden.equalsF a b :: cs)
        = ((splitInOther cs).1, Forbidden.equalsF a b :: (splitInOther cs).2) from rfl] at hg
      rcases List.mem_cons.mp hg with rfl | hg2
      · exact ⟨a, b, rfl⟩
      · exact ih (fun x hx => hleaf x (List.mem_cons_of_mem _ hx)) g hg2
    · exact ih (fun x hx => hleaf x (List.mem_cons_of_mem _ hx)) g hg

theorem pyProduct_mem {α : Type} {ls : List (List α)} {combo : List α}
    (h : combo ∈ pyProduct ls) {P : α → Prop} (hP : ∀ l ∈ ls, ∀ x ∈ l, P x) :
    ∀ x ∈ combo, P x := by
  induction ls generalizing combo with
  | nil =>
    rcases List.mem_singleton.mp h with rfl
    intro x hx
    cases hx
  | cons l ls ih =>
    rcases List.mem_flatten.mp h with ⟨inner, hinner, hcombo⟩
    rcases List.mem_map.mp hinner with ⟨a, ha, rfl⟩
    rcases List.mem_map.mp hcombo with ⟨c, hc, rfl⟩
    intro x hx
    rcases List.mem_cons.mp hx with rfl | hx2
    · exact hP l (List.mem_cons_self l ls) x ha
    · exact ih hc (fun m hm => hP m (List.mem_cons_of_mem l hm)) x hx2

theorem mapM_eq_map {α β : Type} {l : List α} {f : α → Except PErr β} {g : α → β}
    (h : ∀ x ∈ l, f x = Except.ok (g x)) : l.mapM f = Except.ok (l.map g) := by
  induction l with
  | nil => rfl
  | cons a t ih =>
    rw [List.mapM_cons, h a (List.mem_cons_self a t),
      ih (fun x hx => h x (List.mem_cons_of_mem a hx))]
    rfl

theorem mapM_ok_forall {α β : Type} {l : List α} {f : α → Except PErr β}
    (h : ∀ x ∈ l, ∃ y, f x = Except.ok y) : ∃ ys, l.mapM f = Except.ok ys := by
  induction l with
  | nil => exact ⟨[], rfl⟩
  | cons a t ih =>
    obtain ⟨y, hy⟩ := h a (List.mem_cons_self a t)
    obtain ⟨ys, hys⟩ := ih (fun x hx => h x (List.mem_cons_of_mem a hx))
    refine ⟨y :: ys, ?_⟩
    rw [List.mapM_cons, hy, hys]
    rfl

theorem renderDlc_equalsF (a b : String) :
    renderDlc (Forbidden.equalsF a b) = Except.ok (a ++ "=" ++ b) := rfl

theorem mapM_renderDlc_ok {l : List Forbidden}
    (h : ∀ g ∈ l, ∃ a b, g = Forbidden.equalsF a b) :
    ∃ s, l.mapM renderDlc = Except.ok s :=
  mapM_ok_forall (fun x hx => by
    obtain ⟨a, b, rfl⟩ := h x hx
    exact ⟨a ++ "=" ++ b, rfl⟩)

theorem iraceBuildForbidden_ok {clause : Forbidden}
    (hnotin : Forbidden.isIn clause = false)
    (hleaves : ∀ g ∈ Forbidden.dlcs clause, ∃ a b, g = Forbidden.equalsF a b) :
    ∃ s, iraceBuildForbidden clause = Except.ok s := by
  obtain ⟨s, hs⟩ := mapM_renderDlc_ok hleaves
  cases clause with
  | inF a bs => cases hnotin
  | equalsF a b =>
    refine ⟨"\x7b" ++ joinSep ", " s ++ "\x7d", ?_⟩
    show (do
      let parts ← (Forbidden.dlcs (Forbidden.equalsF a b)).mapM renderDlc
      pure ("\x7b" ++ joinSep ", " parts ++ "\x7d") : Except PErr String) = _
    rw [hs, exbind_ok]
    rfl
  | andF cs =>
    refine ⟨"\x7b" ++ joinSep ", " s ++ "\x7d", ?_⟩
    show (do
      let parts ← (Forbidden.dlcs (Forbidden.andF cs)).mapM renderDlc
      pure ("\x7b" ++ joinSep ", " parts ++ "\x7d") : Except PErr String) = _
    rw [hs, exbind_ok]
    rfl

theorem splitInOther_nil_no_inF {dl : List Forbidden}
    (h : (splitInOther dl).1 = []) : ∀ g ∈ dl, Forbidden.isIn g = false := by
  induction dl with
  | nil => intro g hg; cases hg
  | cons c cs ih =>
    intro g hg
    cases c with
    | inF a bs =>
      rw [show splitInOther (Forbidden.inF a bs :: cs)
          = ((bs.map (fun v => Forbidden.equalsF a v)) :: (splitInOther cs).1,
             (splitInOther cs).2) from rfl] at h
      cases h
    | equalsF a b =>
      rcases List.mem_cons.mp hg with rfl | hg2
      · rfl
      · exact ih h g hg2
    | andF xs =>
      rcases List.mem_cons.mp hg with rfl | hg2
      · rfl
      · exact ih h g hg2

theorem iraceExpandClause_ok (clause : Forbidden) :
    ∃ s, iraceExpandClause clause = Except.ok s := by
  have hleaf := dlcs_isLeaf clause
  unfold iraceExpandClause
  by_cases hins : ((splitInOther (Forbidden.dlcs clause)).1).isEmpty = true
  · have hnil : (splitInOther (Forbidden.dlcs clause)).1 = [] :=
      List.isEmpty_iff.mp hins
    have hnoin : ∀ g ∈ Forbidden.dlcs clause, ∃ a b, g = Forbidden.equalsF a b := by
      intro g hg
      rcases isLeaf_cases (hleaf g hg) with h | ⟨a, bs, rfl⟩
      · exact h
      · exact absurd (splitInOther_nil_no_inF hnil _ hg) (by simp [Forbidden.isIn])
    have hnotin : Forbidden.isIn clause = false := by
      cases clause with
      | inF a bs =>
        exfalso
        obtain ⟨x, y, hxy⟩ := hnoin (Forbidden.inF a bs)
          (by rw [show Forbidden.dlcs (Forbidden.inF a bs)
              = [Forbidden.inF a bs] from rfl]; exact List.mem_singleton.mpr rfl)
        cases hxy
      | equalsF a b => rfl
      | andF cs => rfl
    rw [if_pos hins]
    obtain ⟨s, hs⟩ := iraceBuildForbidden_ok hnotin hnoin
    exact ⟨[s], by rw [hs]; rfl⟩
  · rw [if_neg hins]
    apply mapM_ok_forall
    intro p hp
    apply iraceBuildForbidden_ok (by rfl)
    intro g hg
    have hp_all : ∀ x ∈ p, ∃ a b, x = Forbidden.equalsF a b :=
      pyProduct_mem hp (splitInOther_ins (fun x hx => hleaf x hx))
    have happ_leaf : ∀ x ∈ p ++ (splitInOther (Forbidden.dlcs clause)).2,
        ∃ a b, x = Forbidden.equalsF a b := by
      intro x hx
      rcases List.mem_append.mp hx with h | h
      · exact hp_all x h
      · exact splitInOther_others (fun y hy => hleaf y hy) x h
    rw [show Forbidden.dlcs (Forbidden.andF (p ++ (splitInOther (Forbidden.dlcs clause)).2))
        = Forbidden.dlcsList (p ++ (splitInOther (Forbidden.dlcs clause)).2) from rfl] at hg
    rw [dlcsList_of_leaves (by
      intro x hx
      obtain ⟨a, b, rfl⟩ := happ_leaf x hx
      rfl)] at hg
    exact happ_leaf g hg

theorem iraceForbiddenLines_ok (fs : List Forbidden) :
    ∃ ls, iraceForbiddenLines fs = Except.ok ls := by
  obtain ⟨ys, hys⟩ := mapM_ok_forall (fun x _ => iraceExpandClause_ok x)
  exact ⟨ys.flatten, by unfold iraceForbiddenLines; rw [hys]; rfl⟩

theorem iraceCondLines_forbErase (sp : ConfigurationSpace) (l : List Condition) :
    iraceCondLines { sp with forbiddenClauses := [] } l = iraceCondLines sp l := by
  induction l with
  | nil => rfl
  | cons c t ih =>
    show (do
      let s ← iraceBuildCondition { sp with forbiddenClauses := [] } c
      let rest ← iraceCondLines { sp with forbiddenClauses := [] } t
      pure (s :: rest) : Except PErr (List String)) = _
    rw [show iraceBuildCondition { sp with forbiddenClauses := [] } c
        = iraceBuildCondition sp c from by cases c <;> rfl, ih]
    rfl

/-- C9: the compact-dialect writer computes the Cartesian-product expansion
of the stored forbidden clauses into `forbidden_lines` but never appends
that buffer to its output: the written text is identical to that of the
same space with its forbidden clauses erased, and a concrete write of a
space with a membership forbidden clause emits no clause text at all. -/
theorem c9_irace_forbidden_dropped :
    (∀ sp : ConfigurationSpace,
      iraceWrite sp = iraceWrite { sp with forbiddenClauses := [] })
    ∧ iraceWrite ⟨[Hyperparameter.categorical "a" ["x", "y"] "x"], [],
        [Forbidden.andF [Forbidden.inF "a" ["x", "y"]]]⟩
      = Except.ok "a '--a ' c (x,y)\n"
    ∧ hasChar "a '--a ' c (x,y)\n" '\x7b' = false := by
  refine ⟨?_, rfl, rfl⟩
  intro sp
  obtain ⟨fs, hfs⟩ := iraceForbiddenLines_ok sp.forbiddenClauses
  show (do
    let params ← iraceParamLines sp.hyperparameters
    let conds ← iraceCondLines sp sp.conditions
    let _forb ← iraceForbiddenLines sp.forbiddenClauses
    let splitted0 := splitChar '\n' (joinNL params)
    let splitted1 ←
      if conds.isEmpty then pure splitted0
      else (linesKeep (joinNL conds)).foldlM iraceSpliceCondLine splitted0
    let final ← iraceNormalizeLines splitted1
    pure (String.join final) : Except PErr String)
    = (do
    let params ← iraceParamLines sp.hyperparameters
    let conds ← iraceCondLines { sp with forbiddenClauses := [] } sp.conditions
    let _forb ← iraceForbiddenLines []
    let splitted0 := splitChar '\n' (joinNL params)
    let splitted1 ←
      if conds.isEmpty then pure splitted0
      else (linesKeep (joinNL conds)).foldlM iraceSpliceCondLine splitted0
    let final ← iraceNormalizeLines splitted1
    pure (String.join final) : Except PErr String)
  rw [iraceCondLines_forbErase]
  cases hp : iraceParamLines sp.hyperparameters with
  | error e => rw [exbind_err, exbind_err]
  | ok params =>
    rw [exbind_ok, exbind_ok]
    cases hc : iraceCondLines sp sp.conditions with
    | error e => rw [exbind_err, exbind_err]
    | ok conds =>
      rw [exbind_ok, exbind_ok, hfs]
      rw [show iraceForbiddenLines [] = Except.ok [] from rfl]
      rw [exbind_ok, exbind_ok]

theorem char_toNat_inj {a b : Char} (h : a.toNat = b.toNat) : a = b :=
  Char.eq_of_val_eq (UInt32.toNat.inj h)

theorem lexLeb_total (a b : List Char) : lexLeb a b = true ∨ lexLeb b a = true := by
  induction a generalizing b with
  | nil => exact Or.inl rfl
  | cons x s ih =>
    cases b with
    | nil => exact Or.inr rfl
    | cons y t =>
      by_cases hxy : x = y
      · subst hxy
        rcases ih t with h | h
        · exact Or.inl (by simp [lexLeb, h])
        · exact Or.inr (by simp [lexLeb, h])
      · have hne : x.toNat ≠ y.toNat := fun he => hxy (char_toNat_inj he)
        rcases Nat.lt_or_ge x.toNat y.toNat with hlt | hge
        · exact Or.inl (by simp [lexLeb, hxy, hlt])
        · have hgt : y.toNat < x.toNat := Nat.lt_of_le_of_ne hge (fun he => hne he.symm)
          have hyx : ¬ y = x := fun he => hxy he.symm
          exact Or.inr (by simp [lexLeb, hyx, hgt])

theorem lexLeb_trans {a b c : List Char} (hab : lexLeb a b = true) (hbc : lexLeb b c = true) :
    lexLeb a c = true := by
  induction a generalizing b c with
  | nil => rfl
  | cons x s ih =>
    cases b with
    | nil => cases hab
    | cons y t =>
      cases c with
      | nil => cases hbc
      | cons z u =>
        by_cases hxy : x = y
        · subst hxy
          by_cases hyz : x = z
          · subst hyz
            simp only [lexLeb, if_pos rfl] at hab hbc ⊢
            exact ih hab hbc
          · simp only [lexLeb, if_pos rfl] at hab
            simp only [lexLeb, if_neg hyz] at hbc ⊢
            exact hbc
        · by_cases hyz : y = z
          · subst hyz
            simp only [lexLeb, if_neg hxy] at hab ⊢
            exact hab
          · simp only [lexLeb, if_neg hxy] at hab
            simp only [lexLeb, if_neg hyz] at hbc
            have h1 : x.toNat < y.toNat := of_decide_eq_true hab
            have h2 : y.toNat < z.toNat := of_decide_eq_true hbc
            have hxz : x ≠ z := by
              intro he
              subst he
              exact absurd (Nat.lt_trans h1 h2) (Nat.lt_irrefl _)
            simp only [lexLeb, if_neg hxz]
            exact decide_eq_true (Nat.lt_trans h1 h2)

theorem strLeb_total_rel : IsTotal String (fun a b => strLeb a b = true) :=
  ⟨fun a b => lexLeb_total a.toList b.toList⟩

theorem strLeb_trans_rel : IsTrans String (fun a b => strLeb a b = true) :=
  ⟨fun _ _ _ hab hbc => lexLeb_trans hab hbc⟩

theorem sortLines_sorted (ls : List String) :
    List.Sorted (fun a b => strLeb a b = true) (sortLines ls) := by
  haveI := strLeb_total_rel
  haveI := strLeb_trans_rel
  exact List.sorted_insertionSort _ ls

theorem sortLines_perm (ls : List String) : (sortLines ls).Perm ls :=
  List.perm_insertionSort _ ls

theorem splitInOther_spec {leaves : List Forbidden}
    (hleaf : ∀ g ∈ leaves, Forbidden.isLeaf g = true) :
    (splitInOther leaves).1
        = (specMemberships leaves).map (fun m => m.2.map (fun v => Forbidden.equalsF m.1 v))
      ∧ (splitInOther leaves).2
        = (specPlains leaves).map (fun p => Forbidden.equalsF p.1 p.2) := by
  induction leaves with
  | nil => exact ⟨rfl, rfl⟩
  | cons c cs ih =>
    have ihc := ih (fun g hg => hleaf g (List.mem_cons_of_mem c hg))
    rcases isLeaf_cases (hleaf c (List.mem_cons_self c cs)) with ⟨a, b, rfl⟩ | ⟨a, bs, rfl⟩
    · constructor
      · show (splitInOther cs).1 = _
        rw [ihc.1]
        rfl
      · show Forbidden.equalsF a b :: (splitInOther cs).2 = _
        rw [ihc.2]
        rfl
    · constructor
      · show (bs.map (fun v => Forbidden.equalsF a v)) :: (splitInOther cs).1 = _
        rw [ihc.1]
        rfl
      · show (splitInOther cs).2 = _
        rw [ihc.2]
        rfl

theorem pyProduct_map {α β : Type} (f : α → β) (ls : List (List α)) :
    pyProduct (ls.map (List.map f)) = (pyProduct ls).map (List.map f) := by
  induction ls with
  | nil => rfl
  | cons l t ih =>
    show (((l.map f).map (fun a => (pyProduct (t.map (List.map f))).map
        (fun c => a :: c))).flatten) = _
    rw [ih]
    show _ = ((l.map (fun a => (pyProduct t).map (fun c => a :: c))).flatten).map (List.map f)
    rw [List.map_flatten, List.map_map, List.map_map]
    congr 1
    apply List.map_congr_left
    intro a _
    simp [List.map_map]

theorem renderDlc_of_pairs (ps : List (String × String)) :
    (ps.map (fun p => Forbidden.equalsF p.1 p.2)).mapM renderDlc
      = Except.ok (ps.map (fun p => p.1 ++ "=" ++ p.2)) := by
  have := mapM_eq_map (l := ps.map (fun p => Forbidden.equalsF p.1 p.2))
    (f := renderDlc)
    (g := fun x => match x with
      | Forbidden.equalsF a b => a ++ "=" ++ b
      | _ => "")
    (by
      intro x hx
      rcases List.mem_map.mp hx with ⟨p, _, rfl⟩
      rfl)
  rw [this, List.map_map]
  rfl

theorem pcsBuildForbidden_pairs (ps : List (String × String)) :
    pcsBuildForbidden (Forbidden.andF (ps.map (fun p => Forbidden.equalsF p.1 p.2)))
      = Except.ok (specForbiddenRender ps) := by
  unfold pcsBuildForbidden
  rw [show Forbidden.dlcs (Forbidden.andF (ps.map (fun p => Forbidden.equalsF p.1 p.2)))
      = Forbidden.dlcsList (ps.map (fun p => Forbidden.equalsF p.1 p.2)) from rfl]
  rw [dlcsList_of_leaves (by
    intro x hx
    rcases List.mem_map.mp hx with ⟨p, _, rfl⟩
    rfl)]
  rw [renderDlc_of_pairs, exbind_ok]
  rfl

theorem mapM_map_eq_map {α β γ : Type} {l : List α} {g : α → β} {f : β → Except PErr γ}
    {h : α → γ} (hfg : ∀ x ∈ l, f (g x) = Except.ok (h x)) :
    (l.map g).mapM f = Except.ok (l.map h) := by
  induction l with
  | nil => rfl
  | cons a t ih =>
    show ((g a :: t.map g).mapM f) = _
    rw [List.mapM_cons, hfg a (List.mem_cons_self a t),
      ih (fun x hx => hfg x (List.mem_cons_of_mem a hx))]
    rfl

/-- C2: forbidden-clause expansion on write.  (i) The concrete example:
`{a in {1,2}, b=3}` produces exactly `{a=1, b=3}` and `{a=2, b=3}`.
(ii) In general, an AND conjunction of atomics with at least one membership
atomic expands to one rendered clause per element of the Cartesian product
of the membership value sets, each clause one equality per membership
atomic plus all plain atomics, and no clause uses the membership form
(`specExpandForbidden` renders equalities only).  (iii) The explicit-dialect
writer sorts the full set of rendered clause lines lexicographically before
emission (`pcsWrite` emits `sortLines` of the expansion, which is a sorted
permutation of it). -/
theorem c2_forbidden_expansion :
    pcsExpandClause (Forbidden.andF [Forbidden.inF "a" ["1", "2"], Forbidden.equalsF "b" "3"])
      = Except.ok ["\x7ba=1, b=3\x7d", "\x7ba=2, b=3\x7d"]
    ∧ (∀ leaves : List Forbidden, (∀ g ∈ leaves, Forbidden.isLeaf g = true) →
        leaves.any Forbidden.isIn = true →
        pcsExpandClause (Forbidden.andF leaves) = Except.ok (specExpandForbidden leaves))
    ∧ (∀ fs ls, pcsForbiddenLines fs = Except.ok ls →
        List.Sorted (fun a b => strLeb a b = true) (sortLines ls)
          ∧ (sortLines ls).Perm ls) := by
  refine ⟨rfl, ?_, fun fs ls _ => ⟨sortLines_sorted ls, sortLines_perm ls⟩⟩
  intro leaves hleaf hany
  unfold pcsExpandClause
  rw [show Forbidden.dlcs (Forbidden.andF leaves) = Forbidden.dlcsList leaves from rfl]
  rw [dlcsList_of_leaves hleaf]
  obtain ⟨h1, h2⟩ := splitInOther_spec hleaf
  rw [h1, h2]
  have hne : specMemberships leaves ≠ [] := by
    rcases List.exists_mem_of_ne_nil leaves (by
      intro he
      rw [he] at hany
      cases hany) with ⟨g0, _⟩
    rcases (List.any_eq_true).mp hany with ⟨g, hg, hgin⟩
    cases g with
    | inF a bs =>
      have : (a, bs) ∈ specMemberships leaves :=
        List.mem_filterMap.mpr ⟨Forbidden.inF a bs, hg, rfl⟩
      exact List.ne_nil_of_mem this
    | equalsF a b => cases hgin
    | andF cs => cases hgin
  rw [if_neg (by
    intro he
    exact hne (List.map_eq_nil.mp (List.isEmpty_iff.mp he)))]
  rw [show (specMemberships leaves).map (fun m => m.2.map (fun v => Forbidden.equalsF m.1 v))
      = ((specMemberships leaves).map (fun m => m.2.map (fun v => (m.1, v)))).map
          (List.map (fun p => Forbidden.equalsF p.1 p.2)) from by
    simp [List.map_map]]
  rw [pyProduct_map]
  rw [mapM_map_eq_map (h := fun combo => specForbiddenRender (combo ++ specPlains leaves))
    (by
      intro combo _
      rw [← List.map_append]
      exact pcsBuildForbidden_pairs (combo ++ specPlains leaves))]
  rfl

/-- Witness for C2's general part at a concrete clause and line list. -/
theorem c2_forbidden_expansion_witness :
    pcsExpandClause (Forbidden.andF [Forbidden.inF "p" ["u", "w"], Forbidden.equalsF "q" "z"])
      = Except.ok (specExpandForbidden
          [Forbidden.inF "p" ["u", "w"], Forbidden.equalsF "q" "z"])
    ∧ (List.Sorted (fun a b => strLeb a b = true)
          (sortLines ["\x7bq=z\x7d", "\x7bp=u\x7d"])
        ∧ (sortLines ["\x7bq=z\x7d", "\x7bp=u\x7d"]).Perm ["\x7bq=z\x7d", "\x7bp=u\x7d"]) :=
  ⟨c2_forbidden_expansion.2.1
      [Forbidden.inF "p" ["u", "w"], Forbidden.equalsF "q" "z"]
      (by decide) (by decide),
   c2_forbidden_expansion.2.2
      [Forbidden.andF [Forbidden.equalsF "q" "z"], Forbidden.andF [Forbidden.equalsF "p" "u"]]
      ["\x7bq=z\x7d", "\x7bp=u\x7d"] rfl⟩

theorem pcsParamLines_firstBad {hps : List Hyperparameter} {hp : Hyperparameter}
    (h : hps.find? (fun x => !(checkNameB (hpName x))) = some hp) :
    pcsParamLines hps = Except.error (PErr.illegalName (hpName hp)) := by
  induction hps with
  | nil => cases h
  | cons a t ih =>
    rw [List.find?_cons] at h
    cases hc : checkNameB (hpName a) with
    | false =>
      simp only [hc, Bool.not_false] at h
      injection h with h2
      subst h2
      unfold pcsParamLines
      rw [if_neg (by rw [hc]; exact Bool.false_ne_true)]
    | true =>
      simp only [hc, Bool.not_true] at h
      unfold pcsParamLines
      rw [if_pos hc, ih h, exbind_err]

theorem iraceParamLines_firstBad {hps : List Hyperparameter} {hp : Hyperparameter}
    (h : hps.find? (fun x => !(checkNameB (hpName x))) = some hp) :
    iraceParamLines hps = Except.error (PErr.illegalName (hpName hp)) := by
  induction hps with
  | nil => cases h
  | cons a t ih =>
    rw [List.find?_cons] at h
    cases hc : checkNameB (hpName a) with
    | false =>
      simp only [hc, Bool.not_false] at h
      injection h with h2
      subst h2
      unfold iraceParamLines
      rw [if_neg (by rw [hc]; exact Bool.false_ne_true)]
    | true =>
      simp only [hc, Bool.not_true] at h
      unfold iraceParamLines
      rw [if_pos hc, ih h, exbind_err]

theorem pcsParamLines_ok_of_names {hps : List Hyperparameter}
    (h : ∀ hp ∈ hps, checkNameB (hpName hp) = true) :
    ∃ ls, pcsParamLines hps = Except.ok ls := by
  induction hps with
  | nil => exact ⟨[], rfl⟩
  | cons a t ih =>
    obtain ⟨ls, hls⟩ := ih (fun x hx => h x (List.mem_cons_of_mem a hx))
    refine ⟨pcsBuildParam a :: ls, ?_⟩
    unfold pcsParamLines
    rw [if_pos (h a (List.mem_cons_self a t)), hls]
    rfl

theorem iraceParamLines_ok_of_names {hps : List Hyperparameter}
    (h : ∀ hp ∈ hps, checkNameB (hpName hp) = true) :
    ∃ ls, iraceParamLines hps = Except.ok ls := by
  induction hps with
  | nil => exact ⟨[], rfl⟩
  | cons a t ih =>
    obtain ⟨ls, hls⟩ := ih (fun x hx => h x (List.mem_cons_of_mem a hx))
    refine ⟨iraceBuildParam a :: ls, ?_⟩
    unfold iraceParamLines
    rw [if_pos (h a (List.mem_cons_self a t)), hls]
    rfl

theorem pcsCondLines_shape (cs : List Condition) :
    (∃ ls, pcsCondLines cs = Except.ok ls)
      ∨ (∃ m, pcsCondLines cs = Except.error (PErr.typeError m)) := by
  induction cs with
  | nil => exact Or.inl ⟨[], rfl⟩
  | cons c t ih =>
    unfold pcsCondLines
    cases hb : pcsBuildCondition c with
    | none => exact Or.inr ⟨"string argument expected, got NoneType", rfl⟩
    | some s =>
      rcases ih with ⟨ls, hls⟩ | ⟨m, hm⟩
      · exact Or.inl ⟨s :: ls, by rw [hls]; rfl⟩
      · exact Or.inr ⟨m, by rw [hm]; rfl⟩

theorem iraceCondLines_cons (sp : ConfigurationSpace) (c : Condition) (t : List Condition) :
    iraceCondLines sp (c :: t) = (do
      let s ← iraceBuildCondition sp c
      let rest ← iraceCondLines sp t
      pure (s :: rest)) := rfl

theorem iraceCondLines_shape (sp : ConfigurationSpace) (cs : List Condition) :
    (∃ ls, iraceCondLines sp cs = Except.ok ls)
      ∨ (∃ m, iraceCondLines sp cs = Except.error (PErr.unsupportedConstruct m)) := by
  induction cs with
  | nil => exact Or.inl ⟨[], rfl⟩
  | cons c t ih =>
    rw [iraceCondLines_cons]
    cases hb : iraceBuildCondition sp c with
    | error e =>
      have he : ∃ m, e = PErr.unsupportedConstruct m := by
        cases c with
        | orConj l => exact ⟨_, by cases hb; rfl⟩
        | notEquals a b v => exact ⟨_, by cases hb; rfl⟩
        | andConj l => exact ⟨_, by cases hb; rfl⟩
        | equals a b v => cases hb
        | inCond a b vs => cases hb
      obtain ⟨m, rfl⟩ := he
      exact Or.inr ⟨m, by rw [exbind_err]⟩
    | ok s =>
      rw [exbind_ok]
      rcases ih with ⟨ls, hls⟩ | ⟨m, hm⟩
      · exact Or.inl ⟨s :: ls, by rw [hls]; rfl⟩
      · exact Or.inr ⟨m, by rw [hm]; rfl⟩

theorem pcsBuildForbidden_ok {clause : Forbidden}
    (hleaves : ∀ g ∈ Forbidden.dlcs clause, ∃ a b, g = Forbidden.equalsF a b) :
    ∃ s, pcsBuildForbidden clause = Except.ok s := by
  obtain ⟨s, hs⟩ := mapM_renderDlc_ok hleaves
  refine ⟨"\x7b" ++ joinSep ", " s ++ "\x7d", ?_⟩
  unfold pcsBuildForbidden
  rw [hs, exbind_ok]
  rfl

theorem pcsExpandClause_ok (clause : Forbidden) :
    ∃ s, pcsExpandClause clause = Except.ok s := by
  have hleaf := dlcs_isLeaf clause
  unfold pcsExpandClause
  by_cases hins : ((splitInOther (Forbidden.dlcs clause)).1).isEmpty = true
  · have hnil : (splitInOther (Forbidden.dlcs clause)).1 = [] :=
      List.isEmpty_iff.mp hins
    have hnoin : ∀ g ∈ Forbidden.dlcs clause, ∃ a b, g = Forbidden.equalsF a b := by
      intro g hg
      rcases isLeaf_cases (hleaf g hg) with h | ⟨a, bs, rfl⟩
      · exact h
      · exact absurd (splitInOther_nil_no_inF hnil _ hg) (by simp [Forbidden.isIn])
    rw [if_pos hins]
    obtain ⟨s, hs⟩ := pcsBuildForbidden_ok hnoin
    exact ⟨[s], by rw [hs]; rfl⟩
  · rw [if_neg hins]
    apply mapM_ok_forall
    intro p hp
    apply pcsBuildForbidden_ok
    intro g hg
    have hp_all : ∀ x ∈ p, ∃ a b, x = Forbidden.equalsF a b :=
      pyProduct_mem hp (splitInOther_ins (fun x hx => hleaf x hx))
    have happ_leaf : ∀ x ∈ p ++ (splitInOther (Forbidden.dlcs clause)).2,
        ∃ a b, x = Forbidden.equalsF a b := by
      intro x hx
      rcases List.mem_append.mp hx with h | h
      · exact hp_all x h
      · exact splitInOther_others (fun y hy => hleaf y hy) x h
    rw [show Forbidden.dlcs (Forbidden.andF (p ++ (splitInOther (Forbidden.dlcs clause)).2))
        = Forbidden.dlcsList (p ++ (splitInOther (Forbidden.dlcs clause)).2) from rfl] at hg
    rw [dlcsList_of_leaves (by
      intro x hx
      obtain ⟨a, b, rfl⟩ := happ_leaf x hx
      rfl)] at hg
    exact happ_leaf g hg

theorem pcsForbiddenLines_ok (fs : List Forbidden) :
    ∃ ls, pcsForbiddenLines fs = Except.ok ls := by
  obtain ⟨ys, hys⟩ := mapM_ok_forall (fun x _ => pcsExpandClause_ok x)
  exact ⟨ys.flatten, by unfold pcsForbiddenLines; rw [hys]; rfl⟩

theorem spliceFold_shape (ls : List String) (acc : List String) :
    (∃ r, List.foldlM iraceSpliceCondLine acc ls = Except.ok r)
      ∨ List.foldlM iraceSpliceCondLine acc ls = Except.error PErr.indexError := by
  induction ls generalizing acc with
  | nil => exact Or.inl ⟨acc, rfl⟩
  | cons l t ih =>
    rw [List.foldlM_cons]
    unfold iraceSpliceCondLine
    by_cases hf : ((splitChar '\n' "").isEmpty) = true
    all_goals {
      by_cases hfind : (acc.find? (fun x =>
          containsStr x ((splitChar ' ' l).headD ""))).isSome = true
      · rw [if_pos hfind]
        rw [exbind_ok]
        exact ih _
      · rw [if_neg hfind]
        exact Or.inr (by rw [exbind_err])
    }

theorem iraceNormalizeLines_shape (ls : List String) :
    (∃ r, iraceNormalizeLines ls = Except.ok r)
      ∨ iraceNormalizeLines ls = Except.error PErr.indexError := by
  induction ls with
  | nil => exact Or.inl ⟨[], rfl⟩
  | cons x t ih =>
    unfold iraceNormalizeLines
    cases hx : x.toList.getLast? with
    | none => exact Or.inr rfl
    | some c =>
      rcases ih with ⟨r, hr⟩ | hr
      · exact Or.inl ⟨_, by rw [hr]; rfl⟩
      · exact Or.inr (by rw [hr]; rfl)

/-- C7 (corrected): illegal-name rejection on write holds only for names whose
FIRST non-whitespace character is outside the permitted set.  The check
`pp_param_name.parseString(name)` parses a prefix of the name, so a name with
a permitted first character is accepted by both writers even when a later
character is illegal.  Proved here: (a) if the first hyperparameter in
insertion order whose name fails the prefix check is `hp`, both `pcsWrite`
and `iraceWrite` fail with `IllegalNameError` naming `hp`; (b) if every name
passes the prefix check, neither writer can return an `IllegalNameError`. -/
theorem c7_illegal_name (sp : ConfigurationSpace) :
    (∀ hp, sp.hyperparameters.find? (fun x => !(checkNameB (hpName x))) = some hp →
      pcsWrite sp = Except.error (PErr.illegalName (hpName hp)) ∧
      iraceWrite sp = Except.error (PErr.illegalName (hpName hp))) ∧
    ((∀ hp ∈ sp.hyperparameters, checkNameB (hpName hp) = true) →
      ∀ m, pcsWrite sp ≠ Except.error (PErr.illegalName m) ∧
        iraceWrite sp ≠ Except.error (PErr.illegalName m)) := by
  have hbad : ∀ hp, sp.hyperparameters.find? (fun x => !(checkNameB (hpName x))) = some hp →
      pcsWrite sp = Except.error (PErr.illegalName (hpName hp)) ∧
      iraceWrite sp = Except.error (PErr.illegalName (hpName hp)) := by
    intro hp hfind
    constructor
    · unfold pcsWrite
      rw [pcsParamLines_firstBad hfind, exbind_err]
    · unfold iraceWrite
      rw [iraceParamLines_firstBad hfind, exbind_err]
  refine ⟨hbad, ?_⟩
  intro hnames m
  constructor
  · obtain ⟨ps, hps⟩ := pcsParamLines_ok_of_names hnames
    obtain ⟨fb, hfb⟩ := pcsForbiddenLines_ok sp.forbiddenClauses
    unfold pcsWrite
    rw [hps, exbind_ok]
    rcases pcsCondLines_shape sp.conditions with ⟨cs, hcs⟩ | ⟨m2, hm2⟩
    · rw [hcs, exbind_ok, hfb, exbind_ok]
      intro h
      cases h
    · rw [hm2, exbind_err]
      intro h
      injection h with h2
      cases h2
  · obtain ⟨ps, hps⟩ := iraceParamLines_ok_of_names hnames
    obtain ⟨fb, hfb⟩ := iraceForbiddenLines_ok sp.forbiddenClauses
    unfold iraceWrite
    rw [hps, exbind_ok]
    rcases iraceCondLines_shape sp sp.conditions with ⟨cs, hcs⟩ | ⟨m2, hm2⟩
    · rw [hcs, exbind_ok, hfb, exbind_ok]
      by_cases hce : cs.isEmpty = true
      · rw [if_pos hce]
        rw [show (pure (splitChar '\n' (joinNL ps)) : Except PErr (List String))
            = Except.ok (splitChar '\n' (joinNL ps)) from rfl, exbind_ok]
        beta_reduce
        rcases iraceNormalizeLines_shape (splitChar '\n' (joinNL ps)) with ⟨r, hr⟩ | hr
        · rw [hr, exbind_ok]
          intro h
          cases h
        · rw [hr, exbind_err]
          intro h
          injection h with h2
          cases h2
      · rw [if_neg hce]
        rcases spliceFold_shape (linesKeep (joinNL cs)) (splitChar '\n' (joinNL ps))
          with ⟨r, hr⟩ | hr
        · rw [hr, exbind_ok]
          beta_reduce
          rcases iraceNormalizeLines_shape r with ⟨r2, hr2⟩ | hr2
          · rw [hr2, exbind_ok]
            intro h
            cases h
          · rw [hr2, exbind_err]
            intro h
            injection h with h2
            cases h2
        · rw [hr, exbind_err]
          intro h
          injection h with h2
          cases h2
    · rw [hm2, exbind_err]
      intro h
      injection h with h2
      cases h2

/-- C7 counterexample: the name `a|b` contains `|`, a character outside the
permitted identifier set (`nameChar` rejects it), yet both writers accept a
hyperparameter so named and succeed instead of raising `IllegalNameError`,
because only the first character of the name is checked. -/
theorem c7_illegal_name_counterexample :
    nameChar '|' = false
    ∧ pcsWrite ⟨[Hyperparameter.categorical "a|b" ["x"] "x"], [], []⟩
        = Except.ok "a|b categorical \x7bx\x7d [x]"
    ∧ iraceWrite ⟨[Hyperparameter.categorical "a|b" ["x"] "x"], [], []⟩
        = Except.ok "a|b '--a|b ' c (x)\n" :=
  ⟨rfl, rfl, rfl⟩

/-- C7 witness: a name whose first character is `|` is rejected by both
writers with `IllegalNameError`. -/
theorem c7_illegal_name_witness :
    pcsWrite ⟨[Hyperparameter.categorical "|a" ["x"] "x"], [], []⟩
      = Except.error (PErr.illegalName "|a")
    ∧ iraceWrite ⟨[Hyperparameter.categorical "|a" ["x"] "x"], [], []⟩
      = Except.error (PErr.illegalName "|a") :=
  (c7_illegal_name ⟨[Hyperparameter.categorical "|a" ["x"] "x"], [], []⟩).1
    (Hyperparameter.categorical "|a" ["x"] "x") rfl

theorem mem_dropWhile_of {c : Char} {p : Char → Bool} (hc : p c = false) :
    ∀ {l : List Char}, c ∈ l → c ∈ l.dropWhile p := by
  intro l hl
  induction l with
  | nil => cases hl
  | cons a t ih =>
    cases hp : p a with
    | true =>
      rw [List.dropWhile_cons_of_pos hp]
      rcases List.mem_cons.mp hl with rfl | hm
      · rw [hp] at hc
        cases hc
      · exact ih hm
    | false =>
      rw [List.dropWhile_cons_of_neg (by rw [hp]; exact Bool.false_ne_true)]
      exact hl

theorem mem_pyStrip {c : Char} {s : String} (hc : isPyStripChar c = false)
    (h : c ∈ s.toList) : c ∈ (pyStrip s).toList := by
  unfold pyStrip
  show c ∈ ((s.toList.dropWhile isPyStripChar).reverse.dropWhile isPyStripChar).reverse
  rw [List.mem_reverse]
  exact mem_dropWhile_of hc (by rw [List.mem_reverse]; exact mem_dropWhile_of hc h)

theorem pyStrip_nonEmpty_of_hasChar {c : Char} {s : String} (hc : isPyStripChar c = false)
    (h : hasChar s c = true) : (pyStrip s).toList.isEmpty = false := by
  have hm : c ∈ s.toList := by
    simp only [hasChar] at h
    simpa using h
  have hm2 := mem_pyStrip hc hm
  cases he : (pyStrip s).toList.isEmpty with
  | false => rfl
  | true => exact absurd (List.isEmpty_iff.mp he ▸ hm2) (List.not_mem_nil c)

/-- C8 (corrected): the readers do NOT surface a typed failure for every
undecodable non-blank, non-comment line.  A cleaned line containing none of
`|`, `\x7d`, `]` is silently skipped by both readers, whatever its content.
Typed failures are raised only on the remaining branches: a line containing
`|` that the dialect's condition grammar cannot parse raises
`UnparsableConditionError`, and a line containing `\x7d` or `]` that is not
brace-wrapped, is not blank, and matches neither parameter grammar raises
`UnparsableParameterError`. -/
theorem c8_silent_swallowing (st : ReadState) (line : String) :
    (hasChar (cleanLine line) '|' = false →
     hasChar (cleanLine line) '\x7d' = false →
     hasChar (cleanLine line) ']' = false →
      pcsProcessLine st line = Except.ok st ∧ iraceProcessLine st line = Except.ok st)
    ∧ (hasChar (cleanLine line) '|' = true →
       runParse pcsCondition (cleanLine line) = none →
        pcsProcessLine st line = Except.error (PErr.unparsableCondition (cleanLine line)))
    ∧ (hasChar (cleanLine line) '|' = true →
       runParse iraceCondition (cleanLine line) = none →
        iraceProcessLine st line = Except.error (PErr.unparsableCondition (cleanLine line)))
    ∧ (hasChar (cleanLine line) '|' = false →
       (hasChar (cleanLine line) '\x7d' = true ∨ hasChar (cleanLine line) ']' = true) →
       (((cleanLine line).toList.head? = some '\x7b' ∧
         (cleanLine line).toList.getLast? = some '\x7d') → False) →
       runParse pcsContParam (cleanLine line) = none →
       runParse pcsCatParam (cleanLine line) = none →
        pcsProcessLine st line = Except.error (PErr.unparsableParameter (cleanLine line)))
    ∧ (hasChar (cleanLine line) '|' = false →
       (hasChar (cleanLine line) '\x7d' = true ∨ hasChar (cleanLine line) ']' = true) →
       (((cleanLine line).toList.head? = some '\x7b' ∧
         (cleanLine line).toList.getLast? = some '\x7d') → False) →
       runParse iraceContParam (cleanLine line) = none →
       runParse iraceCatParam (cleanLine line) = none →
        iraceProcessLine st line = Except.error (PErr.unparsableParameter (cleanLine line))) := by
  refine ⟨?_, ?_, ?_, ?_, ?_⟩
  · intro h1 h2 h3
    constructor
    · unfold pcsProcessLine
      rw [if_neg (by simp [h1])]
      rw [if_pos (by simp [h2, h3])]
    · unfold iraceProcessLine
      rw [if_neg (by simp [h1])]
      rw [if_pos (by simp [h2, h3])]
  · intro h1 hparse
    unfold pcsProcessLine
    rw [if_pos h1, hparse]
  · intro h1 hparse
    unfold iraceProcessLine
    rw [if_pos h1, hparse]
  · intro h1 h23 hbr hcont hcat
    have hns : (pyStrip (cleanLine line)).toList.isEmpty = false := by
      rcases h23 with h | h
      · exact pyStrip_nonEmpty_of_hasChar (by decide) h
      · exact pyStrip_nonEmpty_of_hasChar (by decide) h
    have hc1 : pcsTryCont (cleanLine line) = Except.ok none := by
      unfold pcsTryCont runParse
      unfold runParse at hcont
      rw [hcont]
    have hc2 : pcsTryCat (cleanLine line) = Except.ok none := by
      unfold pcsTryCat runParse
      unfold runParse at hcat
      rw [hcat]
    unfold pcsProcessLine
    rw [if_neg (by simp [h1])]
    rw [if_neg (by
      rcases h23 with h | h
      · simp [h]
      · simp [h])]
    rw [if_neg (by
      intro hco
      simp only [Bool.and_eq_true, decide_eq_true_eq] at hco
      exact hbr hco)]
    rw [if_neg (by rw [hns]; exact Bool.false_ne_true)]
    rw [hc1, exbind_ok]
    rw [hc2, exbind_ok]
  · intro h1 h23 hbr hcont hcat
    have hns : (pyStrip (cleanLine line)).toList.isEmpty = false := by
      rcases h23 with h | h
      · exact pyStrip_nonEmpty_of_hasChar (by decide) h
      · exact pyStrip_nonEmpty_of_hasChar (by decide) h
    have hc1 : iraceTryCont (cleanLine line) = Except.ok none := by
      unfold iraceTryCont runParse
      unfold runParse at hcont
      rw [hcont]
    have hc2 : iraceTryCat (cleanLine line) = Except.ok none := by
      unfold iraceTryCat runParse
      unfold runParse at hcat
      rw [hcat]
    unfold iraceProcessLine
    rw [if_neg (by simp [h1])]
    rw [if_neg (by
      rcases h23 with h | h
      · simp [h]
      · simp [h])]
    rw [if_neg (by
      intro hco
      simp only [Bool.and_eq_true, decide_eq_true_eq] at hco
      exact hbr hco)]
    rw [if_neg (by rw [hns]; exact Bool.false_ne_true)]
    rw [hc1, exbind_ok]
    rw [hc2, exbind_ok]

/-- C8 counterexample: `hello` is non-blank and carries no comment marker,
matches no construct of either dialect, yet both readers succeed on it and
return the empty configuration space — the line is silently dropped. -/
theorem c8_silent_swallowing_counterexample :
    pcsRead ["hello"] = Except.ok emptySpace
    ∧ iraceRead ["hello"] = Except.ok emptySpace
    ∧ (pyStrip "hello").toList.isEmpty = false
    ∧ hasChar "hello" '#' = false :=
  ⟨rfl, rfl, rfl, rfl⟩

/-- C8 witness: the skip branch taken on the concrete line `hello`. -/
theorem c8_silent_swallowing_witness :
    pcsProcessLine initState "hello" = Except.ok initState
    ∧ iraceProcessLine initState "hello" = Except.ok initState :=
  (c8_silent_swallowing initState "hello").1 rfl rfl rfl

/-- C3 (corrected): line classification on read follows the claimed fixed
order — condition on `|`, skip without `\x7d`/`]`, deferred forbidden when
brace-wrapped, otherwise parameter — but the parameter grammars match a
PREFIX of the line, not the full line, and when both parameter attempts
succeed the categorical result takes precedence over the continuous one
(the later attempt overwrites).  Stated for the explicit dialect's reader;
each conjunct characterizes one branch of the classification. -/
theorem c3_line_classification (st : ReadState) (line : String) :
    (∀ toks rest, hasChar (cleanLine line) '|' = true →
      runParse pcsCondition (cleanLine line) = some (toks, rest) →
      pcsProcessLine st line = Except.ok { st with conds := st.conds ++ [toks] })
    ∧ (hasChar (cleanLine line) '|' = true →
       runParse pcsCondition (cleanLine line) = none →
       pcsProcessLine st line = Except.error (PErr.unparsableCondition (cleanLine line)))
    ∧ (hasChar (cleanLine line) '|' = false →
       hasChar (cleanLine line) '\x7d' = false →
       hasChar (cleanLine line) ']' = false →
       pcsProcessLine st line = Except.ok st)
    ∧ (hasChar (cleanLine line) '|' = false →
       (hasChar (cleanLine line) '\x7d' = true ∨ hasChar (cleanLine line) ']' = true) →
       (cleanLine line).toList.head? = some '\x7b' →
       (cleanLine line).toList.getLast? = some '\x7d' →
       pcsProcessLine st line = Except.ok { st with forb := st.forb ++ [cleanLine line] })
    ∧ (∀ p0 hp sp2, hasChar (cleanLine line) '|' = false →
       (hasChar (cleanLine line) '\x7d' = true ∨ hasChar (cleanLine line) ']' = true) →
       (((cleanLine line).toList.head? = some '\x7b' ∧
         (cleanLine line).toList.getLast? = some '\x7d') → False) →
       pcsTryCont (cleanLine line) = Except.ok p0 →
       pcsTryCat (cleanLine line) = Except.ok (some hp) →
       addHyperparameter st.space hp = Except.ok sp2 →
       pcsProcessLine st line = Except.ok { st with space := sp2 })
    ∧ (∀ hp sp2, hasChar (cleanLine line) '|' = false →
       (hasChar (cleanLine line) '\x7d' = true ∨ hasChar (cleanLine line) ']' = true) →
       (((cleanLine line).toList.head? = some '\x7b' ∧
         (cleanLine line).toList.getLast? = some '\x7d') → False) →
       pcsTryCont (cleanLine line) = Except.ok (some hp) →
       pcsTryCat (cleanLine line) = Except.ok none →
       addHyperparameter st.space hp = Except.ok sp2 →
       pcsProcessLine st line = Except.ok { st with space := sp2 })
    ∧ (hasChar (cleanLine line) '|' = false →
       (hasChar (cleanLine line) '\x7d' = true ∨ hasChar (cleanLine line) ']' = true) →
       (((cleanLine line).toList.head? = some '\x7b' ∧
         (cleanLine line).toList.getLast? = some '\x7d') → False) →
       runParse pcsContParam (cleanLine line) = none →
       runParse pcsCatParam (cleanLine line) = none →
       pcsProcessLine st line = Except.error (PErr.unparsableParameter (cleanLine line))) := by
  have hskip3 : ∀ (h : hasChar (cleanLine line) '\x7d' = true ∨
      hasChar (cleanLine line) ']' = true),
      ¬((!hasChar (cleanLine line) '\x7d' && !hasChar (cleanLine line) ']') = true) := by
    intro h
    rcases h with h | h
    · simp [h]
    · simp [h]
  have hns : ∀ (h : hasChar (cleanLine line) '\x7d' = true ∨
      hasChar (cleanLine line) ']' = true),
      (pyStrip (cleanLine line)).toList.isEmpty = false := by
    intro h
    rcases h with h | h
    · exact pyStrip_nonEmpty_of_hasChar (by decide) h
    · exact pyStrip_nonEmpty_of_hasChar (by decide) h
  refine ⟨?_, ?_, ?_, ?_, ?_, ?_, ?_⟩
  · intro toks rest h1 hparse
    unfold pcsProcessLine
    rw [if_pos h1, hparse]
  · intro h1 hparse
    unfold pcsProcessLine
    rw [if_pos h1, hparse]
  · intro h1 h2 h3
    unfold pcsProcessLine
    rw [if_neg (by simp [h1])]
    rw [if_pos (by simp [h2, h3])]
  · intro h1 h23 hhead hlast
    unfold pcsProcessLine
    rw [if_neg (by simp [h1])]
    rw [if_neg (hskip3 h23)]
    rw [if_pos (by
      simp only [Bool.and_eq_true, decide_eq_true_eq]
      exact ⟨hhead, hlast⟩)]
  · intro p0 hp sp2 h1 h23 hbr hcont hcat hadd
    unfold pcsProcessLine
    rw [if_neg (by simp [h1])]
    rw [if_neg (hskip3 h23)]
    rw [if_neg (by
      intro hco
      simp only [Bool.and_eq_true, decide_eq_true_eq] at hco
      exact hbr hco)]
    rw [if_neg (by rw [hns h23]; exact Bool.false_ne_true)]
    rw [hcont, exbind_ok]
    rw [hcat, exbind_ok]
    show (do
      let sp ← addHyperparameter st.space hp
      pure ({ st with space := sp } : ReadState)) = Except.ok { st with space := sp2 }
    rw [hadd, exbind_ok]
    rfl
  · intro hp sp2 h1 h23 hbr hcont hcat hadd
    unfold pcsProcessLine
    rw [if_neg (by simp [h1])]
    rw [if_neg (hskip3 h23)]
    rw [if_neg (by
      intro hco
      simp only [Bool.and_eq_true, decide_eq_true_eq] at hco
      exact hbr hco)]
    rw [if_neg (by rw [hns h23]; exact Bool.false_ne_true)]
    rw [hcont, exbind_ok]
    rw [hcat, exbind_ok]
    show (do
      let sp ← addHyperparameter st.space hp
      pure ({ st with space := sp } : ReadState)) = Except.ok { st with space := sp2 }
    rw [hadd, exbind_ok]
    rfl
  · intro h1 h23 hbr hcont hcat
    have hc1 : pcsTryCont (cleanLine line) = Except.ok none := by
      unfold pcsTryCont runParse
      unfold runParse at hcont
      rw [hcont]
    have hc2 : pcsTryCat (cleanLine line) = Except.ok none := by
      unfold pcsTryCat runParse
      unfold runParse at hcat
      rw [hcat]
    unfold pcsProcessLine
    rw [if_neg (by simp [h1])]
    rw [if_neg (hskip3 h23)]
    rw [if_neg (by
      intro hco
      simp only [Bool.and_eq_true, decide_eq_true_eq] at hco
      exact hbr hco)]
    rw [if_neg (by rw [hns h23]; exact Bool.false_ne_true)]
    rw [hc1, exbind_ok]
    rw [hc2, exbind_ok]

/-- C3 counterexample: the line `a categorical \x7bb\x7d [b] x]` is accepted
as a categorical parameter declaration — the grammar consumes a prefix and
ignores the trailing `x]` — although neither parameter grammar matches the
full line. -/
theorem c3_line_classification_counterexample :
    pcsProcessLine initState "a categorical \x7bb\x7d [b] x]"
      = Except.ok { initState with space := { emptySpace with
          hyperparameters := [Hyperparameter.categorical "a" ["b"] "b"] } }
    ∧ fullMatches pcsContParam "a categorical \x7bb\x7d [b] x]" = false
    ∧ fullMatches pcsCatParam "a categorical \x7bb\x7d [b] x]" = false :=
  ⟨rfl, rfl, rfl⟩

/-- C3 witness: the classification applied on concrete lines of each kind. -/
theorem c3_line_classification_witness :
    pcsProcessLine initState "hi" = Except.ok initState
    ∧ pcsProcessLine initState "\x7ba=1\x7d"
      = Except.ok { initState with forb := ["\x7ba=1\x7d"] } :=
  ⟨(c3_line_classification initState "hi").2.2.1 rfl rfl rfl,
   (c3_line_classification initState "\x7ba=1\x7d").2.2.2.1 rfl (Or.inl rfl) rfl rfl⟩

theorem iraceCondLines_err_of_mem (sp : ConfigurationSpace) :
    ∀ {cs : List Condition},
      ((∃ l, Condition.orConj l ∈ cs) ∨ (∃ c p v, Condition.notEquals c p v ∈ cs)) →
      ∃ m, iraceCondLines sp cs = Except.error (PErr.unsupportedConstruct m) := by
  intro cs hbad
  induction cs with
  | nil =>
    rcases hbad with ⟨l, hl⟩ | ⟨c, p, v, hl⟩
    · cases hl
    · cases hl
  | cons c t ih =>
    rw [iraceCondLines_cons]
    cases hb : iraceBuildCondition sp c with
    | error e =>
      have he : ∃ m, e = PErr.unsupportedConstruct m := by
        cases c with
        | orConj l => exact ⟨_, by cases hb; rfl⟩
        | notEquals a b v => exact ⟨_, by cases hb; rfl⟩
        | andConj l => exact ⟨_, by cases hb; rfl⟩
        | equals a b v => cases hb
        | inCond a b vs => cases hb
      obtain ⟨m, rfl⟩ := he
      exact ⟨m, by rw [exbind_err]⟩
    | ok s =>
      rw [exbind_ok]
      have hmem : (∃ l, Condition.orConj l ∈ t) ∨ (∃ a p v, Condition.notEquals a p v ∈ t) := by
        rcases hbad with ⟨l, hl⟩ | ⟨a, p, v, hl⟩
        · rcases List.mem_cons.mp hl with rfl | hm
          · rw [show iraceBuildCondition sp (Condition.orConj l)
              = Except.error (PErr.unsupportedConstruct "IRACE cannot handle OR conditions")
              from rfl] at hb
            cases hb
          · exact Or.inl ⟨l, hm⟩
        · rcases List.mem_cons.mp hl with rfl | hm
          · rw [show iraceBuildCondition sp (Condition.notEquals a p v)
              = Except.error (PErr.unsupportedConstruct "IRACE cannot handle != conditions")
              from rfl] at hb
            cases hb
          · exact Or.inr ⟨a, p, v, hm⟩
      obtain ⟨m, hm⟩ := ih hmem
      exact ⟨m, by rw [hm, exbind_err]⟩

/-- C6 (confirmed): a space containing an OR-conjunction or a not-equals
condition cannot be written in the compact dialect — provided every name
passes the writer's name check (so the write reaches the condition stage),
`iraceWrite` fails with a typed `UnsupportedConstructError` and emits no
text. -/
theorem c6_unsupported_construct (sp : ConfigurationSpace)
    (hnames : ∀ hp ∈ sp.hyperparameters, checkNameB (hpName hp) = true)
    (hbad : (∃ l, Condition.orConj l ∈ sp.conditions) ∨
            (∃ c p v, Condition.notEquals c p v ∈ sp.conditions)) :
    ∃ m, iraceWrite sp = Except.error (PErr.unsupportedConstruct m) := by
  obtain ⟨ps, hps⟩ := iraceParamLines_ok_of_names hnames
  obtain ⟨m, hm⟩ := iraceCondLines_err_of_mem sp hbad
  refine ⟨m, ?_⟩
  unfold iraceWrite
  rw [hps, exbind_ok, hm, exbind_err]

/-- C6 witness: a concrete space with an OR-conjunction condition is
rejected by the compact writer. -/
theorem c6_unsupported_construct_witness :
    ∃ m, iraceWrite ⟨[Hyperparameter.categorical "a" ["x"] "x",
        Hyperparameter.categorical "b" ["y", "z"] "y"],
      [Condition.orConj [Condition.equals "a" "b" "y", Condition.equals "a" "b" "z"]], []⟩
      = Except.error (PErr.unsupportedConstruct m) :=
  c6_unsupported_construct _ (by decide)
    (Or.inl ⟨[Condition.equals "a" "b" "y", Condition.equals "a" "b" "z"], List.Mem.head _⟩)

theorem getHp_ok_of_hasHpB {sp : ConfigurationSpace} {n : String}
    (h : hasHpB sp n = true) : ∃ hp, getHp sp n = Except.ok hp := by
  unfold getHp
  unfold hasHpB at h
  cases hf : sp.hyperparameters.find? (fun hp => hpName hp = n) with
  | none => rw [hf] at h; cases h
  | some hp => exact ⟨hp, rfl⟩

theorem toToks_headD (c : String) (s : PcsLineSpec) :
    (PcsLineSpec.toToks c s).headD "" = c := by
  cases s <;> rfl

theorem pcsCondLine_singleIn {sp : ConfigurationSpace} {c p v : String}
    (hcc : hasHpB sp c = true) (hpp : hasHpB sp p = true) :
    pcsCondLine sp c (PcsLineSpec.toToks c (PcsLineSpec.singleIn p v))
      = Except.ok ([Condition.inCond c p [v]], none) := by
  obtain ⟨h1, hgc⟩ := getHp_ok_of_hasHpB hcc
  obtain ⟨h2, hgp⟩ := getHp_ok_of_hasHpB hpp
  show pcsCondLine sp c [c, "|", p, "in", "\x7b", v, "\x7d"]
    = Except.ok ([Condition.inCond c p [v]], none)
  unfold pcsCondLine
  rw [hgc, exbind_ok]
  rw [show (idx [c, "|", p, "in", "\x7b", v, "\x7d"] 2) = Except.ok p from rfl, exbind_ok]
  rw [hgp, exbind_ok]
  rfl

theorem pcsChildFold_cons (sp : ConfigurationSpace) (c : String) (toks : List String)
    (rest : List (List String)) (objs : List Condition) (conn : Option String) :
    pcsChildFold sp c (toks :: rest) objs conn = (do
      let (newObjs, connUpd) ← pcsCondLine sp c toks
      pcsChildFold sp c rest (objs ++ newObjs)
        (match connUpd with | some x => some x | none => conn)) := rfl

theorem pcsChildFold_singleIn {sp : ConfigurationSpace} {c : String}
    (hcc : hasHpB sp c = true) :
    ∀ (ss : List PcsLineSpec), (∀ s ∈ ss, ∃ p v, s = PcsLineSpec.singleIn p v) →
    (∀ s ∈ ss, PcsLineSpec.lookupsOkB sp s = true) →
    ∀ (objs : List Condition) (conn : Option String),
    pcsChildFold sp c (ss.map (fun s => PcsLineSpec.toToks c s)) objs conn
      = Except.ok (objs ++ (ss.map (fun s => PcsLineSpec.leaves c s)).flatten, conn) := by
  intro ss
  induction ss with
  | nil =>
    intro _ _ objs conn
    simp only [List.map_nil, List.flatten_nil, List.append_nil]
    rfl
  | cons s t ih =>
    intro hsh hlk objs conn
    obtain ⟨p, v, rfl⟩ := hsh s (List.mem_cons_self s t)
    have hpp : hasHpB sp p = true := hlk _ (List.mem_cons_self _ t)
    rw [List.map_cons, pcsChildFold_cons, pcsCondLine_singleIn hcc hpp, exbind_ok]
    show pcsChildFold sp c (t.map (fun s => PcsLineSpec.toToks c s))
      (objs ++ [Condition.inCond c p [v]]) conn = _
    rw [ih (fun x hx => hsh x (List.mem_cons_of_mem _ hx))
      (fun x hx => hlk x (List.mem_cons_of_mem _ hx)) (objs ++ [Condition.inCond c p [v]]) conn]
    simp only [List.map_cons, List.flatten_cons, List.append_assoc]
    rfl

theorem pcsCombine_err_of_len {objs : List Condition} (h : 2 ≤ objs.length) :
    pcsCombine objs none = Except.error PErr.nameError := by
  cases objs with
  | nil => simp at h
  | cons a t =>
    cases t with
    | nil => simp at h
    | cons b t2 => rfl

theorem flatten_leaves_len {c : String} :
    ∀ {ss : List PcsLineSpec}, (∀ s ∈ ss, ∃ p v, s = PcsLineSpec.singleIn p v) →
    ((ss.map (fun s => PcsLineSpec.leaves c s)).flatten).length = ss.length := by
  intro ss
  induction ss with
  | nil => intro _; rfl
  | cons s t ih =>
    intro hsh
    obtain ⟨p, v, rfl⟩ := hsh s (List.mem_cons_self s t)
    simp only [List.map_cons, List.flatten_cons, List.length_append, List.length_cons]
    rw [ih (fun x hx => hsh x (List.mem_cons_of_mem _ hx))]
    rw [show (PcsLineSpec.leaves c (PcsLineSpec.singleIn p v)).length = 1 from rfl]
    omega

theorem condsFilter_eq (items : List (String × PcsLineSpec)) (ch : String) :
    (items.map (fun i => PcsLineSpec.toToks i.1 i.2)).filter (fun t => t.headD "" = ch)
      = ((items.filter (fun i => i.1 = ch)).map Prod.snd).map
          (fun s => PcsLineSpec.toToks ch s) := by
  induction items with
  | nil => rfl
  | cons i t ih =>
    simp only [List.map_cons, List.filter_cons]
    by_cases hi : i.1 = ch
    · rw [if_pos (by rw [toToks_headD]; exact decide_eq_true hi)]
      rw [if_pos (decide_eq_true hi)]
      simp only [List.map_cons]
      rw [hi, ih]
    · rw [if_neg (by rw [toToks_headD]; simp [hi])]
      rw [if_neg (by simp [hi])]
      exact ih

theorem mem_firstOccurAux {x : String} :
    ∀ {l seen : List String}, x ∈ firstOccurAux seen l ↔ (x ∈ l ∧ seen.contains x = false) := by
  intro l
  induction l with
  | nil =>
    intro seen
    simp [firstOccurAux]
  | cons a t ih =>
    intro seen
    unfold firstOccurAux
    by_cases hc : seen.contains a = true
    · rw [if_pos hc, ih]
      constructor
      · rintro ⟨hm, hs⟩
        exact ⟨List.mem_cons_of_mem a hm, hs⟩
      · rintro ⟨hm, hs⟩
        rcases List.mem_cons.mp hm with rfl | hm2
        · rw [hc] at hs
          cases hs
        · exact ⟨hm2, hs⟩
    · have hcf : seen.contains a = false := by
        cases h : seen.contains a with
        | false => rfl
        | true => exact absurd h hc
      rw [if_neg hc]
      constructor
      · intro hmem
        rcases List.mem_cons.mp hmem with rfl | hm2
        · exact ⟨List.mem_cons_self _ _, hcf⟩
        · obtain ⟨hmt, hcs⟩ := ih.mp hm2
          rw [List.contains_cons] at hcs
          rcases Bool.or_eq_false_iff.mp hcs with ⟨_, h2⟩
          exact ⟨List.mem_cons_of_mem a hmt, h2⟩
      · rintro ⟨hm, hs⟩
        rcases List.mem_cons.mp hm with rfl | hm2
        · exact List.mem_cons_self _ _
        · by_cases hxa : x = a
          · subst hxa
            exact List.mem_cons_self _ _
          · refine List.mem_cons_of_mem a (ih.mpr ⟨hm2, ?_⟩)
            rw [List.contains_cons, Bool.or_eq_false_iff]
            exact ⟨by simp [hxa], hs⟩

theorem mem_firstOccur {x : String} {l : List String} : x ∈ firstOccur l ↔ x ∈ l := by
  unfold firstOccur
  rw [mem_firstOccurAux]
  simp [List.contains]

theorem pcsAssembleAux_cons (conds : List (List String)) (sp : ConfigurationSpace)
    (child : String) (rest : List String) (conn : Option String) :
    pcsAssembleAux conds sp (child :: rest) conn = (do
      let (objs, conn1) ← pcsChildFold sp child
        (conds.filter (fun t => t.headD "" = child)) [] conn
      let combined ← pcsCombine objs conn1
      pcsAssembleAux conds { sp with conditions := sp.conditions ++ [combined] } rest conn1) :=
  rfl

theorem pcsAssembleAux_singleIn_err (items : List (String × PcsLineSpec))
    (hshape : ∀ i ∈ items, ∃ p v, i.2 = PcsLineSpec.singleIn p v) :
    ∀ (children : List String) (sp : ConfigurationSpace),
    (∀ i ∈ items, hasHpB sp i.1 = true ∧ PcsLineSpec.lookupsOkB sp i.2 = true) →
    (∀ ch ∈ children, ch ∈ items.map Prod.fst) →
    (∃ ch ∈ children, 2 ≤ (items.filter (fun i => i.1 = ch)).length) →
    pcsAssembleAux (items.map (fun i => PcsLineSpec.toToks i.1 i.2)) sp children none
      = Except.error PErr.nameError := by
  intro children
  induction children with
  | nil =>
    intro sp _ _ hbad
    obtain ⟨ch, hm, _⟩ := hbad
    cases hm
  | cons ch rest ih =>
    intro sp hlook hmem hbad
    have hchm : ch ∈ items.map Prod.fst := hmem ch (List.mem_cons_self _ _)
    have hcc : hasHpB sp ch = true := by
      obtain ⟨i, hi, hieq⟩ := List.mem_map.mp hchm
      exact hieq ▸ (hlook i hi).1
    have hsh_ss : ∀ s ∈ (items.filter (fun i => i.1 = ch)).map Prod.snd,
        ∃ p v, s = PcsLineSpec.singleIn p v := by
      intro s hs
      obtain ⟨i, hi, rfl⟩ := List.mem_map.mp hs
      exact hshape i (List.mem_of_mem_filter hi)
    have hlk_ss : ∀ s ∈ (items.filter (fun i => i.1 = ch)).map Prod.snd,
        PcsLineSpec.lookupsOkB sp s = true := by
      intro s hs
      obtain ⟨i, hi, rfl⟩ := List.mem_map.mp hs
      exact (hlook i (List.mem_of_mem_filter hi)).2
    rw [pcsAssembleAux_cons]
    rw [condsFilter_eq items ch]
    rw [pcsChildFold_singleIn hcc _ hsh_ss hlk_ss [] none, exbind_ok]
    show (do
      let combined ← pcsCombine
        ((((items.filter (fun i => i.1 = ch)).map Prod.snd).map
          (fun s => PcsLineSpec.leaves ch s)).flatten) none
      pcsAssembleAux (items.map (fun i => PcsLineSpec.toToks i.1 i.2))
        { sp with conditions := sp.conditions ++ [combined] } rest none)
      = Except.error PErr.nameError
    by_cases h2 : 2 ≤ (items.filter (fun i => i.1 = ch)).length
    · have hlenL : 2 ≤ ((((items.filter (fun i => i.1 = ch)).map Prod.snd).map
          (fun s => PcsLineSpec.leaves ch s)).flatten).length := by
        rw [flatten_leaves_len hsh_ss, List.length_map]
        exact h2
      rw [pcsCombine_err_of_len hlenL, exbind_err]
    · have hlen1 : 1 ≤ (items.filter (fun i => i.1 = ch)).length := by
        obtain ⟨i, hi, hieq⟩ := List.mem_map.mp hchm
        have hmem2 : i ∈ items.filter (fun i => i.1 = ch) :=
          List.mem_filter.mpr ⟨hi, decide_eq_true hieq⟩
        exact List.length_pos.mpr (List.ne_nil_of_mem hmem2)
      have hlen_eq : (items.filter (fun i => i.1 = ch)).length = 1 := by omega
      obtain ⟨i0, hi0⟩ := List.length_eq_one.mp hlen_eq
      have hi0mem : i0 ∈ items.filter (fun i => i.1 = ch) := by
        rw [hi0]
        exact List.mem_cons_self _ _
      obtain ⟨p, v, hpv⟩ := hshape i0 (List.mem_of_mem_filter hi0mem)
      rw [hi0]
      simp only [List.map_cons, List.map_nil, List.flatten_cons, List.flatten_nil,
        List.append_nil]
      rw [hpv]
      rw [show pcsCombine (PcsLineSpec.leaves ch (PcsLineSpec.singleIn p v)) none
          = Except.ok (Condition.inCond ch p [v]) from rfl, exbind_ok]
      apply ih
      · exact fun i hi => hlook i hi
      · exact fun c hc => hmem c (List.mem_cons_of_mem _ hc)
      · obtain ⟨ch', hch', hcnt⟩ := hbad
        rcases List.mem_cons.mp hch' with rfl | hr
        · exact absurd hcnt h2
        · exact ⟨ch', hr, hcnt⟩

/-- C10 (confirmed): in the explicit dialect, when every condition line is a
single-membership line (so no line ever assigns the `connective` local) and
some child parameter appears on two or more lines, the grouping step reads
the never-assigned `connective` and `read` terminates with the untyped
`NameError` — not with a configuration space nor a typed parse error.
Stated generally over the assembly stage, plus a concrete five-line input on
which the full reader exhibits the error. -/
theorem c10_unassigned_connective :
    (∀ (sp : ConfigurationSpace) (items : List (String × PcsLineSpec)),
      (∀ i ∈ items, ∃ p v, i.2 = PcsLineSpec.singleIn p v) →
      (∀ i ∈ items, hasHpB sp i.1 = true ∧ PcsLineSpec.lookupsOkB sp i.2 = true) →
      (∃ ch, ch ∈ items.map Prod.fst ∧ 2 ≤ (items.filter (fun i => i.1 = ch)).length) →
      pcsAssembleAll sp (items.map (fun i => PcsLineSpec.toToks i.1 i.2))
        = Except.error PErr.nameError)
    ∧ pcsRead ["y categorical \x7ba, b\x7d [a]", "w categorical \x7be, f\x7d [e]",
        "x categorical \x7bc, d\x7d [c]", "x | y in \x7ba\x7d", "x | w in \x7be\x7d"]
      = Except.error PErr.nameError := by
  constructor
  · intro sp items hshape hlook hbad
    unfold pcsAssembleAll
    have hmapfst : (items.map (fun i => PcsLineSpec.toToks i.1 i.2)).map
        (fun t => t.headD "") = items.map Prod.fst := by
      rw [List.map_map]
      apply List.map_congr_left
      intro i _
      exact toToks_headD i.1 i.2
    rw [hmapfst]
    obtain ⟨ch, hm, hcnt⟩ := hbad
    exact pcsAssembleAux_singleIn_err items hshape (firstOccur (items.map Prod.fst)) sp hlook
      (fun c hc => mem_firstOccur.mp hc) ⟨ch, mem_firstOccur.mpr hm, hcnt⟩
  · rfl

/-- C10 witness: the assembly stage applied to two single-membership lines
for the same child fails with the untyped name error. -/
theorem c10_unassigned_connective_witness :
    pcsAssembleAll ⟨[Hyperparameter.categorical "y" ["a"] "a",
        Hyperparameter.categorical "w" ["e"] "e",
        Hyperparameter.categorical "x" ["c"] "c"], [], []⟩
      ([("x", PcsLineSpec.singleIn "y" "a"), ("x", PcsLineSpec.singleIn "w" "e")].map
        (fun i => PcsLineSpec.toToks i.1 i.2))
      = Except.error PErr.nameError :=
  (c10_unassigned_connective).1 _ _
    (by
      intro i hi
      rcases List.mem_cons.mp hi with rfl | hi2
      · exact ⟨"y", "a", rfl⟩
      · rcases List.mem_cons.mp hi2 with rfl | h3
        · exact ⟨"w", "e", rfl⟩
        · cases h3)
    (by decide)
    ⟨"x", by decide, by decide⟩

theorem iraceCondToks_headD (c p : String) (vs : List String) :
    (iraceCondToks c p vs).headD "" = c := by
  cases vs <;> rfl

theorem iraceSlice (c p v : String) (rest : List String) :
    pySlice2 ([c, "|", p, "in", "\x7b", v] ++ tokChoicesTail rest ++ ["\x7d"]) 5 1
      = v :: rest := by
  unfold pySlice2
  rw [show ((([c, "|", p, "in", "\x7b", v] ++ tokChoicesTail rest) ++ ["\x7d"]).length - 1)
      = ([c, "|", p, "in", "\x7b", v] ++ tokChoicesTail rest).length by
    simp [List.length_append]]
  rw [List.take_left]
  rw [show ([c, "|", p, "in", "\x7b", v] ++ tokChoicesTail rest).drop 5
      = v :: tokChoicesTail rest from rfl]
  exact everyOther_tokChoices v rest

theorem iraceCondLine_toks {sp : ConfigurationSpace} {c p : String} {vs : List String}
    (hcc : hasHpB sp c = true) (hpp : hasHpB sp p = true) :
    iraceCondLine sp c (iraceCondToks c p vs) = Except.ok (iraceSpecFactOf c p vs) := by
  obtain ⟨h1, hgc⟩ := getHp_ok_of_hasHpB hcc
  obtain ⟨h2, hgp⟩ := getHp_ok_of_hasHpB hpp
  cases vs with
  | nil =>
    show iraceCondLine sp c [c, "|", p, "in", "\x7b", "\x7d"]
      = Except.ok (Condition.inCond c p [])
    unfold iraceCondLine
    rw [hgc, exbind_ok]
    rw [show (idx [c, "|", p, "in", "\x7b", "\x7d"] 2) = Except.ok p from rfl, exbind_ok]
    rw [hgp, exbind_ok]
    rfl
  | cons v rest =>
    show iraceCondLine sp c ([c, "|", p, "in", "\x7b", v] ++ tokChoicesTail rest ++ ["\x7d"])
      = Except.ok (iraceSpecFactOf c p (v :: rest))
    unfold iraceCondLine
    rw [hgc, exbind_ok]
    rw [show (idx ([c, "|", p, "in", "\x7b", v] ++ tokChoicesTail rest ++ ["\x7d"]) 2)
        = Except.ok p from rfl, exbind_ok]
    rw [hgp, exbind_ok]
    rw [iraceSlice]
    cases rest with
    | nil => rfl
    | cons w t => rfl

theorem iraceChildFold_cons (sp : ConfigurationSpace) (ch : String) (toks : List String)
    (rest : List (List String)) (objs : List Condition) :
    iraceChildFold sp ch (toks :: rest) objs = (do
      let c ← iraceCondLine sp ch toks
      iraceChildFold sp ch rest (objs ++ [c])) := rfl

theorem iraceChildFold_toks {sp : ConfigurationSpace} {ch : String}
    (hcc : hasHpB sp ch = true) :
    ∀ (ps : List (String × List String)), (∀ q ∈ ps, hasHpB sp q.1 = true) →
    ∀ (objs : List Condition),
    iraceChildFold sp ch (ps.map (fun q => iraceCondToks ch q.1 q.2)) objs
      = Except.ok (objs ++ ps.map (fun q => iraceSpecFactOf ch q.1 q.2)) := by
  intro ps
  induction ps with
  | nil =>
    intro _ objs
    simp only [List.map_nil, List.append_nil]
    rfl
  | cons q t ih =>
    intro hq objs
    rw [List.map_cons, iraceChildFold_cons,
      iraceCondLine_toks hcc (hq q (List.mem_cons_self q t)), exbind_ok]
    rw [ih (fun x hx => hq x (List.mem_cons_of_mem _ hx)) (objs ++ [iraceSpecFactOf ch q.1 q.2])]
    simp only [List.map_cons, List.append_assoc]
    rfl

theorem iraceCombine_spec {objs : List Condition} (h : objs ≠ []) :
    iraceCombine objs = Except.ok (iraceSpecCombine objs) := by
  cases objs with
  | nil => exact absurd rfl h
  | cons a t =>
    cases t with
    | nil => rfl
    | cons b t2 => rfl

theorem condsFilterIrace_eq (items : List (String × String × List String)) (ch : String) :
    (items.map (fun i => iraceCondToks i.1 i.2.1 i.2.2)).filter (fun t => t.headD "" = ch)
      = ((items.filter (fun i => i.1 = ch)).map (fun i => i.2)).map
          (fun q => iraceCondToks ch q.1 q.2) := by
  induction items with
  | nil => rfl
  | cons i t ih =>
    simp only [List.map_cons, List.filter_cons]
    by_cases hi : i.1 = ch
    · rw [if_pos (by rw [iraceCondToks_headD]; exact decide_eq_true hi)]
      rw [if_pos (decide_eq_true hi)]
      simp only [List.map_cons]
      rw [hi, ih]
    · rw [if_neg (by rw [iraceCondToks_headD]; simp [hi])]
      rw [if_neg (by simp [hi])]
      exact ih

theorem iraceAssembleAux_cons (conds : List (List String)) (sp : ConfigurationSpace)
    (child : String) (rest : List String) :
    iraceAssembleAux conds sp (child :: rest) = (do
      let objs ← iraceChildFold sp child (conds.filter (fun t => t.headD "" = child)) []
      let combined ← iraceCombine objs
      iraceAssembleAux conds { sp with conditions := sp.conditions ++ [combined] } rest) :=
  rfl

theorem iraceAssembleAux_spec (items : List (String × String × List String)) :
    ∀ (children : List String) (sp : ConfigurationSpace),
    (∀ i ∈ items, hasHpB sp i.1 = true ∧ hasHpB sp i.2.1 = true) →
    (∀ ch ∈ children, ch ∈ items.map Prod.fst) →
    iraceAssembleAux (items.map (fun i => iraceCondToks i.1 i.2.1 i.2.2)) sp children
      = Except.ok { sp with conditions := sp.conditions ++ children.map (fun ch =>
          iraceSpecCombine (((items.filter (fun i => i.1 = ch)).map (fun i => i.2)).map
            (fun q => iraceSpecFactOf ch q.1 q.2))) } := by
  intro children
  induction children with
  | nil =>
    intro sp _ _
    rw [List.map_nil, List.append_nil]
    rfl
  | cons ch rest ih =>
    intro sp hlook hmem
    have hchm : ch ∈ items.map Prod.fst := hmem ch (List.mem_cons_self _ _)
    have hcc : hasHpB sp ch = true := by
      obtain ⟨i, hi, hieq⟩ := List.mem_map.mp hchm
      exact hieq ▸ (hlook i hi).1
    have hps : ∀ q ∈ (items.filter (fun i => i.1 = ch)).map (fun i => i.2),
        hasHpB sp q.1 = true := by
      intro q hq
      obtain ⟨i, hi, rfl⟩ := List.mem_map.mp hq
      exact (hlook i (List.mem_of_mem_filter hi)).2
    have hne : ((items.filter (fun i => i.1 = ch)).map (fun i => i.2)).map
        (fun q => iraceSpecFactOf ch q.1 q.2) ≠ [] := by
      obtain ⟨i, hi, hieq⟩ := List.mem_map.mp hchm
      have hmem2 : i ∈ items.filter (fun i => i.1 = ch) :=
        List.mem_filter.mpr ⟨hi, decide_eq_true hieq⟩
      intro hcon
      rw [List.map_eq_nil_iff, List.map_eq_nil_iff] at hcon
      rw [hcon] at hmem2
      cases hmem2
    rw [iraceAssembleAux_cons]
    rw [condsFilterIrace_eq items ch]
    rw [iraceChildFold_toks hcc _ hps [], exbind_ok]
    rw [List.nil_append, iraceCombine_spec hne, exbind_ok]
    rw [ih { sp with conditions := sp.conditions ++
        [iraceSpecCombine (((items.filter (fun i => i.1 = ch)).map (fun i => i.2)).map
          (fun q => iraceSpecFactOf ch q.1 q.2))] }
      (fun i hi => hlook i hi) (fun c hc => hmem c (List.mem_cons_of_mem _ hc))]
    rw [List.map_cons, List.append_assoc]
    rfl

/-- C4 (confirmed): condition grouping in the AND-only compact dialect.  For
any list of parsed condition lines (child, parent, value set), the assembly
attaches, per distinct child in first-occurrence order, exactly one
top-level condition: the single parsed fact when the child has one line, and
an AND-conjunction of all the child's facts in original line order when it
has two or more — where each line's fact is an equality for a singleton
value set and a membership otherwise.  Also exhibited through the full
reader: two lines for child `x` yield one AND-conjunction, and a lone line
yields the bare fact. -/
theorem c4_irace_grouping :
    (∀ (sp : ConfigurationSpace) (items : List (String × String × List String)),
      (∀ i ∈ items, hasHpB sp i.1 = true ∧ hasHpB sp i.2.1 = true) →
      iraceAssembleAll sp (items.map (fun i => iraceCondToks i.1 i.2.1 i.2.2))
        = Except.ok { sp with conditions := sp.conditions ++
            (firstOccur (items.map Prod.fst)).map (fun ch =>
              iraceSpecCombine (((items.filter (fun i => i.1 = ch)).map (fun i => i.2)).map
                (fun q => iraceSpecFactOf ch q.1 q.2))) })
    ∧ iraceRead ["y \x7ba, b\x7d [a]", "w \x7be, f\x7d [e]", "x \x7bc, d\x7d [c]",
        "x | y in \x7ba\x7d", "x | w in \x7be, f\x7d"]
      = Except.ok ⟨[Hyperparameter.categorical "y" ["a", "b"] "a",
          Hyperparameter.categorical "w" ["e", "f"] "e",
          Hyperparameter.categorical "x" ["c", "d"] "c"],
        [Condition.andConj [Condition.equals "x" "y" "a",
          Condition.inCond "x" "w" ["e", "f"]]], []⟩
    ∧ iraceRead ["y \x7ba, b\x7d [a]", "x \x7bc, d\x7d [c]", "x | y in \x7ba\x7d"]
      = Except.ok ⟨[Hyperparameter.categorical "y" ["a", "b"] "a",
          Hyperparameter.categorical "x" ["c", "d"] "c"],
        [Condition.equals "x" "y" "a"], []⟩ := by
  refine ⟨?_, rfl, rfl⟩
  intro sp items hlook
  unfold iraceAssembleAll
  have hmapfst : (items.map (fun i => iraceCondToks i.1 i.2.1 i.2.2)).map
      (fun t => t.headD "") = items.map Prod.fst := by
    rw [List.map_map]
    apply List.map_congr_left
    intro i _
    exact iraceCondToks_headD i.1 i.2.1 i.2.2
  rw [hmapfst]
  exact iraceAssembleAux_spec items (firstOccur (items.map Prod.fst)) sp hlook
    (fun c hc => mem_firstOccur.mp hc)

/-- C4 witness: the assembly grouping on two concrete lines for one child. -/
theorem c4_irace_grouping_witness :
    iraceAssembleAll ⟨[Hyperparameter.categorical "y" ["a"] "a",
        Hyperparameter.categorical "w" ["e", "f"] "e",
        Hyperparameter.categorical "x" ["c"] "c"], [], []⟩
      ([("x", "y", ["a"]), ("x", "w", ["e", "f"])].map
        (fun i => iraceCondToks i.1 i.2.1 i.2.2))
      = Except.ok ⟨[Hyperparameter.categorical "y" ["a"] "a",
          Hyperparameter.categorical "w" ["e", "f"] "e",
          Hyperparameter.categorical "x" ["c"] "c"],
        [Condition.andConj [Condition.equals "x" "y" "a",
          Condition.inCond "x" "w" ["e", "f"]]], []⟩ :=
  c4_irace_grouping.1 _ [("x", "y", ["a"]), ("x", "w", ["e", "f"])] (by decide)

theorem pcsCondSecond_at5 {sp : ConfigurationSpace} {c p2 : String}
    (a0 a1 a2 a3 a4 conn : String) (n2 : Bool) (v2 : String)
    (hp2 : hasHpB sp p2 = true) (prev : Option Condition) :
    pcsCondSecond sp c [a0, a1, a2, a3, a4, conn, p2, (if n2 then "!=" else "=="), v2] 5 prev
      = Except.ok ((if n2 then Condition.notEquals c p2 v2 else Condition.equals c p2 v2),
          conn) := by
  obtain ⟨h2, hg2⟩ := getHp_ok_of_hasHpB hp2
  cases n2 with
  | false =>
    unfold pcsCondSecond
    simp only [show (if false = true then "!=" else "==") = "==" from rfl]
    rw [show (idx [a0, a1, a2, a3, a4, conn, p2, "==", v2] 5) = Except.ok conn from rfl,
      exbind_ok]
    rw [show (idx [a0, a1, a2, a3, a4, conn, p2, "==", v2] 6) = Except.ok p2 from rfl,
      exbind_ok]
    rw [hg2, exbind_ok]
    rfl
  | true =>
    unfold pcsCondSecond
    simp only [show (true = true) = True from by simp, if_true]
    rw [show (idx [a0, a1, a2, a3, a4, conn, p2, "!=", v2] 5) = Except.ok conn from rfl,
      exbind_ok]
    rw [show (idx [a0, a1, a2, a3, a4, conn, p2, "!=", v2] 6) = Except.ok p2 from rfl,
      exbind_ok]
    rw [hg2, exbind_ok]
    rfl

theorem pcsCondLine_pair {sp : ConfigurationSpace} {c p : String} {n1 : Bool}
    {v conn p2 : String} {n2 : Bool} {v2 : String}
    (hcc : hasHpB sp c = true) (hpp : hasHpB sp p = true) (hp2 : hasHpB sp p2 = true) :
    pcsCondLine sp c (PcsLineSpec.toToks c (PcsLineSpec.pair p n1 v conn p2 n2 v2))
      = Except.ok (PcsLineSpec.leaves c (PcsLineSpec.pair p n1 v conn p2 n2 v2),
          some conn) := by
  obtain ⟨h1, hgc⟩ := getHp_ok_of_hasHpB hcc
  obtain ⟨h2, hgp⟩ := getHp_ok_of_hasHpB hpp
  cases n1 with
  | false =>
    show pcsCondLine sp c [c, "|", p, "==", v, conn, p2, (if n2 then "!=" else "=="), v2]
      = Except.ok ([Condition.equals c p v,
          if n2 then Condition.notEquals c p2 v2 else Condition.equals c p2 v2], some conn)
    unfold pcsCondLine
    rw [hgc, exbind_ok]
    rw [show (idx [c, "|", p, "==", v, conn, p2, (if n2 then "!=" else "=="), v2] 2)
        = Except.ok p from rfl, exbind_ok]
    rw [hgp, exbind_ok]
    rw [pcsCondSecond_at5 c "|" p "==" v conn n2 v2 hp2 none]
    rfl
  | true =>
    show pcsCondLine sp c [c, "|", p, "!=", v, conn, p2, (if n2 then "!=" else "=="), v2]
      = Except.ok ([Condition.notEquals c p v,
          if n2 then Condition.notEquals c p2 v2 else Condition.equals c p2 v2], some conn)
    unfold pcsCondLine
    rw [hgc, exbind_ok]
    rw [show (idx [c, "|", p, "!=", v, conn, p2, (if n2 then "!=" else "=="), v2] 2)
        = Except.ok p from rfl, exbind_ok]
    rw [hgp, exbind_ok]
    rw [pcsCondSecond_at5 c "|" p "!=" v conn n2 v2 hp2 none]
    rfl

theorem pcsCondLine_spec {sp : ConfigurationSpace} {c : String} {s : PcsLineSpec}
    (hcc : hasHpB sp c = true) (hlk : PcsLineSpec.lookupsOkB sp s = true) :
    pcsCondLine sp c (PcsLineSpec.toToks c s)
      = Except.ok (PcsLineSpec.leaves c s, PcsLineSpec.conn? s) := by
  cases s with
  | singleIn p v => exact pcsCondLine_singleIn hcc hlk
  | pair p n1 v conn p2 n2 v2 =>
    rcases Bool.and_eq_true_iff.mp hlk with ⟨hpp, hp2⟩
    exact pcsCondLine_pair hcc hpp hp2

theorem pcsChildFold_spec {sp : ConfigurationSpace} {c : String}
    (hcc : hasHpB sp c = true) :
    ∀ (ss : List PcsLineSpec), (∀ s ∈ ss, PcsLineSpec.lookupsOkB sp s = true) →
    ∀ (objs : List Condition) (conn : Option String),
    pcsChildFold sp c (ss.map (fun s => PcsLineSpec.toToks c s)) objs conn
      = Except.ok (objs ++ (ss.map (fun s => PcsLineSpec.leaves c s)).flatten,
          ss.foldl (fun a s => match PcsLineSpec.conn? s with
            | some x => some x | none => a) conn) := by
  intro ss
  induction ss with
  | nil =>
    intro _ objs conn
    simp only [List.map_nil, List.flatten_nil, List.append_nil, List.foldl_nil]
    rfl
  | cons s t ih =>
    intro hlk objs conn
    rw [List.map_cons, pcsChildFold_cons,
      pcsCondLine_spec hcc (hlk s (List.mem_cons_self s t)), exbind_ok]
    show pcsChildFold sp c (t.map (fun s => PcsLineSpec.toToks c s))
      (objs ++ PcsLineSpec.leaves c s)
      (match PcsLineSpec.conn? s with | some x => some x | none => conn) = _
    rw [ih (fun x hx => hlk x (List.mem_cons_of_mem _ hx)) (objs ++ PcsLineSpec.leaves c s)
      (match PcsLineSpec.conn? s with | some x => some x | none => conn)]
    simp only [List.map_cons, List.flatten_cons, List.foldl_cons, List.append_assoc]

theorem foldlConn_last {p : String} {n1 : Bool} {v conn p2 : String} {n2 : Bool} {v2 : String} :
    ∀ {specs : List PcsLineSpec},
    specs.getLast? = some (PcsLineSpec.pair p n1 v conn p2 n2 v2) →
    ∀ (conn0 : Option String),
    specs.foldl (fun a s => match PcsLineSpec.conn? s with
      | some x => some x | none => a) conn0 = some conn := by
  intro specs
  induction specs with
  | nil => intro h; cases h
  | cons s t ih =>
    intro h conn0
    cases t with
    | nil =>
      rw [show ([s].getLast? : Option PcsLineSpec) = some s from rfl] at h
      injection h with h2
      subst h2
      rfl
    | cons b t2 =>
      rw [List.getLast?_cons_cons] at h
      rw [List.foldl_cons]
      exact ih h _

theorem leaves_len_pos (c : String) (s : PcsLineSpec) :
    1 ≤ (PcsLineSpec.leaves c s).length := by
  cases s <;> simp [PcsLineSpec.leaves]

theorem flatten_leaves_ge (c : String) :
    ∀ (ss : List PcsLineSpec),
    ss.length ≤ ((ss.map (fun s => PcsLineSpec.leaves c s)).flatten).length := by
  intro ss
  induction ss with
  | nil => exact Nat.le_refl 0
  | cons s t ih =>
    simp only [List.map_cons, List.flatten_cons, List.length_append, List.length_cons]
    have := leaves_len_pos c s
    omega

theorem pcsCombine_pair {objs : List Condition} {conn : String} (h : 2 ≤ objs.length) :
    pcsCombine objs (some conn)
      = Except.ok (if conn = "&&" then Condition.andConj objs else Condition.orConj objs) := by
  cases objs with
  | nil => simp at h
  | cons a t =>
    cases t with
    | nil => simp at h
    | cons b t2 => rfl

theorem firstOccurAux_all_seen :
    ∀ (l seen : List String), (∀ x ∈ l, seen.contains x = true) →
    firstOccurAux seen l = [] := by
  intro l
  induction l with
  | nil => intro seen _; rfl
  | cons a t ih =>
    intro seen hall
    unfold firstOccurAux
    rw [if_pos (hall a (List.mem_cons_self a t))]
    exact ih seen (fun x hx => hall x (List.mem_cons_of_mem a hx))

theorem firstOccur_const {α : Type} (c : String) :
    ∀ {l : List α}, l ≠ [] → firstOccur (l.map (fun _ => c)) = [c] := by
  intro l hne
  cases l with
  | nil => exact absurd rfl hne
  | cons a t =>
    rw [List.map_cons]
    unfold firstOccur firstOccurAux
    rw [if_neg (by simp [List.contains])]
    rw [firstOccurAux_all_seen _ _ (by
      intro x hx
      obtain ⟨y, _, rfl⟩ := List.mem_map.mp hx
      simp [List.contains_cons])]

/-- C5 (confirmed): in the explicit dialect, all condition lines for one
child contribute their condition leaves in line order, and the group is
combined with a single connective decided by the connective token parsed
from the last line of the group that carries one (here hypothesized to be
the group's final line): `&&` yields an AndConjunction, any other token an
OrConjunction — exactly one top-level condition for the child.  Also
exhibited through the full reader on a membership line followed by an
`&&` pair line. -/
theorem c5_pcs_connective :
    (∀ (sp : ConfigurationSpace) (c : String) (specs : List PcsLineSpec)
        (p : String) (n1 : Bool) (v conn p2 : String) (n2 : Bool) (v2 : String),
      hasHpB sp c = true →
      (∀ s ∈ specs, PcsLineSpec.lookupsOkB sp s = true) →
      2 ≤ specs.length →
      specs.getLast? = some (PcsLineSpec.pair p n1 v conn p2 n2 v2) →
      pcsAssembleAll sp (specs.map (fun s => PcsLineSpec.toToks c s))
        = Except.ok { sp with conditions := sp.conditions ++
            [if conn = "&&"
             then Condition.andConj ((specs.map (fun s => PcsLineSpec.leaves c s)).flatten)
             else Condition.orConj ((specs.map (fun s => PcsLineSpec.leaves c s)).flatten)] })
    ∧ pcsRead ["y categorical \x7ba, b\x7d [a]", "w categorical \x7be, f\x7d [e]",
        "x categorical \x7bc, d\x7d [c]", "x | y in \x7ba\x7d", "x | y == a && w == e"]
      = Except.ok ⟨[Hyperparameter.categorical "y" ["a", "b"] "a",
          Hyperparameter.categorical "w" ["e", "f"] "e",
          Hyperparameter.categorical "x" ["c", "d"] "c"],
        [Condition.andConj [Condition.inCond "x" "y" ["a"], Condition.equals "x" "y" "a",
          Condition.equals "x" "w" "e"]], []⟩
    ∧ pcsRead ["y categorical \x7ba, b\x7d [a]", "w categorical \x7be, f\x7d [e]",
        "x categorical \x7bc, d\x7d [c]", "x | y in \x7ba\x7d", "x | y == a || w == e"]
      = Except.ok ⟨[Hyperparameter.categorical "y" ["a", "b"] "a",
          Hyperparameter.categorical "w" ["e", "f"] "e",
          Hyperparameter.categorical "x" ["c", "d"] "c"],
        [Condition.orConj [Condition.inCond "x" "y" ["a"], Condition.equals "x" "y" "a",
          Condition.equals "x" "w" "e"]], []⟩ := by
  refine ⟨?_, rfl, rfl⟩
  intro sp c specs p n1 v conn p2 n2 v2 hcc hlk hlen hlast
  have hne : specs ≠ [] := by
    intro h
    rw [h] at hlen
    simp at hlen
  unfold pcsAssembleAll
  have hmapconst : (specs.map (fun s => PcsLineSpec.toToks c s)).map (fun t => t.headD "")
      = specs.map (fun _ => c) := by
    rw [List.map_map]
    apply List.map_congr_left
    intro s _
    exact toToks_headD c s
  rw [hmapconst, firstOccur_const c hne]
  rw [pcsAssembleAux_cons]
  rw [show (specs.map (fun s => PcsLineSpec.toToks c s)).filter (fun t => t.headD "" = c)
      = specs.map (fun s => PcsLineSpec.toToks c s) from
    List.filter_eq_self.mpr (by
      intro a ha
      obtain ⟨s, _, rfl⟩ := List.mem_map.mp ha
      exact decide_eq_true (toToks_headD c s))]
  rw [pcsChildFold_spec hcc specs hlk [] none, exbind_ok]
  rw [foldlConn_last hlast none]
  show (do
    let combined ← pcsCombine ([] ++ (specs.map (fun s => PcsLineSpec.leaves c s)).flatten)
      (some conn)
    pcsAssembleAux (specs.map (fun s => PcsLineSpec.toToks c s))
      { sp with conditions := sp.conditions ++ [combined] } [] (some conn)) = _
  rw [List.nil_append]
  rw [pcsCombine_pair (le_trans hlen (flatten_leaves_ge c specs)), exbind_ok]
  rfl

/-- C5 witness: a membership line followed by an `&&` pair line for child
`x` assemble into a single AndConjunction of the three leaves. -/
theorem c5_pcs_connective_witness :
    pcsAssembleAll ⟨[Hyperparameter.categorical "y" ["a"] "a",
        Hyperparameter.categorical "w" ["e"] "e",
        Hyperparameter.categorical "x" ["c"] "c"], [], []⟩
      ([PcsLineSpec.singleIn "y" "a",
        PcsLineSpec.pair "y" false "a" "&&" "w" false "e"].map
        (fun s => PcsLineSpec.toToks "x" s))
      = Except.ok ⟨[Hyperparameter.categorical "y" ["a"] "a",
          Hyperparameter.categorical "w" ["e"] "e",
          Hyperparameter.categorical "x" ["c"] "c"],
        [Condition.andConj [Condition.inCond "x" "y" ["a"], Condition.equals "x" "y" "a",
          Condition.equals "x" "w" "e"]], []⟩ :=
  c5_pcs_connective.1 _ "x"
    [PcsLineSpec.singleIn "y" "a", PcsLineSpec.pair "y" false "a" "&&" "w" false "e"]
    "y" false "a" "&&" "w" false "e" (by decide) (by decide) (by decide) rfl
